import Mathlib

/-!
Shallow embedding of the phase-1 process-management layer (pcb.c / asl.c):
process control blocks with a free-list pool, circular doubly-linked process
queues, process trees, and the active semaphore list.  Pointers are modelled
as `Option Nat` (node identifiers, `none` = NULL); the pools are heaps
`Nat → PCB` / `Nat → Semd`.  Every operation that can dereference NULL in C
returns `Option`, with `none` marking the fault (or fuel exhaustion of a
loop).  Each definition is a line-by-line translation of the corresponding C
function; distinct source revisions of the same function get suffixed names
(`outProcQ_v2` for the documented pcb.c revision, `outProcQ_part1`,
`insertChild_part0`, `outBlocked_part3` for the unnamed revision files).
-/

/-- Process control block, from the pcb_t structure: queue links, tree links,
processor-state snapshot (opaque, modelled as a number), accumulated cpu time
and the semaphore key the process is blocked on (`0` plays the role of NULL,
matching the C `int *` key where the null pointer is address 0). -/
structure PCB where
  p_next : Option Nat := none
  p_prev : Option Nat := none
  p_parent : Option Nat := none
  p_child : Option Nat := none
  p_sib_next : Option Nat := none
  p_sib_prev : Option Nat := none
  p_s : Nat := 0
  p_time : Nat := 0
  p_semAdd : Nat := 0
deriving Repr, DecidableEq, Inhabited

/-- The PCB pool: a total map from node identifiers to blocks. -/
def Heap : Type := Nat → PCB

instance : Inhabited Heap := ⟨fun _ => default⟩

/-- Write a whole block at one identifier. -/
def hset (h : Heap) (i : Nat) (v : PCB) : Heap := fun j => if j = i then v else h j

def setNext (h : Heap) (i : Nat) (v : Option Nat) : Heap := hset h i { h i with p_next := v }
def setPrev (h : Heap) (i : Nat) (v : Option Nat) : Heap := hset h i { h i with p_prev := v }
def setParent (h : Heap) (i : Nat) (v : Option Nat) : Heap := hset h i { h i with p_parent := v }
def setChild (h : Heap) (i : Nat) (v : Option Nat) : Heap := hset h i { h i with p_child := v }
def setSibNext (h : Heap) (i : Nat) (v : Option Nat) : Heap := hset h i { h i with p_sib_next := v }
def setSibPrev (h : Heap) (i : Nat) (v : Option Nat) : Heap := hset h i { h i with p_sib_prev := v }
def setSemAdd (h : Heap) (i : Nat) (v : Nat) : Heap := hset h i { h i with p_semAdd := v }

/-- mkEmptyProcQ: the empty queue is the NULL tail pointer. -/
def mkEmptyProcQ : Option Nat := none

/-- emptyProcQ: a queue is empty iff its tail pointer is NULL. -/
def emptyProcQ (tp : Option Nat) : Bool := tp.isNone

/-- insertProcQ, primary pcb.c revision (identical in the documented
revision): insert `p` at the tail of the circular doubly-linked queue whose
tail pointer is `tp`.  Returns the new heap and the new tail pointer, `none`
on a NULL dereference. -/
def insertProcQ (h : Heap) (tp p : Option Nat) : Option (Heap × Option Nat) :=
  match p with
  | none => some (h, tp)
  | some pid =>
    match tp with
    | none =>
      some (setNext (setPrev h pid (some pid)) pid (some pid), some pid)
    | some t =>
      let h1 := setNext h pid ((h t).p_next)
      let h2 := setPrev h1 pid (some t)
      match (h2 t).p_next with
      | none => none
      | some hd =>
        let h3 := setPrev h2 hd (some pid)
        let h4 := setNext h3 t (some pid)
        some (h4, some pid)

/-- removeProcQ, primary pcb.c revision (lines 75-92): remove and return the
head `(*tp)->p_next`; splice it out and clear its queue links. -/
def removeProcQ (h : Heap) (tp : Option Nat) : Option (Heap × Option Nat × Option Nat) :=
  match tp with
  | none => some (h, none, none)
  | some t =>
    let rm := (h t).p_next
    if rm = some t then
      let h1 := setNext h t none
      let h2 := setPrev h1 t none
      some (h2, none, some t)
    else
      match rm with
      | none => none
      | some r =>
        match (h r).p_prev with
        | none => none
        | some rp =>
          let h1 := setNext h rp ((h r).p_next)
          match (h1 r).p_next with
          | none => none
          | some rn =>
            let h2 := setPrev h1 rn ((h1 r).p_prev)
            let tp' := (h2 r).p_prev
            let h3 := setNext h2 r none
            let h4 := setPrev h3 r none
            some (h4, tp', some r)

/-- The do-while loop of outProcQ, primary pcb.c revision (lines 94-122):
`iter` walks the circle starting at the tail; on finding `pid` the tail
reference is first retargeted, then the node is spliced out and its links
cleared. -/
def outProcQLoop (h : Heap) (t pid : Nat) (iter : Option Nat) : Nat → Option (Heap × Option Nat × Option Nat)
  | 0 => none
  | fuel+1 =>
    match iter with
    | none => none
    | some i =>
      if i = pid then
        let tp1 : Option Nat :=
          if i = t then (if (h i).p_next = some i then none else (h i).p_prev) else some t
        match (h i).p_prev with
        | none => none
        | some ip =>
          let h1 := setNext h ip ((h i).p_next)
          match (h1 i).p_next with
          | none => none
          | some inx =>
            let h2 := setPrev h1 inx ((h1 i).p_prev)
            let h3 := setNext h2 i none
            let h4 := setPrev h3 i none
            some (h4, tp1, some pid)
      else
        let nxt := (h i).p_next
        if nxt = some t then some (h, some t, none)
        else outProcQLoop h t pid nxt fuel

/-- outProcQ, primary pcb.c revision: remove the specific block `p` from the
queue with tail pointer `tp`. -/
def outProcQ (h : Heap) (tp p : Option Nat) (fuel : Nat) : Option (Heap × Option Nat × Option Nat) :=
  match p, tp with
  | none, _ => some (h, tp, none)
  | some _, none => some (h, none, none)
  | some pid, some t => outProcQLoop h t pid (some t) fuel

/-- The case-4 scan loop of the documented pcb.c revision of outProcQ. -/
def outScanV2 (h : Heap) (t pid : Nat) (iter : Option Nat) : Nat → Option (Heap × Option Nat × Option Nat)
  | 0 => none
  | fuel+1 =>
    match iter with
    | none => none
    | some i =>
      if i = t then some (h, some t, none)
      else if i = pid then
        match (h i).p_prev with
        | none => none
        | some ip =>
          let h1 := setNext h ip ((h i).p_next)
          match (h1 i).p_next with
          | none => none
          | some inx =>
            let h2 := setPrev h1 inx ((h1 i).p_prev)
            let h3 := setNext h2 i none
            let h4 := setPrev h3 i none
            some (h4, some t, some pid)
      else outScanV2 h t pid ((h i).p_next) fuel

/-- outProcQ, documented pcb.c revision (lines 367-413, cases 1-5).  Note
case 3 (`p` is the tail): the node's links are reset to NULL before the line
`*tp = (*tp)->p_prev` executes, so the tail reference is read from the
already-cleared field. -/
def outProcQ_v2 (h : Heap) (tp p : Option Nat) (fuel : Nat) : Option (Heap × Option Nat × Option Nat) :=
  match p, tp with
  | none, _ => some (h, tp, none)
  | some _, none => some (h, none, none)
  | some pid, some t =>
    if (h t).p_next = some t then
      if pid = t then some (h, none, some pid) else some (h, some t, none)
    else if pid = t then
      match (h t).p_prev with
      | none => none
      | some tpv =>
        let h1 := setNext h tpv ((h t).p_next)
        match (h1 t).p_next with
        | none => none
        | some tnx =>
          let h2 := setPrev h1 tnx ((h1 t).p_prev)
          let h3 := setNext h2 t none
          let h4 := setPrev h3 t none
          some (h4, (h4 t).p_prev, some pid)
    else outScanV2 h t pid ((h t).p_next) fuel

/-- The scan loop of the part_001 revision of outProcQ. -/
def outScanPart1 (h : Heap) (t pid : Nat) (iter : Option Nat) : Nat → Option (Heap × Option Nat × Option Nat)
  | 0 => none
  | fuel+1 =>
    match iter with
    | none => none
    | some i =>
      if i = t then some (h, some t, none)
      else if i = pid then
        match (h i).p_prev with
        | none => none
        | some ip =>
          let h1 := setNext h ip ((h i).p_next)
          match (h1 i).p_next with
          | none => none
          | some inx =>
            let h2 := setPrev h1 inx ((h1 i).p_prev)
            let tp' := (h2 t).p_prev
            let h3 := setNext h2 i none
            let h4 := setPrev h3 i none
            some (h4, tp', some pid)
      else outScanPart1 h t pid ((h i).p_next) fuel

/-- outProcQ, part_001 revision (lines 191-219): when `p` equals the tail the
queue is declared empty and `p` is returned without splicing or clearing; in
the scan case the tail reference is unconditionally moved to `(*tp)->p_prev`. -/
def outProcQ_part1 (h : Heap) (tp p : Option Nat) (fuel : Nat) : Option (Heap × Option Nat × Option Nat) :=
  match p, tp with
  | none, _ => some (h, tp, none)
  | some _, none => some (h, none, none)
  | some pid, some t =>
    if pid = t then some (h, none, some pid)
    else outScanPart1 h t pid ((h t).p_next) fuel

/-- headProcQ: return the head `tp->p_next` without removing it; NULL on the
empty queue. -/
def headProcQ (h : Heap) (tp : Option Nat) : Option Nat :=
  match tp with
  | none => none
  | some t => (h t).p_next

/-- State of the PCB pool module: the heap and the free-list head `pcbFree_h`. -/
structure PoolState where
  pcbs : Heap
  pcbFree_h : Option Nat
deriving Inhabited

/-- The initialisation loop of initPcbs: for `n` more slots starting at index
`i`, push `pcbPool[i]` onto the free list (`pcbPool[i].p_next = pcbFree_h;
pcbFree_h = &pcbPool[i]`). -/
def initPcbsLoop (s : PoolState) (i : Nat) : Nat → PoolState
  | 0 => s
  | n+1 =>
    let s' : PoolState :=
      { pcbs := setNext s.pcbs i s.pcbFree_h, pcbFree_h := some i }
    initPcbsLoop s' (i+1) n

/-- initPcbs: thread all `maxproc` statically allocated (hence zero
initialised) blocks into the NULL-terminated free list. -/
def initPcbs (maxproc : Nat) : PoolState :=
  initPcbsLoop { pcbs := fun _ => default, pcbFree_h := none } 0 maxproc

/-- freePcb: push `p` back on the free-list head; no-op on NULL. -/
def freePcb (s : PoolState) (p : Option Nat) : PoolState :=
  match p with
  | none => s
  | some pid =>
    { pcbs := setNext s.pcbs pid s.pcbFree_h, pcbFree_h := some pid }

/-- allocPcb (final revision, pcb.c lines 234-252 / part_000 lines 35-51):
pop the free-list head and reset the queue links, tree links, cpu time and
semaphore key.  The processor-state snapshot `p_s` is not touched by the
source, and the support-structure field is commented out of the pcb_t
declaration, so neither is reset here. -/
def allocPcb (s : PoolState) : PoolState × Option Nat :=
  match s.pcbFree_h with
  | none => (s, none)
  | some r =>
    let h1 := hset s.pcbs r
      { s.pcbs r with
        p_next := none,
        p_prev := none,
        p_parent := none,
        p_child := none,
        p_sib_next := none,
        p_sib_prev := none,
        p_time := 0,
        p_semAdd := 0 }
    ({ pcbs := h1, pcbFree_h := (s.pcbs r).p_next }, some r)

/-- allocPcb, first pcb.c revision (lines 26-43): pop the free-list head and
reset the queue links, the tree links and the cpu time.  The first-revision
pcb_t (part_004) has a single sibling link `p_sib`, modelled here on the
`p_sib_next` field; `p_sib_prev` does not exist in that structure.  Neither
`p_semAdd` nor the snapshot `p_s` is written, and the support field is
commented out. -/
def allocPcb_v1 (s : PoolState) : PoolState × Option Nat :=
  match s.pcbFree_h with
  | none => (s, none)
  | some r =>
    let h1 := hset s.pcbs r
      { s.pcbs r with
        p_next := none,
        p_prev := none,
        p_parent := none,
        p_child := none,
        p_sib_next := none,
        p_time := 0 }
    ({ pcbs := h1, pcbFree_h := (s.pcbs r).p_next }, some r)

/-- emptyChild: true iff `p->p_child` is NULL (callers guarantee `p` non-NULL). -/
def emptyChild (h : Heap) (pid : Nat) : Bool := ((h pid).p_child).isNone

/-- insertChild, documented pcb.c revision (lines 480-498): make `p` the
first child of `prnt`, pushing the previous first child behind it in the
doubly-linked sibling list. -/
def insertChild (h : Heap) (prnt p : Option Nat) : Heap :=
  match prnt, p with
  | none, _ => h
  | _, none => h
  | some pr, some pid =>
    let h0 := setParent h pid (some pr)
    if emptyChild h0 pr then
      setSibPrev (setSibNext (setChild h0 pr (some pid)) pid none) pid none
    else
      let h1 := setSibNext h0 pid ((h0 pr).p_child)
      match (h1 pid).p_sib_next with
      | none => h1
      | some oldFirst =>
        let h2 := setSibPrev h1 oldFirst (some pid)
        let h3 := setChild h2 pr (some pid)
        setSibPrev h3 pid none

/-- outChild, documented pcb.c revision (lines 545-565): detach `p` from its
parent's child list wherever it sits, then clear its tree links. -/
def outChild (h : Heap) (p : Option Nat) : Heap × Option Nat :=
  match p with
  | none => (h, none)
  | some pid =>
    match (h pid).p_parent with
    | none => (h, none)
    | some par =>
      let h1 := if (h par).p_child = some pid then setChild h par ((h pid).p_sib_next) else h
      let h2 :=
        match (h1 pid).p_sib_prev with
        | none => h1
        | some sp => setSibNext h1 sp ((h1 pid).p_sib_next)
      let h3 :=
        match (h2 pid).p_sib_next with
        | none => h2
        | some sn => setSibPrev h2 sn ((h2 pid).p_sib_prev)
      let h4 := setParent (setSibPrev (setSibNext h3 pid none) pid none) pid none
      (h4, some pid)

/-- removeChild, documented pcb.c revision: remove and return the first child
via outChild. -/
def removeChild (h : Heap) (p : Option Nat) : Heap × Option Nat :=
  match p with
  | none => (h, none)
  | some pid =>
    if emptyChild h pid then (h, none)
    else outChild h ((h pid).p_child)

/-- The duplicate-scan loop of the part_000 revision of insertChild: walk to
the last sibling, bailing out if `p` is already present. -/
def insChildLoopPart0 (h : Heap) (pid : Nat) (iter : Nat) : Nat → Option (Option Nat)
  | 0 => none
  | fuel+1 =>
    match (h iter).p_sib_next with
    | none => if iter = pid then some none else some (some iter)
    | some nx => if iter = pid then some none else insChildLoopPart0 h pid nx fuel

/-- insertChild, part_000 revision (lines 151-177): append `p` at the BACK of
the sibling list (walks to the last sibling and links `p` after it). -/
def insertChild_part0 (h : Heap) (prnt p : Option Nat) (fuel : Nat) : Option Heap :=
  match prnt, p with
  | none, _ => some h
  | _, none => some h
  | some pr, some pid =>
    let h0 := setParent h pid (some pr)
    if emptyChild h0 pr then
      some (setSibPrev (setSibNext (setChild h0 pr (some pid)) pid none) pid none)
    else
      match (h0 pr).p_child with
      | none => none
      | some c0 =>
        match insChildLoopPart0 h0 pid c0 fuel with
        | none => none
        | some none => some h0
        | some (some lastSib) =>
          let h1 := setSibNext h0 lastSib (some pid)
          let h2 := setSibPrev h1 pid (some lastSib)
          some (setSibNext h2 pid none)

/-- removeChild, part_000 revision (lines 179-196): pop the first child
directly. -/
def removeChild_part0 (h : Heap) (p : Option Nat) : Heap × Option Nat :=
  match p with
  | none => (h, none)
  | some pid =>
    if emptyChild h pid then (h, none)
    else
      match (h pid).p_child with
      | none => (h, none)
      | some c =>
        let h1 := setParent h c none
        if (h1 c).p_sib_next = none then (setChild h1 pid none, some c)
        else
          let h2 := setChild h1 pid ((h1 c).p_sib_next)
          let h3 := setSibNext h2 c none
          match (h3 pid).p_child with
          | none => (h3, some c)
          | some nf => (setSibPrev h3 nf none, some c)

/-- Semaphore descriptor, from the semd_t structure: singly-linked ASL
pointer, the semaphore key (`0` = NULL pointer, also the head-sentinel key)
and the tail pointer of the blocked-process queue. -/
structure Semd where
  s_next : Option Nat := none
  s_semAdd : Nat := 0
  s_procQ : Option Nat := none
deriving Repr, DecidableEq, Inhabited

/-- MAX_INT, the tail-sentinel key: compares above every real semaphore key. -/
def MAX_INT : Nat := 4294967295

/-- The semaphore-descriptor pool map. -/
def SemdHeap : Type := Nat → Semd

instance : Inhabited SemdHeap := ⟨fun _ => default⟩

def sset (g : SemdHeap) (i : Nat) (v : Semd) : SemdHeap := fun j => if j = i then v else g j

def sSetNext (g : SemdHeap) (i : Nat) (v : Option Nat) : SemdHeap := sset g i { g i with s_next := v }
def sSetSemAdd (g : SemdHeap) (i : Nat) (v : Nat) : SemdHeap := sset g i { g i with s_semAdd := v }
def sSetProcQ (g : SemdHeap) (i : Nat) (v : Option Nat) : SemdHeap := sset g i { g i with s_procQ := v }

/-- Combined state of the ASL module: the PCB heap it writes through, the
descriptor heap, the ASL head `semd_h` and the descriptor free list head
`semdFree_h`. -/
structure AslState where
  pcbs : Heap
  semds : SemdHeap
  semd_h : Option Nat
  semdFree_h : Option Nat
deriving Inhabited

/-- The for-loop of traverseASL: advance while
`semAdd > iter->s_next->s_semAdd && iter->s_semAdd < MAX_INT` (left conjunct
evaluated first, dereferencing `s_next`). -/
def travLoop (g : SemdHeap) (k : Nat) : Option Nat → Nat → Option (Option Nat)
  | none, _ => none
  | some _, 0 => none
  | some i, fuel+1 =>
    match (g i).s_next with
    | none => none
    | some nid =>
      if (g nid).s_semAdd < k then
        if (g i).s_semAdd < MAX_INT then travLoop g k (some nid) fuel
        else some (some i)
      else some (some i)

/-- traverseASL: NULL for a NULL key, otherwise the loop from `semd_h`.  The
outer `Option` is the fault monad; the inner `Option Nat` is the returned
(possibly NULL) descriptor pointer. -/
def traverseASL (s : AslState) (semAdd : Nat) (fuel : Nat) : Option (Option Nat) :=
  if semAdd = 0 then some none
  else travLoop s.semds semAdd s.semd_h fuel

/-- removeEmptySemd (primary asl.c, lines 24-37): if `semdLoc->s_next` exists
and its queue is empty, unlink it from the ASL and push it on the descriptor
free list, resetting its queue. -/
def removeEmptySemd (s : AslState) (semdLoc : Option Nat) : AslState :=
  match semdLoc with
  | none => s
  | some loc =>
    match (s.semds loc).s_next with
    | none => s
    | some cur =>
      if emptyProcQ (s.semds cur).s_procQ then
        let sd1 := sSetNext s.semds loc ((s.semds cur).s_next)
        let sd2 := sSetProcQ sd1 cur none
        let sd3 := sSetNext sd2 cur s.semdFree_h
        { s with semds := sd3, semdFree_h := some cur }
      else s

/-- insertBlocked (primary asl.c, lines 39-67): reject NULL inputs, record
`p->p_semAdd = semAdd`, then either append to the existing descriptor's queue
or allocate a descriptor from the free list (failure `true` if none remain)
and splice it in after the traverse position. -/
def insertBlocked (s : AslState) (semAdd : Nat) (p : Option Nat) (fuel : Nat) : Option (AslState × Bool) :=
  match p with
  | none => some (s, true)
  | some pid =>
    if semAdd = 0 then some (s, true)
    else
      let s1 : AslState := { s with pcbs := setSemAdd s.pcbs pid semAdd }
      match traverseASL s1 semAdd fuel with
      | none => none
      | some none => none
      | some (some loc) =>
        match (s1.semds loc).s_next with
        | none => none
        | some nid =>
          if (s1.semds nid).s_semAdd = semAdd then
            match insertProcQ s1.pcbs ((s1.semds nid).s_procQ) (some pid) with
            | none => none
            | some (h', tp') =>
              some ({ s1 with pcbs := h', semds := sSetProcQ s1.semds nid tp' }, false)
          else
            match s1.semdFree_h with
            | none => some (s1, true)
            | some f =>
              let s2 : AslState := { s1 with semdFree_h := (s1.semds f).s_next }
              let sd1 := sSetNext s2.semds f ((s2.semds loc).s_next)
              let sd2 := sSetNext sd1 loc (some f)
              let sd3 := sSetProcQ sd2 f mkEmptyProcQ
              let sd4 := sSetSemAdd sd3 f semAdd
              match insertProcQ s2.pcbs ((sd4 f).s_procQ) (some pid) with
              | none => none
              | some (h', tp') =>
                some ({ pcbs := h', semds := sSetProcQ sd4 f tp',
                        semd_h := s2.semd_h, semdFree_h := s2.semdFree_h }, false)

/-- outBlocked (primary asl.c, lines 73-91): locate the descriptor through
`p->p_semAdd`, remove `p` from its queue with outProcQ, clear `p->p_semAdd`
on success and reclaim the descriptor via removeEmptySemd if its queue
emptied. -/
def outBlocked (s : AslState) (p : Option Nat) (fuel qfuel : Nat) : Option (AslState × Option Nat) :=
  match p with
  | none => some (s, none)
  | some pid =>
    let k := (s.pcbs pid).p_semAdd
    if k = 0 then some (s, none)
    else
      match traverseASL s k fuel with
      | none => none
      | some none => none
      | some (some loc) =>
        match (s.semds loc).s_next with
        | none => none
        | some nid =>
          if (s.semds nid).s_semAdd ≠ k then some (s, none)
          else if emptyProcQ (s.semds nid).s_procQ then some (s, none)
          else
            match outProcQ s.pcbs ((s.semds nid).s_procQ) (some pid) qfuel with
            | none => none
            | some (h', tp', rm) =>
              let s2 : AslState := { s with pcbs := h', semds := sSetProcQ s.semds nid tp' }
              match rm with
              | none => some (s2, none)
              | some rid =>
                let s3 : AslState := { s2 with pcbs := setSemAdd s2.pcbs rid 0 }
                some (removeEmptySemd s3 (some loc), some rid)

/-- headBlocked (primary asl.c, lines 93-105): `traverseASL(semAdd)->s_next`
with no NULL check on the traverse result, then peek the queue head and
re-assert its `p_semAdd`. -/
def headBlocked (s : AslState) (semAdd : Nat) (fuel : Nat) : Option (AslState × Option Nat) :=
  match traverseASL s semAdd fuel with
  | none => none
  | some none => none
  | some (some loc) =>
    match (s.semds loc).s_next with
    | none => none
    | some nid =>
      if (s.semds nid).s_semAdd ≠ semAdd then some (s, none)
      else if emptyProcQ (s.semds nid).s_procQ then some (s, none)
      else
        match headProcQ s.pcbs ((s.semds nid).s_procQ) with
        | none => none
        | some rid => some ({ s with pcbs := setSemAdd s.pcbs rid semAdd }, some rid)

/-- removeBlocked (primary asl.c, line 69-71): `outBlocked(headBlocked(semAdd))`. -/
def removeBlocked (s : AslState) (semAdd : Nat) (fuel qfuel : Nat) : Option (AslState × Option Nat) :=
  match headBlocked s semAdd fuel with
  | none => none
  | some (s1, hb) => outBlocked s1 hb fuel qfuel

/-- outBlocked, part_003 revision (lines 162-191): identical lookup, but
`pcbRm->p_semAdd = NULL` is executed only inside the
`emptyProcQ(semdCurr->s_procQ)` branch, i.e. only when the removal emptied
the queue, and the descriptor is reclaimed inline. -/
def outBlocked_part3 (s : AslState) (p : Option Nat) (fuel qfuel : Nat) : Option (AslState × Option Nat) :=
  match p with
  | none => some (s, none)
  | some pid =>
    let k := (s.pcbs pid).p_semAdd
    if k = 0 then some (s, none)
    else
      match traverseASL s k fuel with
      | none => none
      | some none => none
      | some (some loc) =>
        match (s.semds loc).s_next with
        | none => none
        | some nid =>
          if (s.semds nid).s_semAdd ≠ k then some (s, none)
          else if emptyProcQ (s.semds nid).s_procQ then some (s, none)
          else
            match outProcQ s.pcbs ((s.semds nid).s_procQ) (some pid) qfuel with
            | none => none
            | some (h', tp', rm) =>
              let s2 : AslState := { s with pcbs := h', semds := sSetProcQ s.semds nid tp' }
              match rm with
              | none => some (s2, none)
              | some rid =>
                if emptyProcQ tp' then
                  let s3 : AslState := { s2 with pcbs := setSemAdd s2.pcbs rid 0 }
                  let sd1 := sSetNext s3.semds loc ((s3.semds nid).s_next)
                  let sd2 := sSetProcQ sd1 nid mkEmptyProcQ
                  let sd3 := sSetNext sd2 nid s3.semdFree_h
                  some ({ s3 with semds := sd3, semdFree_h := some nid }, some rid)
                else some (s2, some rid)

/-- removeBlocked, part_003 revision: `outBlocked(headBlocked(semAdd))` with
the part_003 outBlocked (its headBlocked is identical to the primary one). -/
def removeBlocked_part3 (s : AslState) (semAdd : Nat) (fuel qfuel : Nat) : Option (AslState × Option Nat) :=
  match headBlocked s semAdd fuel with
  | none => none
  | some (s1, hb) => outBlocked_part3 s1 hb fuel qfuel

/-- initASL (primary asl.c, lines 107-124): thread descriptors
`0 .. maxproc-1` into the free list and install the two permanent sentinels
at indices `maxproc` (key 0) and `maxproc+1` (key MAX_INT).  The PCB heap is
whatever the surrounding system has; initASL does not touch it. -/
def initASL (maxproc : Nat) (pcbs0 : Heap) : AslState :=
  let semds0 : SemdHeap := fun i =>
    if i < maxproc then
      { s_next := if i + 1 = maxproc then none else some (i+1), s_semAdd := 0, s_procQ := mkEmptyProcQ }
    else if i = maxproc then
      { s_next := some (maxproc+1), s_semAdd := 0, s_procQ := mkEmptyProcQ }
    else if i = maxproc + 1 then
      { s_next := none, s_semAdd := MAX_INT, s_procQ := mkEmptyProcQ }
    else default
  { pcbs := pcbs0, semds := semds0, semd_h := some maxproc, semdFree_h := some 0 }

/-! Observation predicates and trace machinery used by the theorems. -/

/-- A NULL-terminated singly-linked chain: starting from `s` and following
`g`, the visited identifiers are exactly `l`. -/
def chainB (g : Nat → Option Nat) : Option Nat → List Nat → Bool
  | none, [] => true
  | none, _ :: _ => false
  | some _, [] => false
  | some i, j :: rest => i == j && chainB g (g j) rest

/-- The successor map of the PCB heap (queue links). -/
def pnextOf (h : Heap) : Nat → Option Nat := fun i => (h i).p_next

/-- The successor map of the descriptor heap (ASL / free-list links). -/
def nextOf (g : SemdHeap) : Nat → Option Nat := fun i => (g i).s_next

/-- The keys of a list of descriptors, in order. -/
def keysOf (g : SemdHeap) (l : List Nat) : List Nat := l.map fun i => (g i).s_semAdd

/-- Follow a successor map until NULL, with fuel; the computable companion of
`chainB` used to exhibit concrete traversals. -/
def chase (g : Nat → Option Nat) : Option Nat → Nat → Option (List Nat)
  | none, _ => some []
  | some _, 0 => none
  | some i, fuel+1 => (chase g (g i) fuel).map (i :: ·)

/-- Adjacency in a circular doubly-linked queue: `b` follows `a`. -/
def qRel (h : Heap) (a b : Nat) : Prop := (h a).p_next = some b ∧ (h b).p_prev = some a

instance qRelDec (h : Heap) (a b : Nat) : Decidable (qRel h a b) :=
  inferInstanceAs (Decidable (_ ∧ _))

/-- Consecutive adjacency along a list of queue members. -/
def links (h : Heap) : List Nat → Prop
  | [] => True
  | [_] => True
  | x :: y :: rest => qRel h x y ∧ links h (y :: rest)

instance linksDec (h : Heap) : (l : List Nat) → Decidable (links h l)
  | [] => .isTrue trivial
  | [_] => .isTrue trivial
  | _ :: y :: rest =>
    haveI : Decidable (links h (y :: rest)) := linksDec h (y :: rest)
    inferInstanceAs (Decidable (_ ∧ _))

/-- The queue with tail pointer `tp` holds exactly the members `q`, in FIFO
order (head first, tail last), circularly linked. -/
def queueRep (h : Heap) (tp : Option Nat) (q : List Nat) : Prop :=
  match tp, q with
  | none, [] => True
  | some t, a :: rest =>
    (a :: rest).getLast? = some t ∧ (a :: rest).Nodup ∧ links h ((a :: rest) ++ [a])
  | _, _ => False

instance queueRepDec (h : Heap) : (tp : Option Nat) → (q : List Nat) → Decidable (queueRep h tp q)
  | none, [] => .isTrue trivial
  | none, _ :: _ => .isFalse fun c => c
  | some _, [] => .isFalse fun c => c
  | some _, _ :: _ => inferInstanceAs (Decidable (_ ∧ _ ∧ _))

/-- A caller-side pool trace: allocations, and releases of blocks currently
held by the caller (the spec makes releasing anything else the caller's
responsibility and undefined). -/
inductive PoolOp where
  | alloc : PoolOp
  | free : Nat → PoolOp
deriving Repr, DecidableEq

/-- Run a pool trace, tracking the multiset of blocks the caller holds; a
release of a block not held aborts the trace (illegal per the contract). -/
def runOps : PoolState × List Nat → List PoolOp → Option (PoolState × List Nat)
  | sh, [] => some sh
  | (s, held), PoolOp.alloc :: rest =>
    match allocPcb s with
    | (s', none) => runOps (s', held) rest
    | (s', some i) => runOps (s', i :: held) rest
  | (s, held), PoolOp.free i :: rest =>
    if i ∈ held then runOps (freePcb s (some i), held.erase i) rest else none

/-- Run a pool trace from a freshly initialised pool. -/
def afterOps (maxproc : Nat) (ops : List PoolOp) : Option (PoolState × List Nat) :=
  runOps (initPcbs maxproc, []) ops

/-- `allocOk s n`: `n` consecutive allocPcb calls from `s` all succeed. -/
def allocOk (s : PoolState) : Nat → Bool
  | 0 => true
  | n+1 =>
    match allocPcb s with
    | (_, none) => false
    | (s', some _) => allocOk s' n

/-- The descending list `[i+n-1, …, i+1, i]`: the free list built by
initPcbs. -/
def revFrom (i : Nat) : Nat → List Nat
  | 0 => []
  | n+1 => (i+n) :: revFrom i n

/-- An ASL trace operation. -/
inductive AslOp where
  | insB : Nat → Option Nat → AslOp
  | remB : Nat → AslOp
  | outB : Option Nat → AslOp
deriving Repr, DecidableEq

/-- Real semaphore keys lie strictly between the sentinel keys (the spec's
"guaranteed to compare below/above every real key"). -/
def validOpB : AslOp → Bool
  | .insB k _ => decide (0 < k) && decide (k < MAX_INT)
  | .remB k => decide (0 < k) && decide (k < MAX_INT)
  | .outB _ => true

/-- Execute one ASL operation (fault/fuel exhaustion propagates as `none`). -/
def execAslOp (fuel : Nat) (s : AslState) : AslOp → Option AslState
  | .insB k p => (insertBlocked s k p fuel).map Prod.fst
  | .remB k => (removeBlocked s k fuel fuel).map Prod.fst
  | .outB p => (outBlocked s p fuel fuel).map Prod.fst

/-- Run an ASL trace. -/
def runAsl (fuel : Nat) (s : AslState) : List AslOp → Option AslState
  | [] => some s
  | op :: rest =>
    match execAslOp fuel s op with
    | none => none
    | some s' => runAsl fuel s' rest

/-- Well-formedness of the descriptor side of an ASL state: the active list
is `hd :: mids ++ [tl]` with the two sentinels at the ends, keys strictly
ascending, the free list is `fl`, all the descriptors are distinct, every
active real descriptor has a non-empty queue and every free descriptor an
empty one. -/
def AslShape (s : AslState) (hd : Nat) (mids : List Nat) (tl : Nat) (fl : List Nat) : Prop :=
  chainB (nextOf s.semds) s.semd_h (hd :: (mids ++ [tl])) = true ∧
  chainB (nextOf s.semds) s.semdFree_h fl = true ∧
  ((hd :: (mids ++ [tl])) ++ fl).Nodup ∧
  List.Chain' (· < ·) (keysOf s.semds (hd :: (mids ++ [tl]))) ∧
  (s.semds hd).s_semAdd = 0 ∧
  (s.semds tl).s_semAdd = MAX_INT ∧
  (∀ x ∈ hd :: mids, (s.semds x).s_semAdd < MAX_INT) ∧
  (∀ d ∈ mids, (s.semds d).s_procQ ≠ none) ∧
  (∀ f ∈ fl, (s.semds f).s_procQ = none)

/-- Full ASL invariant: some well-formed shape exists and no block records a
sentinel-or-above key. -/
def AslInv (s : AslState) : Prop :=
  (∃ hd mids tl fl, AslShape s hd mids tl fl) ∧ ∀ i, (s.pcbs i).p_semAdd < MAX_INT

/-! Concrete states used to evaluate the operations at specific inputs. -/

/-- The all-zero PCB heap (the statically allocated pool at program start). -/
def h0 : Heap := fun _ => default

/-- A two-member queue: head 0, tail 1 (each the other's neighbour both
ways). -/
def twoQueueHeap : Heap :=
  hset (hset h0 0 { p_next := some 1, p_prev := some 1 })
    1 { p_next := some 0, p_prev := some 0 }

/-- A singleton queue holding just block 0 (self-linked). -/
def oneQueueHeap : Heap :=
  hset h0 0 { p_next := some 0, p_prev := some 0 }

/-- A pool state whose single free block carries a stale processor-state
snapshot (as any block does after a caller stored state in it and released
it). -/
def c6pool : PoolState :=
  { pcbs := hset h0 0 { p_s := 5 }, pcbFree_h := some 0 }

/-- Result of allocating from `c6pool`. -/
def c6alloc : PoolState × Option Nat := allocPcb c6pool

/-- A pool whose single free block carries both a stale processor-state
snapshot and a stale blockedOn key (as after releasing a block that was
blocked on a semaphore). -/
def c6poolStale : PoolState :=
  { pcbs := hset h0 0 { p_s := 5, p_semAdd := 7 }, pcbFree_h := some 0 }

/-- Result of the first-revision allocPcb on `c6poolStale`. -/
def c6v1alloc : PoolState × Option Nat := allocPcb_v1 c6poolStale

/-- Pool trace for the C2 witness: two slots, one allocation. -/
def c2run : PoolState × List Nat := (afterOps 2 [PoolOp.alloc]).getD default

/-- ASL state after `initASL 2` (pcb heap all zero) and blocking pcbs 0 and 1
on key 5: descriptor 0 active with queue `[0, 1]`. -/
def c3s : AslState :=
  ((insertBlocked (((insertBlocked (initASL 2 h0) 5 (some 0) 9).getD default).1)
      5 (some 1) 9).getD default).1

/-- part_003's removeBlocked applied to `c3s` at key 5. -/
def c3p3 : AslState × Option Nat := (removeBlocked_part3 c3s 5 9 9).getD default

/-- The primary removeBlocked applied to `c3s` at key 5 (C3 witness data). -/
def c3run : AslState × Option Nat := (removeBlocked c3s 5 9 9).getD default

/-- ASL state with an exhausted descriptor free list: `initASL 1` followed by
blocking pcb 0 on key 5 consumes the only descriptor. -/
def c4s : AslState := ((insertBlocked (initASL 1 h0) 5 (some 0) 9).getD default).1

/-- insertBlocked on the exhausted state with a fresh key 7 and pcb 1. -/
def c4run : AslState × Bool := (insertBlocked c4s 7 (some 1) 9).getD default

/-- ASL state for the C7 example: `initASL 4`, then blocking pcbs 0, 1, 2 on
keys 5, 1, 3 in that order. -/
def c7s : AslState :=
  (runAsl 9 (initASL 4 h0)
    [AslOp.insB 5 (some 0), AslOp.insB 1 (some 1), AslOp.insB 3 (some 2)]).getD default

/-- Tree heap for the C8 counterexample: children 1, 2, 3 inserted under
parent 0 with the part_000 insertChild. -/
def c8treePart0 : Heap :=
  ((insertChild_part0 (((insertChild_part0 ((insertChild_part0 h0 (some 0) (some 1) 9).getD h0)
      (some 0) (some 2) 9).getD h0)) (some 0) (some 3) 9).getD h0)

/-- First removeChild (part_000 revision) on that tree. -/
def c8removePart0 : Heap × Option Nat := removeChild_part0 c8treePart0 (some 0)

/-- Result of the documented-revision outProcQ on the tail of the two-member
queue. -/
def c1run : Heap × Option Nat × Option Nat :=
  (outProcQ_v2 twoQueueHeap (some 1) (some 1) 9).getD default

/-- Result of the part_001 outProcQ on the singleton queue. -/
def c10run : Heap × Option Nat × Option Nat :=
  (outProcQ_part1 oneQueueHeap (some 0) (some 0) 9).getD default

/-- Insert three blocks into an empty queue with insertProcQ, then call
removeProcQ three times; returns the three removed blocks and the final tail
pointer (fault propagates as `none`). -/
def fifo3 (h : Heap) (a b c : Nat) : Option (Option Nat × Option Nat × Option Nat × Option Nat) :=
  match insertProcQ h mkEmptyProcQ (some a) with
  | none => none
  | some (h₁, t₁) =>
    match insertProcQ h₁ t₁ (some b) with
    | none => none
    | some (h₂, t₂) =>
      match insertProcQ h₂ t₂ (some c) with
      | none => none
      | some (h₃, t₃) =>
        match removeProcQ h₃ t₃ with
        | none => none
        | some (h₄, t₄, r₁) =>
          match removeProcQ h₄ t₄ with
          | none => none
          | some (h₅, t₅, r₂) =>
            match removeProcQ h₅ t₅ with
            | none => none
            | some (_, t₆, r₃) => some (r₁, r₂, r₃, t₆)

/-- Result of the primary removeProcQ on the two-member queue (used to
evaluate the link-clearing theorem at a concrete input). -/
def c10prim : Heap × Option Nat × Option Nat :=
  (removeProcQ twoQueueHeap (some 1)).getD default

/-- Insert three children under one parent with the documented-revision
insertChild, then call removeChild three times; returns the parent's first
child after the inserts, the newest child's next sibling, the three removed
children and the parent's final child pointer. -/
def lifo3 (h : Heap) (pr x y z : Nat) :
    Option Nat × Option Nat × Option Nat × Option Nat × Option Nat × Option Nat :=
  let h₁ := insertChild h (some pr) (some x)
  let h₂ := insertChild h₁ (some pr) (some y)
  let h₃ := insertChild h₂ (some pr) (some z)
  let s₄ := removeChild h₃ (some pr)
  let s₅ := removeChild s₄.1 (some pr)
  let s₆ := removeChild s₅.1 (some pr)
  ((h₃ pr).p_child, (h₃ z).p_sib_next, s₄.2, s₅.2, s₆.2, (s₆.1 pr).p_child)

/-! Basic heap-update lemmas. -/

theorem hset_same (h : Heap) (i : Nat) (v : PCB) : hset h i v i = v := by
  simp [hset]

theorem hset_ne (h : Heap) (i : Nat) (v : PCB) {j : Nat} (hj : j ≠ i) : hset h i v j = h j := by
  simp [hset, hj]

theorem sset_same (g : SemdHeap) (i : Nat) (v : Semd) : sset g i v i = v := by
  simp [sset]

theorem sset_ne (g : SemdHeap) (i : Nat) (v : Semd) {j : Nat} (hj : j ≠ i) : sset g i v j = g j := by
  simp [sset, hj]

/-- C1: outProcQ was claimed to remove the current tail of a queue with at
least two members, retarget the tail reference to the predecessor and leave
the queue non-empty.  The cited implementation (documented pcb.c revision,
`outProcQ_v2`) violates this: on the two-member queue `[0, 1]` with tail 1,
removing the tail returns 1 but sets the tail reference to NULL — the line
`*tp = (*tp)->p_prev` executes after `p_prev` has been reset — so the queue
becomes empty while member 0 is still (self-)linked and is lost.  The spec
and the function's own comment ("update tail pointer") call for tail = 0. -/
theorem c1_outProcQ_v2_tail_empties_queue :
    (outProcQ_v2 twoQueueHeap (some 1) (some 1) 9).isSome = true ∧
    c1run.2.2 = some 1 ∧
    c1run.2.1 = none ∧
    c1run.2.1 ≠ some 0 ∧
    (c1run.1 0).p_next = some 0 ∧ (c1run.1 0).p_prev = some 0 ∧
    queueRep twoQueueHeap (some 1) [0, 1] := by
  decide

/-- C5: headBlocked was claimed never to dereference NULL and to return none
on a NULL key.  In fact `headBlocked` computes `traverseASL(semAdd)->s_next`
without checking the NULL that `traverseASL` returns for a NULL key, so for
every state and every fuel the call on the NULL key faults (modelled as
`none` in the fault monad) instead of returning a "no head" result. -/
theorem c5_headBlocked_null_key_faults (s : AslState) (fuel : Nat) :
    headBlocked s 0 fuel = none := rfl

/-- C3 counterexample: removeBlocked was claimed to clear the dequeued head's
blockedOn field.  In the part_003 revision of outBlocked the clearing is
inside the queue-became-empty branch only: on the state `c3s` (key 5 active
with blocked queue `[0, 1]`), part_003's removeBlocked returns head 0 with
`p_semAdd` still 5. -/
theorem c3_part3_leaves_blockedOn :
    (removeBlocked_part3 c3s 5 9 9).isSome = true ∧
    c3p3.2 = some 0 ∧
    (c3p3.1.pcbs 0).p_semAdd = 5 ∧
    (c3s.semds 0).s_semAdd = 5 ∧
    queueRep c3s.pcbs ((c3s.semds 0).s_procQ) [0, 1] := by
  decide

/-- C4 counterexample: insertBlocked was claimed to leave all state untouched
whenever it rejects, in particular the pcb's blockedOn field.  On the state
`c4s` (descriptor free list empty), inserting pcb 1 on the fresh key 7 is
rejected (`true`) yet pcb 1's blockedOn has been overwritten from 0 to 7,
because `p->p_semAdd = semAdd` executes before the free-list check. -/
theorem c4_insertBlocked_mutates_on_rejection :
    (insertBlocked c4s 7 (some 1) 9).isSome = true ∧
    c4run.2 = true ∧
    c4s.semdFree_h = none ∧
    (c4s.pcbs 1).p_semAdd = 0 ∧
    (c4run.1.pcbs 1).p_semAdd = 7 := by
  decide

/-- C6 counterexample: allocPcb was claimed to reset every field including
the processor-state snapshot and blockedOn.  Allocating from a pool whose
free block 0 carries snapshot value 5 returns the block with `p_s` still 5
(no revision of allocPcb touches `p_s`, and no support field exists in pcb_t
to clear); and the cited first revision (pcb.c lines 26-43) never writes
`p_semAdd` either, so allocating block 0 with a stale blockedOn key 7
returns it with the key still 7. -/
theorem c6_allocPcb_keeps_snapshot :
    (c6alloc.2 = some 0 ∧ (c6alloc.1.pcbs 0).p_s = 5 ∧ (c6alloc.1.pcbs 0).p_s ≠ 0) ∧
    (c6v1alloc.2 = some 0 ∧ (c6v1alloc.1.pcbs 0).p_semAdd = 7 ∧
      (c6v1alloc.1.pcbs 0).p_semAdd ≠ 0 ∧ (c6v1alloc.1.pcbs 0).p_s = 5) := by
  decide

/-- C8 counterexample: insertChild was claimed to place the new child at the
front of the sibling list so removeChild yields z, y, x.  The cited part_000
revision walks to the last sibling and appends at the BACK: after inserting
children 1, 2, 3 under parent 0, the first child is still 1
(`0 → 1 → 2 → 3`) and the first removeChild returns 1, not 3. -/
theorem c8_insertChild_part0_appends_at_back :
    (c8treePart0 0).p_child = some 1 ∧
    (c8treePart0 1).p_sib_next = some 2 ∧
    (c8treePart0 2).p_sib_next = some 3 ∧
    c8removePart0.2 = some 1 ∧
    c8removePart0.2 ≠ some 3 := by
  decide

/-- C10 counterexample: every successful queue removal was claimed to return
the block with both queue links NULL.  The cited part_001 revision of
outProcQ returns the tail match immediately (`*tp = NULL; return p`) without
clearing: removing the sole member 0 of a singleton queue returns it with
`p_next` and `p_prev` still pointing at itself. -/
theorem c10_outProcQ_part1_keeps_links :
    (outProcQ_part1 oneQueueHeap (some 0) (some 0) 9).isSome = true ∧
    c10run.2.2 = some 0 ∧
    (c10run.1 0).p_next = some 0 ∧ (c10run.1 0).p_prev = some 0 := by
  decide

theorem setNext_next (h : Heap) (i : Nat) (v : Option Nat) (j : Nat) :
    (setNext h i v j).p_next = if j = i then v else (h j).p_next := by
  by_cases hj : j = i <;> simp [setNext, hset, hj]

theorem setNext_prev (h : Heap) (i : Nat) (v : Option Nat) (j : Nat) :
    (setNext h i v j).p_prev = (h j).p_prev := by
  by_cases hj : j = i <;> simp [setNext, hset, hj]

theorem setNext_semAdd (h : Heap) (i : Nat) (v : Option Nat) (j : Nat) :
    (setNext h i v j).p_semAdd = (h j).p_semAdd := by
  by_cases hj : j = i <;> simp [setNext, hset, hj]

theorem setPrev_prev (h : Heap) (i : Nat) (v : Option Nat) (j : Nat) :
    (setPrev h i v j).p_prev = if j = i then v else (h j).p_prev := by
  by_cases hj : j = i <;> simp [setPrev, hset, hj]

theorem setPrev_next (h : Heap) (i : Nat) (v : Option Nat) (j : Nat) :
    (setPrev h i v j).p_next = (h j).p_next := by
  by_cases hj : j = i <;> simp [setPrev, hset, hj]

theorem setPrev_semAdd (h : Heap) (i : Nat) (v : Option Nat) (j : Nat) :
    (setPrev h i v j).p_semAdd = (h j).p_semAdd := by
  by_cases hj : j = i <;> simp [setPrev, hset, hj]

theorem setSemAdd_semAdd (h : Heap) (i : Nat) (v : Nat) (j : Nat) :
    (setSemAdd h i v j).p_semAdd = if j = i then v else (h j).p_semAdd := by
  by_cases hj : j = i <;> simp [setSemAdd, hset, hj]

theorem setSemAdd_next (h : Heap) (i : Nat) (v : Nat) (j : Nat) :
    (setSemAdd h i v j).p_next = (h j).p_next := by
  by_cases hj : j = i <;> simp [setSemAdd, hset, hj]

theorem setSemAdd_prev (h : Heap) (i : Nat) (v : Nat) (j : Nat) :
    (setSemAdd h i v j).p_prev = (h j).p_prev := by
  by_cases hj : j = i <;> simp [setSemAdd, hset, hj]

/-! Lemmas about `links` (consecutive queue adjacency). -/

theorem links_append (h : Heap) (l₁ l₂ : List Nat) :
    links h (l₁ ++ l₂) ↔
      links h l₁ ∧ links h l₂ ∧
        (∀ x y, l₁.getLast? = some x → l₂.head? = some y → qRel h x y) := by
  induction l₁ with
  | nil => simp [links]
  | cons x l₁ ih =>
    cases l₁ with
    | nil =>
      cases l₂ with
      | nil => simp [links]
      | cons y l₂' =>
        show qRel h x y ∧ links h (y :: l₂') ↔ _
        simp only [links, List.getLast?_singleton, List.head?_cons, Option.some.injEq]
        constructor
        · rintro ⟨hxy, hrest⟩
          exact ⟨trivial, hrest, fun a b ha hb => ha ▸ hb ▸ hxy⟩
        · rintro ⟨-, hrest, hb⟩
          exact ⟨hb x y rfl rfl, hrest⟩
    | cons x₂ l₁' =>
      show qRel h x x₂ ∧ links h ((x₂ :: l₁') ++ l₂) ↔ _
      rw [ih]
      constructor
      · rintro ⟨hxy, ha, hb, hc⟩
        refine ⟨⟨hxy, ha⟩, hb, ?_⟩
        intro u v hu hv
        exact hc u v (by simpa using hu) hv
      · rintro ⟨⟨hxy, ha⟩, hb, hc⟩
        refine ⟨hxy, ha, hb, ?_⟩
        intro u v hu hv
        exact hc u v (by simpa using hu) hv

theorem links_congr (h h' : Heap) (l : List Nat)
    (hn : ∀ x ∈ l.dropLast, (h' x).p_next = (h x).p_next)
    (hp : ∀ y ∈ l.drop 1, (h' y).p_prev = (h y).p_prev)
    (hl : links h l) : links h' l := by
  induction l with
  | nil => trivial
  | cons x l ih =>
    cases l with
    | nil => trivial
    | cons y rest =>
      rcases hl with ⟨⟨hxy₁, hxy₂⟩, hrest⟩
      have hd : (x :: y :: rest).dropLast = x :: (y :: rest).dropLast := by
        simp
      refine ⟨⟨?_, ?_⟩, ?_⟩
      · rw [hn x (by rw [hd]; exact List.mem_cons_self x _), hxy₁]
      · rw [hp y (by simp), hxy₂]
      · refine ih ?_ ?_ hrest
        · intro z hz
          exact hn z (by rw [hd]; exact List.mem_cons_of_mem x hz)
        · intro z hz
          refine hp z ?_
          simp only [List.drop_one, List.tail_cons] at hz ⊢
          exact List.mem_cons_of_mem y (by simpa using hz)

theorem mem_of_getLast?_eq (l : List Nat) (t : Nat) (hl : l.getLast? = some t) : t ∈ l := by
  cases l with
  | nil => simp at hl
  | cons x l =>
    have := List.getLast?_eq_getLast (x :: l) (by simp)
    rw [this] at hl
    exact (Option.some.injEq _ _).mp hl ▸ List.getLast_mem (by simp)

theorem nodup_getLast_not_dropLast (l : List Nat) (t : Nat)
    (hl : l.getLast? = some t) (hnd : l.Nodup) : t ∉ l.dropLast := by
  have hne : l ≠ [] := by rintro rfl; simp at hl
  have hget := List.getLast?_eq_getLast l hne
  rw [hget] at hl
  have ht : l.getLast hne = t := (Option.some.injEq _ _).mp hl
  have hsplit : l.dropLast ++ [t] = l := by rw [← ht]; exact List.dropLast_append_getLast hne
  rw [← hsplit] at hnd
  rcases List.nodup_append.mp hnd with ⟨-, -, hdisj⟩
  intro hmem
  exact hdisj hmem (by simp)

theorem insertProcQ_rep (h : Heap) (tp : Option Nat) (q : List Nat) (pid : Nat)
    (hrep : queueRep h tp q) (hpid : pid ∉ q) :
    ∃ h', insertProcQ h tp (some pid) = some (h', some pid) ∧
      queueRep h' (some pid) (q ++ [pid]) ∧
      ∀ j, (h' j).p_semAdd = (h j).p_semAdd := by
  cases tp with
  | none =>
    cases q with
    | cons a rest => exact absurd hrep (by simp [queueRep])
    | nil =>
      refine ⟨_, rfl, ⟨by simp, by simp, ⟨⟨?_, ?_⟩, trivial⟩⟩, ?_⟩
      · rw [setNext_next]; simp
      · rw [setNext_prev, setPrev_prev]; simp
      · intro j; rw [setNext_semAdd, setPrev_semAdd]
  | some t =>
    cases q with
    | nil => exact absurd hrep (by simp [queueRep])
    | cons a rest =>
      obtain ⟨hlast, hnd, hlinks⟩ := hrep
      have hta : qRel h t a := by
        rcases (links_append h (a :: rest) [a]).mp hlinks with ⟨-, -, hb⟩
        exact hb t a hlast rfl
      have hqlinks : links h (a :: rest) := ((links_append h (a :: rest) [a]).mp hlinks).1
      have htq : t ∈ a :: rest := mem_of_getLast?_eq _ _ hlast
      have htpid : t ≠ pid := fun e => hpid (e ▸ htq)
      have hapid : a ≠ pid := fun e => hpid (e ▸ List.mem_cons_self a rest)
      have hanr : a ∉ rest := (List.nodup_cons.mp hnd).1
      have htdl : t ∉ (a :: rest).dropLast := nodup_getLast_not_dropLast _ _ hlast hnd
      have e1 : (setPrev (setNext h pid ((h t).p_next)) pid (some t) t).p_next = some a := by
        rw [setPrev_next, setNext_next, if_neg htpid, hta.1]
      have hrun : insertProcQ h (some t) (some pid) =
          some (setNext (setPrev (setPrev (setNext h pid ((h t).p_next)) pid (some t)) a (some pid)) t (some pid), some pid) := by
        show (match (setPrev (setNext h pid ((h t).p_next)) pid (some t) t).p_next with
          | none => none
          | some hd => some (setNext (setPrev (setPrev (setNext h pid ((h t).p_next)) pid (some t)) hd (some pid)) t (some pid),
              some pid)) = _
        rw [e1]
      refine ⟨_, hrun, ⟨?_, ?_, ?_⟩, ?_⟩
      · show ((a :: rest) ++ [pid]).getLast? = some pid
        exact List.getLast?_concat _
      · show ((a :: rest) ++ [pid]).Nodup
        rw [List.nodup_append]
        exact ⟨hnd, by simp, fun x hx hx2 => hpid ((List.mem_singleton.mp hx2) ▸ hx)⟩
      · show links _ ((a :: (rest ++ [pid])) ++ [a])
        have hassoc : (a :: (rest ++ [pid])) ++ [a] = (a :: rest) ++ [pid, a] := by simp
        rw [hassoc]
        refine (links_append _ _ _).mpr ⟨?_, ⟨⟨?_, ?_⟩, trivial⟩, ?_⟩
        · refine links_congr h _ (a :: rest) ?_ ?_ hqlinks
          · intro x hx
            have hxt : x ≠ t := fun e => htdl (e ▸ hx)
            have hxpid : x ≠ pid := fun e => hpid (e ▸ List.dropLast_subset _ hx)
            rw [setNext_next, if_neg hxt, setPrev_next, setPrev_next, setNext_next, if_neg hxpid]
          · intro y hy
            have hya : y ≠ a := by
              intro e; subst e
              exact hanr (by simpa using hy)
            have hypid : y ≠ pid := fun e => hpid (e ▸ (List.drop_subset 1 _) hy)
            rw [setNext_prev, setPrev_prev, if_neg hya, setPrev_prev, if_neg hypid, setNext_prev]
        · rw [setNext_next, if_neg (Ne.symm htpid), setPrev_next, setPrev_next, setNext_next, if_pos rfl, hta.1]
        · rw [setNext_prev, setPrev_prev, if_pos rfl]
        · intro x y hx hy
          have hx' : x = t := by
            rw [hlast] at hx; exact ((Option.some.injEq _ _).mp hx).symm
          have hy' : y = pid := (show pid = y by simpa using hy).symm
          subst hx'; subst hy'
          constructor
          · rw [setNext_next, if_pos rfl]
          · rw [setNext_prev, setPrev_prev, if_neg (Ne.symm hapid), setPrev_prev, if_pos rfl]
      · intro j
        rw [setNext_semAdd, setPrev_semAdd, setPrev_semAdd, setNext_semAdd]

theorem removeHead_core (h : Heap) (t a b : Nat) (rest' : List Nat)
    (hlast : (a :: b :: rest').getLast? = some t)
    (hnd : (a :: b :: rest').Nodup)
    (hlinks : links h ((a :: b :: rest') ++ [a])) :
    queueRep (setPrev (setNext (setPrev (setNext h t (some b)) b (some t)) a none) a none)
      (some t) (b :: rest') ∧
    ((setPrev (setNext (setPrev (setNext h t (some b)) b (some t)) a none) a none) a).p_next = none ∧
    ((setPrev (setNext (setPrev (setNext h t (some b)) b (some t)) a none) a none) a).p_prev = none ∧
    ∀ j, ((setPrev (setNext (setPrev (setNext h t (some b)) b (some t)) a none) a none) j).p_semAdd
      = (h j).p_semAdd := by
  have hab : qRel h a b := hlinks.1
  have hlinks2 : links h ((b :: rest') ++ [a]) := hlinks.2
  rcases (links_append h (b :: rest') [a]).mp hlinks2 with ⟨hlbr, -, hbound⟩
  have hlast2 : (b :: rest').getLast? = some t := by
    rw [← List.getLast?_cons_cons]; exact hlast
  have hta : qRel h t a := hbound t a hlast2 rfl
  have hanbr : a ∉ b :: rest' := (List.nodup_cons.mp hnd).1
  have hndbr : (b :: rest').Nodup := (List.nodup_cons.mp hnd).2
  have htbr : t ∈ b :: rest' := mem_of_getLast?_eq _ _ hlast2
  have hat : a ≠ t := fun e => hanbr (e ▸ htbr)
  have hbna : b ≠ a := fun e => hanbr (e ▸ List.mem_cons_self b rest')
  have htdl : t ∉ (b :: rest').dropLast := nodup_getLast_not_dropLast _ _ hlast2 hndbr
  refine ⟨⟨hlast2, hndbr, ?_⟩, ?_, ?_, ?_⟩
  · refine (links_append _ _ _).mpr ⟨?_, trivial, ?_⟩
    · refine links_congr h _ (b :: rest') ?_ ?_ hlbr
      · intro x hx
        have hxt : x ≠ t := fun e => htdl (e ▸ hx)
        have hxa : x ≠ a := fun e => hanbr (e ▸ List.dropLast_subset _ hx)
        rw [setPrev_next, setNext_next, if_neg hxa, setPrev_next, setNext_next, if_neg hxt]
      · intro y hy
        have hyb : y ≠ b := by
          intro e; subst e
          exact (List.nodup_cons.mp hndbr).1 (by simpa using hy)
        have hya : y ≠ a := fun e => hanbr (e ▸ (List.drop_subset 1 _) hy)
        rw [setPrev_prev, if_neg hya, setNext_prev, setPrev_prev, if_neg hyb, setNext_prev]
    · intro x y hx hy
      have hx' : x = t := by
        rw [hlast2] at hx; exact ((Option.some.injEq _ _).mp hx).symm
      have hy' : y = b := (show b = y by simpa using hy).symm
      subst hx'; subst hy'
      constructor
      · rw [setPrev_next, setNext_next, if_neg hat.symm, setPrev_next, setNext_next, if_pos rfl]
      · rw [setPrev_prev, if_neg hbna, setNext_prev, setPrev_prev, if_pos rfl]
  · rw [setPrev_next, setNext_next, if_pos rfl]
  · rw [setPrev_prev, if_pos rfl]
  · intro j
    rw [setPrev_semAdd, setNext_semAdd, setPrev_semAdd, setNext_semAdd]

theorem removeProcQ_rep (h : Heap) (t a : Nat) (rest : List Nat)
    (hrep : queueRep h (some t) (a :: rest)) :
    ∃ h' tp', removeProcQ h (some t) = some (h', tp', some a) ∧
      queueRep h' tp' rest ∧
      (h' a).p_next = none ∧ (h' a).p_prev = none ∧
      (rest = [] → tp' = none) ∧ (rest ≠ [] → tp' = some t) ∧
      ∀ j, (h' j).p_semAdd = (h j).p_semAdd := by
  obtain ⟨hlast, hnd, hlinks⟩ := hrep
  cases rest with
  | nil =>
    have hta : t = a := by simpa using hlast.symm
    subst hta
    have hself : (h t).p_next = some t := hlinks.1.1
    have hrun : removeProcQ h (some t) = some (setPrev (setNext h t none) t none, none, some t) := by
      simp [removeProcQ, hself]
    refine ⟨_, _, hrun, trivial, ?_, ?_, fun _ => rfl, fun hc => absurd rfl hc, ?_⟩
    · rw [setPrev_next, setNext_next, if_pos rfl]
    · rw [setPrev_prev, if_pos rfl]
    · intro j; rw [setPrev_semAdd, setNext_semAdd]
  | cons b rest' =>
    have hab : qRel h a b := hlinks.1
    rcases (links_append h (b :: rest') [a]).mp hlinks.2 with ⟨-, -, hbound⟩
    have hlast2 : (b :: rest').getLast? = some t := by
      rw [← List.getLast?_cons_cons]; exact hlast
    have hta : qRel h t a := hbound t a hlast2 rfl
    have hanbr : a ∉ b :: rest' := (List.nodup_cons.mp hnd).1
    have hat : a ≠ t := fun e => hanbr (e ▸ mem_of_getLast?_eq _ _ hlast2)
    have hab2 : a ≠ b := fun e => hanbr (e ▸ List.mem_cons_self b rest')
    have hrun : removeProcQ h (some t) =
        some (setPrev (setNext (setPrev (setNext h t (some b)) b (some t)) a none) a none,
          some t, some a) := by
      simp only [removeProcQ, hta.1, hta.2, hab.1, Option.some.injEq, setNext_next,
        setNext_prev, setPrev_prev, setPrev_next, hat, if_false, if_neg hat, if_neg hab2]
    rcases removeHead_core h t a b rest' hlast hnd hlinks with ⟨hrep', hcn, hcp, hfr⟩
    exact ⟨_, _, hrun, hrep', hcn, hcp, fun hc => absurd hc (by simp), fun _ => rfl, hfr⟩

theorem outProcQ_head_rep (h : Heap) (t a : Nat) (rest : List Nat) (f : Nat)
    (hrep : queueRep h (some t) (a :: rest)) :
    ∃ h' tp', outProcQ h (some t) (some a) (f + 2) = some (h', tp', some a) ∧
      queueRep h' tp' rest ∧
      (h' a).p_next = none ∧ (h' a).p_prev = none ∧
      (rest = [] → tp' = none) ∧ (rest ≠ [] → tp' = some t) ∧
      ∀ j, (h' j).p_semAdd = (h j).p_semAdd := by
  obtain ⟨hlast, hnd, hlinks⟩ := hrep
  have hfuel : f + 2 = (f + 1) + 1 := rfl
  cases rest with
  | nil =>
    have hta : t = a := by simpa using hlast.symm
    subst hta
    have hselfn : (h t).p_next = some t := hlinks.1.1
    have hselfp : (h t).p_prev = some t := hlinks.1.2
    have hrun : outProcQ h (some t) (some t) (f + 2) =
        some (setPrev (setNext (setPrev (setNext h t (some t)) t (some t)) t none) t none,
          none, some t) := by
      rw [hfuel]
      simp only [outProcQ, outProcQLoop, hselfn, hselfp, setNext_next, setNext_prev,
        setPrev_prev, setPrev_next, if_pos rfl]
      simp
    refine ⟨_, _, hrun, trivial, ?_, ?_, fun _ => rfl, fun hc => absurd rfl hc, ?_⟩
    · rw [setPrev_next, setNext_next, if_pos rfl]
    · rw [setPrev_prev, if_pos rfl]
    · intro j; rw [setPrev_semAdd, setNext_semAdd, setPrev_semAdd, setNext_semAdd]
  | cons b rest' =>
    have hab : qRel h a b := hlinks.1
    rcases (links_append h (b :: rest') [a]).mp hlinks.2 with ⟨-, -, hbound⟩
    have hlast2 : (b :: rest').getLast? = some t := by
      rw [← List.getLast?_cons_cons]; exact hlast
    have hta : qRel h t a := hbound t a hlast2 rfl
    have hanbr : a ∉ b :: rest' := (List.nodup_cons.mp hnd).1
    have hat : a ≠ t := fun e => hanbr (e ▸ mem_of_getLast?_eq _ _ hlast2)
    have htna : t ≠ a := Ne.symm hat
    have hab2 : a ≠ b := fun e => hanbr (e ▸ List.mem_cons_self b rest')
    have hrun : outProcQ h (some t) (some a) (f + 2) =
        some (setPrev (setNext (setPrev (setNext h t (some b)) b (some t)) a none) a none,
          some t, some a) := by
      rw [hfuel]
      simp only [outProcQ, outProcQLoop, hta.1, hta.2, hab.1, Option.some.injEq,
        setNext_next, setNext_prev, setPrev_prev, setPrev_next, hat, htna,
        if_false, if_neg hat, if_neg htna, if_neg hab2, if_pos rfl]
      simp
    rcases removeHead_core h t a b rest' hlast hnd hlinks with ⟨hrep', hcn, hcp, hfr⟩
    exact ⟨_, _, hrun, hrep', hcn, hcp, fun hc => absurd hc (by simp), fun _ => rfl, hfr⟩

/-- C9: Queue FIFO order — for every heap, inserting distinct blocks a, b, c
into an empty queue with insertProcQ and then calling removeProcQ three times
returns a, b, c in that order and leaves the queue empty (tail pointer NULL),
as implemented by the primary pcb.c revision of insertProcQ (lines 58-73) and
removeProcQ (lines 75-92). -/
theorem c9_queue_fifo (h : Heap) (a b c : Nat) (hab : a ≠ b) (hac : a ≠ c) (hbc : b ≠ c) :
    fifo3 h a b c = some (some a, some b, some c, none) := by
  obtain ⟨h₁, e₁, rep₁, -⟩ := insertProcQ_rep h mkEmptyProcQ [] a trivial (by simp)
  obtain ⟨h₂, e₂, rep₂, -⟩ := insertProcQ_rep h₁ (some a) [a] b rep₁ (by simp [Ne.symm hab])
  obtain ⟨h₃, e₃, rep₃, -⟩ :=
    insertProcQ_rep h₂ (some b) [a, b] c rep₂ (by simp [Ne.symm hac, Ne.symm hbc])
  obtain ⟨h₄, tp₄, e₄, rep₄, -, -, -, htp₄, -⟩ := removeProcQ_rep h₃ c a [b, c] rep₃
  rw [htp₄ (by simp)] at rep₄ e₄
  obtain ⟨h₅, tp₅, e₅, rep₅, -, -, -, htp₅, -⟩ := removeProcQ_rep h₄ c b [c] rep₄
  rw [htp₅ (by simp)] at rep₅ e₅
  obtain ⟨h₆, tp₆, e₆, rep₆, -, -, htp₆, -, -⟩ := removeProcQ_rep h₅ c c [] rep₅
  rw [htp₆ rfl] at e₆
  simp only [fifo3, e₁, e₂, e₃, e₄, e₅, e₆]

/-- C9 witness: the concrete FIFO run on the zero heap with blocks 0, 1, 2. -/
theorem c9_queue_fifo_witness : fifo3 h0 0 1 2 = some (some 0, some 1, some 2, none) :=
  c9_queue_fifo h0 0 1 2 (by decide) (by decide) (by decide)

theorem outProcQLoop_clears (h : Heap) (t pid : Nat) :
    ∀ (fuel : Nat) (iter : Option Nat) (h' : Heap) (tp' : Option Nat) (q : Nat),
      outProcQLoop h t pid iter fuel = some (h', tp', some q) →
      q = pid ∧ (h' q).p_next = none ∧ (h' q).p_prev = none := by
  intro fuel
  induction fuel with
  | zero =>
    intro iter h' tp' q hres
    simp [outProcQLoop] at hres
  | succ f ih =>
    intro iter h' tp' q hres
    cases iter with
    | none => simp [outProcQLoop] at hres
    | some i =>
      by_cases hip : i = pid
      · cases hpv : (h i).p_prev with
        | none =>
          have hrun : outProcQLoop h t pid (some i) (f+1) = none := by
            simp only [outProcQLoop, if_pos hip, hpv]
          rw [hrun] at hres
          exact Option.noConfusion hres
        | some ip =>
          cases hnx : (setNext h ip ((h i).p_next) i).p_next with
          | none =>
            have hrun : outProcQLoop h t pid (some i) (f+1) = none := by
              simp only [outProcQLoop, if_pos hip, hpv, hnx]
            rw [hrun] at hres
            exact Option.noConfusion hres
          | some inx =>
            have hrun : outProcQLoop h t pid (some i) (f+1) =
                some (setPrev (setNext (setPrev (setNext h ip ((h i).p_next)) inx
                    ((setNext h ip ((h i).p_next)) i).p_prev) i none) i none,
                  (if i = t then (if (h i).p_next = some i then none else (h i).p_prev) else some t),
                  some pid) := by
              simp only [outProcQLoop, if_pos hip, hpv, hnx]
            rw [hrun] at hres
            injection hres with h1
            injection h1 with ha h2
            injection h2 with hb hc
            injection hc with hq
            subst hq
            refine ⟨rfl, ?_, ?_⟩
            · rw [← ha, setPrev_next, setNext_next, if_pos hip.symm]
            · rw [← ha, setPrev_prev, if_pos hip.symm]
      · have hstep : outProcQLoop h t pid (some i) (f+1) =
            (if (h i).p_next = some t then some (h, some t, none)
             else outProcQLoop h t pid ((h i).p_next) f) := by
          simp only [outProcQLoop, if_neg hip]
        rw [hstep] at hres
        by_cases hnt : (h i).p_next = some t
        · rw [if_pos hnt] at hres
          simp at hres
        · rw [if_neg hnt] at hres
          exact ih _ _ _ _ hres


/-- C10 amended: in the primary pcb.c revision, every successful queue
removal fully detaches the removed block — whenever removeProcQ (lines
75-92) or outProcQ (lines 94-122) returns a PCB, that PCB's next and prev
queue links are both NULL in the resulting heap, for every input heap.
(The part_001 revision violates the original claim; see the
counterexample.) -/
theorem c10_primary_removal_clears_links (h : Heap) (tp : Option Nat) :
    (∀ (h' : Heap) (tp' : Option Nat) (q : Nat),
      removeProcQ h tp = some (h', tp', some q) →
      (h' q).p_next = none ∧ (h' q).p_prev = none) ∧
    (∀ (p : Option Nat) (fuel : Nat) (h' : Heap) (tp' : Option Nat) (q : Nat),
      outProcQ h tp p fuel = some (h', tp', some q) →
      (h' q).p_next = none ∧ (h' q).p_prev = none) := by
  constructor
  · intro h' tp' q hres
    cases tp with
    | none => simp [removeProcQ] at hres
    | some t =>
      by_cases hself : (h t).p_next = some t
      · have hrun : removeProcQ h (some t) =
            some (setPrev (setNext h t none) t none, none, some t) := by
          simp only [removeProcQ, if_pos hself]
        rw [hrun] at hres
        injection hres with h1
        injection h1 with ha h2
        injection h2 with hb hc
        injection hc with hq
        subst hq
        constructor
        · rw [← ha, setPrev_next, setNext_next, if_pos rfl]
        · rw [← ha, setPrev_prev, if_pos rfl]
      · cases hrm : (h t).p_next with
        | none =>
          have hrun : removeProcQ h (some t) = none := by
            simp only [removeProcQ, hrm]
            simp
          rw [hrun] at hres
          exact Option.noConfusion hres
        | some r =>
          have hneq : ¬ ((some r : Option Nat) = some t) := hrm ▸ hself
          cases hpv : (h r).p_prev with
          | none =>
            have hrun : removeProcQ h (some t) = none := by
              simp only [removeProcQ, hrm, hpv]
              rw [if_neg hneq]
            rw [hrun] at hres
            exact Option.noConfusion hres
          | some rp =>
            cases hnx : (setNext h rp ((h r).p_next) r).p_next with
            | none =>
              have hrun : removeProcQ h (some t) = none := by
                simp only [removeProcQ, hrm, hpv, hnx]
                rw [if_neg hneq]
              rw [hrun] at hres
              exact Option.noConfusion hres
            | some rn =>
              have hrun : removeProcQ h (some t) =
                  some (setPrev (setNext (setPrev (setNext h rp ((h r).p_next)) rn
                      ((setNext h rp ((h r).p_next)) r).p_prev) r none) r none,
                    (setPrev (setNext h rp ((h r).p_next)) rn
                      ((setNext h rp ((h r).p_next)) r).p_prev r).p_prev,
                    some r) := by
                simp only [removeProcQ, hrm, hpv, hnx]
                rw [if_neg hneq]
              rw [hrun] at hres
              injection hres with h1
              injection h1 with ha h2
              injection h2 with hb hc
              injection hc with hq
              subst hq
              constructor
              · rw [← ha, setPrev_next, setNext_next, if_pos rfl]
              · rw [← ha, setPrev_prev, if_pos rfl]
  · intro p fuel h' tp' q hres
    cases p with
    | none => cases tp <;> simp [outProcQ] at hres
    | some pid =>
      cases tp with
      | none => simp [outProcQ] at hres
      | some t => exact ((outProcQLoop_clears h t pid fuel (some t) h' tp' q hres).2)

/-- C10 witness: removing the head of the concrete two-member queue through
the primary removeProcQ yields block 0 with both links cleared. -/
theorem c10_primary_removal_clears_links_witness :
    (c10prim.1 0).p_next = none ∧ (c10prim.1 0).p_prev = none :=
  (c10_primary_removal_clears_links twoQueueHeap (some 1)).1 c10prim.1 c10prim.2.1 0 rfl

theorem setParent_parent (h : Heap) (i : Nat) (v : Option Nat) (j : Nat) :
    (setParent h i v j).p_parent = if j = i then v else (h j).p_parent := by
  by_cases hj : j = i <;> simp [setParent, hset, hj]

theorem setParent_child (h : Heap) (i : Nat) (v : Option Nat) (j : Nat) :
    (setParent h i v j).p_child = (h j).p_child := by
  by_cases hj : j = i <;> simp [setParent, hset, hj]

theorem setParent_sibNext (h : Heap) (i : Nat) (v : Option Nat) (j : Nat) :
    (setParent h i v j).p_sib_next = (h j).p_sib_next := by
  by_cases hj : j = i <;> simp [setParent, hset, hj]

theorem setParent_sibPrev (h : Heap) (i : Nat) (v : Option Nat) (j : Nat) :
    (setParent h i v j).p_sib_prev = (h j).p_sib_prev := by
  by_cases hj : j = i <;> simp [setParent, hset, hj]

theorem setChild_parent (h : Heap) (i : Nat) (v : Option Nat) (j : Nat) :
    (setChild h i v j).p_parent = (h j).p_parent := by
  by_cases hj : j = i <;> simp [setChild, hset, hj]

theorem setChild_child (h : Heap) (i : Nat) (v : Option Nat) (j : Nat) :
    (setChild h i v j).p_child = if j = i then v else (h j).p_child := by
  by_cases hj : j = i <;> simp [setChild, hset, hj]

theorem setChild_sibNext (h : Heap) (i : Nat) (v : Option Nat) (j : Nat) :
    (setChild h i v j).p_sib_next = (h j).p_sib_next := by
  by_cases hj : j = i <;> simp [setChild, hset, hj]

theorem setChild_sibPrev (h : Heap) (i : Nat) (v : Option Nat) (j : Nat) :
    (setChild h i v j).p_sib_prev = (h j).p_sib_prev := by
  by_cases hj : j = i <;> simp [setChild, hset, hj]

theorem setSibNext_parent (h : Heap) (i : Nat) (v : Option Nat) (j : Nat) :
    (setSibNext h i v j).p_parent = (h j).p_parent := by
  by_cases hj : j = i <;> simp [setSibNext, hset, hj]

theorem setSibNext_child (h : Heap) (i : Nat) (v : Option Nat) (j : Nat) :
    (setSibNext h i v j).p_child = (h j).p_child := by
  by_cases hj : j = i <;> simp [setSibNext, hset, hj]

theorem setSibNext_sibNext (h : Heap) (i : Nat) (v : Option Nat) (j : Nat) :
    (setSibNext h i v j).p_sib_next = if j = i then v else (h j).p_sib_next := by
  by_cases hj : j = i <;> simp [setSibNext, hset, hj]

theorem setSibNext_sibPrev (h : Heap) (i : Nat) (v : Option Nat) (j : Nat) :
    (setSibNext h i v j).p_sib_prev = (h j).p_sib_prev := by
  by_cases hj : j = i <;> simp [setSibNext, hset, hj]

theorem setSibPrev_parent (h : Heap) (i : Nat) (v : Option Nat) (j : Nat) :
    (setSibPrev h i v j).p_parent = (h j).p_parent := by
  by_cases hj : j = i <;> simp [setSibPrev, hset, hj]

theorem setSibPrev_child (h : Heap) (i : Nat) (v : Option Nat) (j : Nat) :
    (setSibPrev h i v j).p_child = (h j).p_child := by
  by_cases hj : j = i <;> simp [setSibPrev, hset, hj]

theorem setSibPrev_sibNext (h : Heap) (i : Nat) (v : Option Nat) (j : Nat) :
    (setSibPrev h i v j).p_sib_next = (h j).p_sib_next := by
  by_cases hj : j = i <;> simp [setSibPrev, hset, hj]

theorem setSibPrev_sibPrev (h : Heap) (i : Nat) (v : Option Nat) (j : Nat) :
    (setSibPrev h i v j).p_sib_prev = if j = i then v else (h j).p_sib_prev := by
  by_cases hj : j = i <;> simp [setSibPrev, hset, hj]

/-- C8 amended: in the documented pcb.c revision, insertChild places the new
child at the front of the parent's sibling list — it becomes the parent's
first child and the previous first child becomes its next sibling — so after
inserting distinct children x, y, z in that order under a childless parent,
successive removeChild calls yield z, y, x and leave the parent childless.
(The part_000 revision appends at the back instead; see the
counterexample.) -/
theorem c8_insertChild_lifo (h : Heap) (pr x y z : Nat)
    (hpx : pr ≠ x) (hpy : pr ≠ y) (hpz : pr ≠ z)
    (hxy : x ≠ y) (hxz : x ≠ z) (hyz : y ≠ z)
    (hchild : (h pr).p_child = none) :
    lifo3 h pr x y z = (some z, some y, some z, some y, some x, none) := by
  have hxp : x ≠ pr := Ne.symm hpx
  have hyp' : y ≠ pr := Ne.symm hpy
  have hzp : z ≠ pr := Ne.symm hpz
  have hyx : y ≠ x := Ne.symm hxy
  have hzx : z ≠ x := Ne.symm hxz
  have hzy : z ≠ y := Ne.symm hyz
  simp [lifo3, insertChild, removeChild, outChild, emptyChild,
    setParent_parent, setParent_child, setParent_sibNext, setParent_sibPrev,
    setChild_parent, setChild_child, setChild_sibNext, setChild_sibPrev,
    setSibNext_parent, setSibNext_child, setSibNext_sibNext, setSibNext_sibPrev,
    setSibPrev_parent, setSibPrev_child, setSibPrev_sibNext, setSibPrev_sibPrev,
    hchild, hpx, hpy, hpz, hxy, hxz, hyz, hxp, hyp', hzp, hyx, hzx, hzy]

/-- C8 witness: the concrete LIFO run on the zero heap with parent 0 and
children 1, 2, 3. -/
theorem c8_insertChild_lifo_witness :
    lifo3 h0 0 1 2 3 = (some 3, some 2, some 3, some 2, some 1, none) :=
  c8_insertChild_lifo h0 0 1 2 3 (by decide) (by decide) (by decide)
    (by decide) (by decide) (by decide) (by decide)

/-- C6 amended: every revision of allocPcb returns none exactly when the
free list is empty and otherwise pops the free-list head; the final
revisions (pcb.c lines 234-252, part_000 lines 35-51) reset the queue
links, tree links, cpu time and blockedOn key to their zero/default values
but leave the processor-state snapshot `p_s` untouched, while the cited
first revision (pcb.c lines 26-43) resets only the links and the cpu time
and leaves blockedOn untouched as well (and the pcb_t structure has no live
support field to clear in any revision). -/
theorem c6_allocPcb_resets (s : PoolState) :
    (((allocPcb s).2 = none ↔ s.pcbFree_h = none) ∧
    ∀ i, (allocPcb s).2 = some i →
      s.pcbFree_h = some i ∧
      (allocPcb s).1.pcbFree_h = (s.pcbs i).p_next ∧
      ((allocPcb s).1.pcbs i) =
        { s.pcbs i with
          p_next := none,
          p_prev := none,
          p_parent := none,
          p_child := none,
          p_sib_next := none,
          p_sib_prev := none,
          p_time := 0,
          p_semAdd := 0 } ∧
      ((allocPcb s).1.pcbs i).p_s = (s.pcbs i).p_s) ∧
    (((allocPcb_v1 s).2 = none ↔ s.pcbFree_h = none) ∧
    ∀ i, (allocPcb_v1 s).2 = some i →
      s.pcbFree_h = some i ∧
      (allocPcb_v1 s).1.pcbFree_h = (s.pcbs i).p_next ∧
      ((allocPcb_v1 s).1.pcbs i) =
        { s.pcbs i with
          p_next := none,
          p_prev := none,
          p_parent := none,
          p_child := none,
          p_sib_next := none,
          p_time := 0 } ∧
      ((allocPcb_v1 s).1.pcbs i).p_semAdd = (s.pcbs i).p_semAdd ∧
      ((allocPcb_v1 s).1.pcbs i).p_s = (s.pcbs i).p_s) := by
  constructor
  · constructor
    · cases hf : s.pcbFree_h <;> simp [allocPcb, hf]
    · intro i hi
      cases hf : s.pcbFree_h with
      | none => simp [allocPcb, hf] at hi
      | some r =>
        have hir : i = r := by
          simp [allocPcb, hf] at hi
          exact hi.symm
        subst hir
        refine ⟨rfl, ?_, ?_, ?_⟩
        · simp [allocPcb, hf]
        · simp [allocPcb, hf, hset_same]
        · simp [allocPcb, hf, hset_same]
  · constructor
    · cases hf : s.pcbFree_h <;> simp [allocPcb_v1, hf]
    · intro i hi
      cases hf : s.pcbFree_h with
      | none => simp [allocPcb_v1, hf] at hi
      | some r =>
        have hir : i = r := by
          simp [allocPcb_v1, hf] at hi
          exact hi.symm
        subst hir
        refine ⟨rfl, ?_, ?_, ?_, ?_⟩
        · simp [allocPcb_v1, hf]
        · simp [allocPcb_v1, hf, hset_same]
        · simp [allocPcb_v1, hf, hset_same]
        · simp [allocPcb_v1, hf, hset_same]

/-- C6 witness: allocating block 0, which carries a stale snapshot 5 and a
stale blockedOn key 7, with the final-revision allocPcb resets links, time
and key but keeps the snapshot, while the first-revision allocPcb keeps the
stale key 7 as well. -/
theorem c6_allocPcb_resets_witness :
    (c6poolStale.pcbFree_h = some 0 ∧
    (allocPcb c6poolStale).1.pcbFree_h = (c6poolStale.pcbs 0).p_next ∧
    ((allocPcb c6poolStale).1.pcbs 0) =
      { c6poolStale.pcbs 0 with
        p_next := none,
        p_prev := none,
        p_parent := none,
        p_child := none,
        p_sib_next := none,
        p_sib_prev := none,
        p_time := 0,
        p_semAdd := 0 } ∧
    ((allocPcb c6poolStale).1.pcbs 0).p_s = (c6poolStale.pcbs 0).p_s) ∧
    (c6poolStale.pcbFree_h = some 0 ∧
    (allocPcb_v1 c6poolStale).1.pcbFree_h = (c6poolStale.pcbs 0).p_next ∧
    ((allocPcb_v1 c6poolStale).1.pcbs 0) =
      { c6poolStale.pcbs 0 with
        p_next := none,
        p_prev := none,
        p_parent := none,
        p_child := none,
        p_sib_next := none,
        p_time := 0 } ∧
    ((allocPcb_v1 c6poolStale).1.pcbs 0).p_semAdd = (c6poolStale.pcbs 0).p_semAdd ∧
    ((allocPcb_v1 c6poolStale).1.pcbs 0).p_s = (c6poolStale.pcbs 0).p_s) :=
  ⟨(c6_allocPcb_resets c6poolStale).1.2 0 rfl,
   (c6_allocPcb_resets c6poolStale).2.2 0 rfl⟩

/-! Free-list chain lemmas and pool conservation (C2). -/

theorem chainB_congr (g g' : Nat → Option Nat) (l : List Nat) :
    ∀ (st : Option Nat), (∀ x ∈ l, g' x = g x) → chainB g st l = true → chainB g' st l = true := by
  induction l with
  | nil => intro st _ hc; cases st <;> simp_all [chainB]
  | cons j rest ih =>
    intro st hg hc
    cases st with
    | none => simp [chainB] at hc
    | some i =>
      simp only [chainB, Bool.and_eq_true, beq_iff_eq] at hc ⊢
      obtain ⟨hij, hrest⟩ := hc
      refine ⟨hij, ?_⟩
      rw [hg j (by simp)]
      exact ih (g j) (fun x hx => hg x (by simp [hx])) hrest

theorem pnextOf_hset (h : Heap) (i : Nat) (v : PCB) (x : Nat) (hx : x ≠ i) :
    pnextOf (hset h i v) x = pnextOf h x := by
  simp [pnextOf, hset_ne _ _ _ hx]

theorem revFrom_succ (i n : Nat) : revFrom i (n+1) = revFrom (i+1) n ++ [i] := by
  induction n with
  | zero => simp [revFrom]
  | succ m ih =>
    show (i + (m+1)) :: revFrom i (m+1) = ((i+1) + m) :: revFrom (i+1) m ++ [i]
    rw [ih]
    congr 1
    omega

theorem revFrom_length (i n : Nat) : (revFrom i n).length = n := by
  induction n with
  | zero => rfl
  | succ m ih => simp [revFrom, ih]

theorem mem_revFrom (i n x : Nat) : x ∈ revFrom i n ↔ i ≤ x ∧ x < i + n := by
  induction n with
  | zero => simp [revFrom]
  | succ m ih => simp [revFrom, ih]; omega

theorem revFrom_nodup (i n : Nat) : (revFrom i n).Nodup := by
  induction n with
  | zero => simp [revFrom]
  | succ m ih =>
    refine List.nodup_cons.mpr ⟨?_, ih⟩
    rw [mem_revFrom]
    omega

theorem initPcbsLoop_chain :
    ∀ (n i : Nat) (s : PoolState) (fl : List Nat),
      chainB (pnextOf s.pcbs) s.pcbFree_h fl = true →
      (∀ x ∈ fl, x < i) →
      chainB (pnextOf (initPcbsLoop s i n).pcbs) (initPcbsLoop s i n).pcbFree_h
        (revFrom i n ++ fl) = true := by
  intro n
  induction n with
  | zero => intro i s fl hc _; simpa [initPcbsLoop, revFrom] using hc
  | succ m ih =>
    intro i s fl hc hb
    show chainB _ (initPcbsLoop _ (i+1) m).pcbFree_h _ = true
    have hstep : chainB (pnextOf (setNext s.pcbs i s.pcbFree_h)) (some i) (i :: fl) = true := by
      simp only [chainB, Bool.and_eq_true, beq_iff_eq]
      refine ⟨by simp, ?_⟩
      have hg : pnextOf (setNext s.pcbs i s.pcbFree_h) i = s.pcbFree_h := by
        simp [pnextOf, setNext_next]
      rw [hg]
      refine chainB_congr _ _ fl _ ?_ hc
      intro x hx
      have : x ≠ i := by have := hb x hx; omega
      simp [pnextOf, setNext, hset_ne _ _ _ this]
    have hb' : ∀ x ∈ i :: fl, x < i + 1 := by
      intro x hx
      rcases List.mem_cons.mp hx with rfl | hx'
      · omega
      · have := hb x hx'; omega
    have := ih (i+1) { pcbs := setNext s.pcbs i s.pcbFree_h, pcbFree_h := some i } (i :: fl) hstep hb'
    rw [revFrom_succ]
    simpa [List.append_assoc] using this

theorem initPcbs_chain (mp : Nat) :
    chainB (pnextOf (initPcbs mp).pcbs) (initPcbs mp).pcbFree_h (revFrom 0 mp) = true := by
  have := initPcbsLoop_chain mp 0 { pcbs := fun _ => default, pcbFree_h := none } [] (by simp [chainB]) (by simp)
  simpa [initPcbs] using this

theorem allocOk_iff_chain :
    ∀ (fl : List Nat) (s : PoolState),
      chainB (pnextOf s.pcbs) s.pcbFree_h fl = true → fl.Nodup →
      ∀ n, allocOk s n = true ↔ n ≤ fl.length := by
  intro fl
  induction fl with
  | nil =>
    intro s hc _ n
    have hf : s.pcbFree_h = none := by
      cases hf : s.pcbFree_h
      · rfl
      · rw [hf] at hc; simp [chainB] at hc
    cases n with
    | zero => simp [allocOk]
    | succ m => simp [allocOk, allocPcb, hf]
  | cons i rest ih =>
    intro s hc hnd n
    have hf : s.pcbFree_h = some i := by
      cases hf : s.pcbFree_h with
      | none => rw [hf] at hc; simp [chainB] at hc
      | some j =>
        rw [hf] at hc
        simp only [chainB, Bool.and_eq_true, beq_iff_eq] at hc
        rw [hc.1]
    have hrest : chainB (pnextOf s.pcbs) (pnextOf s.pcbs i) rest = true := by
      rw [hf] at hc
      simp only [chainB, Bool.and_eq_true, beq_iff_eq] at hc
      exact hc.2
    cases n with
    | zero => simp [allocOk]
    | succ m =>
      have hstep : allocPcb s =
          ({ pcbs := hset s.pcbs i
              { s.pcbs i with
                p_next := none,
                p_prev := none,
                p_parent := none,
                p_child := none,
                p_sib_next := none,
                p_sib_prev := none,
                p_time := 0,
                p_semAdd := 0 },
             pcbFree_h := (s.pcbs i).p_next }, some i) := by
        simp [allocPcb, hf]
      have hin : i ∉ rest := (List.nodup_cons.mp hnd).1
      have hc' : chainB (pnextOf (hset s.pcbs i
          { s.pcbs i with
            p_next := none,
            p_prev := none,
            p_parent := none,
            p_child := none,
            p_sib_next := none,
            p_sib_prev := none,
            p_time := 0,
            p_semAdd := 0 })) ((s.pcbs i).p_next) rest = true := by
        refine chainB_congr _ _ rest _ ?_ hrest
        intro x hx
        exact pnextOf_hset _ _ _ _ (fun e => hin (e ▸ hx))
      have hok : allocOk s (m+1) = allocOk
          { pcbs := hset s.pcbs i
              { s.pcbs i with
                p_next := none,
                p_prev := none,
                p_parent := none,
                p_child := none,
                p_sib_next := none,
                p_sib_prev := none,
                p_time := 0,
                p_semAdd := 0 },
            pcbFree_h := (s.pcbs i).p_next } m := by
        simp [allocOk, hstep]
      rw [hok, ih _ hc' (List.nodup_cons.mp hnd).2 m]
      simp

theorem runOps_inv (mp : Nat) :
    ∀ (ops : List PoolOp) (s : PoolState) (held : List Nat) (s' : PoolState) (held' : List Nat),
      (∃ fl, chainB (pnextOf s.pcbs) s.pcbFree_h fl = true ∧
        (fl ++ held).Nodup ∧ fl.length + held.length = mp) →
      runOps (s, held) ops = some (s', held') →
      ∃ fl', chainB (pnextOf s'.pcbs) s'.pcbFree_h fl' = true ∧
        (fl' ++ held').Nodup ∧ fl'.length + held'.length = mp := by
  intro ops
  induction ops with
  | nil =>
    intro s held s' held' hinv hrun
    simp only [runOps, Option.some.injEq, Prod.mk.injEq] at hrun
    obtain ⟨hs, hh⟩ := hrun
    subst hs; subst hh
    exact hinv
  | cons op rest ih =>
    intro s held s' held' hinv hrun
    obtain ⟨fl, hc, hnd, hlen⟩ := hinv
    cases op with
    | alloc =>
      cases fl with
      | nil =>
        have hf : s.pcbFree_h = none := by
          cases hf : s.pcbFree_h
          · rfl
          · rw [hf] at hc; simp [chainB] at hc
        have hstep : allocPcb s = (s, none) := by simp [allocPcb, hf]
        simp only [runOps, hstep] at hrun
        refine ih s held s' held' ⟨[], ?_, by simpa using hnd, by simpa using hlen⟩ hrun
        rw [hf]; simp [chainB]
      | cons i fl₀ =>
        have hf : s.pcbFree_h = some i := by
          cases hf : s.pcbFree_h with
          | none => rw [hf] at hc; simp [chainB] at hc
          | some j =>
            rw [hf] at hc
            simp only [chainB, Bool.and_eq_true, beq_iff_eq] at hc
            rw [hc.1]
        have hrest : chainB (pnextOf s.pcbs) (pnextOf s.pcbs i) fl₀ = true := by
          rw [hf] at hc
          simp only [chainB, Bool.and_eq_true, beq_iff_eq] at hc
          exact hc.2
        have hstep : allocPcb s =
            ({ pcbs := hset s.pcbs i
                { s.pcbs i with
                  p_next := none,
                  p_prev := none,
                  p_parent := none,
                  p_child := none,
                  p_sib_next := none,
                  p_sib_prev := none,
                  p_time := 0,
                  p_semAdd := 0 },
               pcbFree_h := (s.pcbs i).p_next }, some i) := by
          simp [allocPcb, hf]
        simp only [runOps, hstep] at hrun
        refine ih _ _ s' held' ⟨fl₀, ?_, ?_, ?_⟩ hrun
        · have hin : i ∉ fl₀ := (List.nodup_cons.mp (by simpa using (List.nodup_append.mp hnd).1)).1
          refine chainB_congr _ _ fl₀ _ ?_ hrest
          intro x hx
          exact pnextOf_hset _ _ _ _ (fun e => hin (e ▸ hx))
        · have hperm : ((i :: fl₀) ++ held).Perm (fl₀ ++ i :: held) := by
            simpa using (@List.perm_middle _ i fl₀ held).symm
          exact hperm.nodup hnd
        · simp at hlen ⊢
          omega
    | free i =>
      by_cases hm : i ∈ held
      · simp only [runOps, if_pos hm] at hrun
        have hifl : i ∉ fl := by
          intro hx
          rcases List.nodup_append.mp hnd with ⟨-, -, hdisj⟩
          exact hdisj hx hm
        refine ih _ _ s' held' ⟨i :: fl, ?_, ?_, ?_⟩ hrun
        · simp only [freePcb, chainB, Bool.and_eq_true, beq_iff_eq]
          refine ⟨by simp, ?_⟩
          have hg : pnextOf (setNext s.pcbs i s.pcbFree_h) i = s.pcbFree_h := by
            simp [pnextOf, setNext_next]
          rw [hg]
          refine chainB_congr _ _ fl _ ?_ hc
          intro x hx
          have hxi : x ≠ i := fun e => hifl (e ▸ hx)
          simp [pnextOf, setNext, hset_ne _ _ _ hxi]
        · rcases List.nodup_append.mp hnd with ⟨hfl, hheld, hdisj⟩
          have hnde : (held.erase i).Nodup := hheld.erase i
          have hine : i ∉ held.erase i := fun hx => ((List.Nodup.mem_erase_iff hheld).mp hx).1 rfl
          refine List.nodup_append.mpr ⟨List.nodup_cons.mpr ⟨hifl, hfl⟩, hnde, ?_⟩
          intro x hx hx'
          rcases List.mem_cons.mp hx with rfl | hx2
          · exact hine hx'
          · exact hdisj hx2 (List.erase_subset _ _ hx')
        · have hle : (held.erase i).length = held.length - 1 := List.length_erase_of_mem hm
          have hpos : 0 < held.length := List.length_pos.mpr (fun e => by subst e; simp at hm)
          simp only [List.length_cons, hle]
          omega
      · simp only [runOps, if_neg hm] at hrun
        exact Option.noConfusion hrun

/-- C2: Pool conservation — after initPcbs and any legal sequence of
allocPcb / freePcb calls (each release returns a block the caller holds),
the caller holds at most MAXPROC blocks and exactly
`MAXPROC - held` further allocations succeed before allocPcb returns none:
`n` consecutive allocations succeed iff `n ≤ MAXPROC - held`.  In
particular after MAXPROC successful allocations the next allocPcb returns
none, and after releasing everything exactly MAXPROC allocations succeed. -/
theorem c2_pool_conservation (mp : Nat) (ops : List PoolOp) (s : PoolState) (held : List Nat)
    (hrun : afterOps mp ops = some (s, held)) :
    held.length ≤ mp ∧ ∀ n, (allocOk s n = true ↔ n ≤ mp - held.length) := by
  have hbase : ∃ fl, chainB (pnextOf (initPcbs mp).pcbs) (initPcbs mp).pcbFree_h fl = true ∧
      (fl ++ ([] : List Nat)).Nodup ∧ fl.length + ([] : List Nat).length = mp := by
    refine ⟨revFrom 0 mp, initPcbs_chain mp, ?_, ?_⟩
    · simpa using revFrom_nodup 0 mp
    · simpa using revFrom_length 0 mp
  obtain ⟨fl, hc, hnd, hlen⟩ := runOps_inv mp ops (initPcbs mp) [] s held hbase hrun
  have hndfl : fl.Nodup := (List.nodup_append.mp hnd).1
  constructor
  · omega
  · intro n
    rw [allocOk_iff_chain fl s hc hndfl n]
    omega

/-- C2 witness: with MAXPROC = 2 and one allocation performed, exactly one
further allocation is possible. -/
theorem c2_pool_conservation_witness :
    c2run.2.length ≤ 2 ∧ (allocOk c2run.1 1 = true ↔ 1 ≤ 2 - c2run.2.length) := by
  have h := c2_pool_conservation 2 [PoolOp.alloc] c2run.1 c2run.2 rfl
  exact ⟨h.1, h.2 1⟩

/-! Descriptor-heap read lemmas and ASL chain surgery. -/

theorem sSetNext_next (g : SemdHeap) (i : Nat) (v : Option Nat) (j : Nat) :
    (sSetNext g i v j).s_next = if j = i then v else (g j).s_next := by
  by_cases hj : j = i <;> simp [sSetNext, sset, hj]

theorem sSetNext_semAdd (g : SemdHeap) (i : Nat) (v : Option Nat) (j : Nat) :
    (sSetNext g i v j).s_semAdd = (g j).s_semAdd := by
  by_cases hj : j = i <;> simp [sSetNext, sset, hj]

theorem sSetNext_procQ (g : SemdHeap) (i : Nat) (v : Option Nat) (j : Nat) :
    (sSetNext g i v j).s_procQ = (g j).s_procQ := by
  by_cases hj : j = i <;> simp [sSetNext, sset, hj]

theorem sSetSemAdd_next (g : SemdHeap) (i : Nat) (v : Nat) (j : Nat) :
    (sSetSemAdd g i v j).s_next = (g j).s_next := by
  by_cases hj : j = i <;> simp [sSetSemAdd, sset, hj]

theorem sSetSemAdd_semAdd (g : SemdHeap) (i : Nat) (v : Nat) (j : Nat) :
    (sSetSemAdd g i v j).s_semAdd = if j = i then v else (g j).s_semAdd := by
  by_cases hj : j = i <;> simp [sSetSemAdd, sset, hj]

theorem sSetSemAdd_procQ (g : SemdHeap) (i : Nat) (v : Nat) (j : Nat) :
    (sSetSemAdd g i v j).s_procQ = (g j).s_procQ := by
  by_cases hj : j = i <;> simp [sSetSemAdd, sset, hj]

theorem sSetProcQ_next (g : SemdHeap) (i : Nat) (v : Option Nat) (j : Nat) :
    (sSetProcQ g i v j).s_next = (g j).s_next := by
  by_cases hj : j = i <;> simp [sSetProcQ, sset, hj]

theorem sSetProcQ_semAdd (g : SemdHeap) (i : Nat) (v : Option Nat) (j : Nat) :
    (sSetProcQ g i v j).s_semAdd = (g j).s_semAdd := by
  by_cases hj : j = i <;> simp [sSetProcQ, sset, hj]

theorem sSetProcQ_procQ (g : SemdHeap) (i : Nat) (v : Option Nat) (j : Nat) :
    (sSetProcQ g i v j).s_procQ = if j = i then v else (g j).s_procQ := by
  by_cases hj : j = i <;> simp [sSetProcQ, sset, hj]

theorem nextOf_sSetProcQ (g : SemdHeap) (i : Nat) (v : Option Nat) :
    nextOf (sSetProcQ g i v) = nextOf g := by
  funext j; simp [nextOf, sSetProcQ_next]

theorem nextOf_sSetSemAdd (g : SemdHeap) (i : Nat) (v : Nat) :
    nextOf (sSetSemAdd g i v) = nextOf g := by
  funext j; simp [nextOf, sSetSemAdd_next]

theorem keysOf_sSetProcQ (g : SemdHeap) (i : Nat) (v : Option Nat) (l : List Nat) :
    keysOf (sSetProcQ g i v) l = keysOf g l := by
  simp [keysOf, sSetProcQ_semAdd]

theorem keysOf_sSetNext (g : SemdHeap) (i : Nat) (v : Option Nat) (l : List Nat) :
    keysOf (sSetNext g i v) l = keysOf g l := by
  simp [keysOf, sSetNext_semAdd]

theorem keysOf_sSetSemAdd_ne (g : SemdHeap) (i : Nat) (v : Nat) (l : List Nat) (hi : i ∉ l) :
    keysOf (sSetSemAdd g i v) l = keysOf g l := by
  simp only [keysOf]
  refine List.map_congr_left ?_
  intro x hx
  have hxi : x ≠ i := fun e => hi (e ▸ hx)
  rw [sSetSemAdd_semAdd, if_neg hxi]

theorem chainB_head (g : Nat → Option Nat) (st : Option Nat) (x : Nat) (rest : List Nat)
    (hc : chainB g st (x :: rest) = true) : st = some x := by
  cases st with
  | none => simp [chainB] at hc
  | some i =>
    simp only [chainB, Bool.and_eq_true, beq_iff_eq] at hc
    rw [hc.1]

theorem chainB_cons_elim (g : Nat → Option Nat) (x : Nat) (rest : List Nat)
    (hc : chainB g (some x) (x :: rest) = true) : chainB g (g x) rest = true := by
  simp only [chainB, Bool.and_eq_true, beq_iff_eq] at hc
  exact hc.2

theorem chainB_adjacent (g : Nat → Option Nat) :
    ∀ (A : List Nat) (st : Option Nat) (x y : Nat) (B : List Nat),
      chainB g st (A ++ x :: y :: B) = true → g x = some y := by
  intro A
  induction A with
  | nil =>
    intro st x y B hc
    rw [chainB_head g st x _ hc] at hc
    exact chainB_head g (g x) y B (chainB_cons_elim g x _ hc)
  | cons a A' ih =>
    intro st x y B hc
    rw [chainB_head g st a _ hc] at hc
    exact ih (g a) x y B (chainB_cons_elim g a _ hc)

theorem chainB_splice_in (g g' : Nat → Option Nat) (loc f : Nat) :
    ∀ (pre : List Nat) (st : Option Nat) (rest : List Nat),
      chainB g st (pre ++ loc :: rest) = true →
      (∀ x, x ≠ loc → x ≠ f → g' x = g x) →
      g' loc = some f →
      g' f = g loc →
      loc ∉ pre → f ∉ pre → f ≠ loc → loc ∉ rest → f ∉ rest →
      chainB g' st (pre ++ loc :: f :: rest) = true := by
  intro pre
  induction pre with
  | nil =>
    intro st rest hc hg hl hf _ _ hfl hlr hfr
    simp only [List.nil_append] at hc ⊢
    have hst := chainB_head g st loc rest hc
    subst hst
    simp only [chainB, Bool.and_eq_true, beq_iff_eq]
    refine ⟨by simp, ?_⟩
    rw [hl]
    simp only [chainB, Bool.and_eq_true, beq_iff_eq]
    refine ⟨by simp, ?_⟩
    rw [hf]
    refine chainB_congr g g' rest (g loc) ?_ (chainB_cons_elim g loc rest hc)
    intro x hx
    exact hg x (fun e => hlr (e ▸ hx)) (fun e => hfr (e ▸ hx))
  | cons a pre' ih =>
    intro st rest hc hg hl hf hlp hfp hfl hlr hfr
    simp only [List.cons_append] at hc ⊢
    have hst := chainB_head g st a _ hc
    subst hst
    simp only [chainB, Bool.and_eq_true, beq_iff_eq]
    refine ⟨by simp, ?_⟩
    have hga : g' a = g a :=
      hg a (fun e => hlp (e ▸ List.mem_cons_self a pre')) (fun e => hfp (e ▸ List.mem_cons_self a pre'))
    rw [hga]
    exact ih (g a) rest (chainB_cons_elim g a _ hc) hg hl hf
      (fun hx => hlp (List.mem_cons_of_mem a hx)) (fun hx => hfp (List.mem_cons_of_mem a hx))
      hfl hlr hfr

theorem chainB_splice_out (g g' : Nat → Option Nat) (loc d : Nat) :
    ∀ (pre : List Nat) (st : Option Nat) (rest : List Nat),
      chainB g st (pre ++ loc :: d :: rest) = true →
      (∀ x, x ≠ loc → x ≠ d → g' x = g x) →
      g' loc = g d →
      loc ∉ pre → d ∉ pre → d ≠ loc → loc ∉ rest → d ∉ rest →
      chainB g' st (pre ++ loc :: rest) = true := by
  intro pre
  induction pre with
  | nil =>
    intro st rest hc hg hl _ _ hdl hlr hdr
    simp only [List.nil_append] at hc ⊢
    have hst := chainB_head g st loc _ hc
    subst hst
    simp only [chainB, Bool.and_eq_true, beq_iff_eq]
    refine ⟨by simp, ?_⟩
    rw [hl]
    have hc2 : chainB g (g loc) (d :: rest) = true := chainB_cons_elim g loc _ hc
    have hgd : g loc = some d := chainB_head g (g loc) d rest hc2
    rw [hgd] at hc2
    refine chainB_congr g g' rest (g d) ?_ (chainB_cons_elim g d rest hc2)
    intro x hx
    exact hg x (fun e => hlr (e ▸ hx)) (fun e => hdr (e ▸ hx))
  | cons a pre' ih =>
    intro st rest hc hg hl hlp hdp hdl hlr hdr
    simp only [List.cons_append] at hc ⊢
    have hst := chainB_head g st a _ hc
    subst hst
    simp only [chainB, Bool.and_eq_true, beq_iff_eq]
    refine ⟨by simp, ?_⟩
    have hga : g' a = g a :=
      hg a (fun e => hlp (e ▸ List.mem_cons_self a pre')) (fun e => hdp (e ▸ List.mem_cons_self a pre'))
    rw [hga]
    exact ih (g a) rest (chainB_cons_elim g a _ hc) hg hl
      (fun hx => hlp (List.mem_cons_of_mem a hx)) (fun hx => hdp (List.mem_cons_of_mem a hx))
      hdl hlr hdr

theorem travLoop_stops (g : SemdHeap) (k : Nat) :
    ∀ (pre : List Nat) (loc d : Nat) (post₂ : List Nat) (st : Option Nat),
      chainB (nextOf g) st (pre ++ loc :: d :: post₂) = true →
      (∀ y ∈ (pre ++ [loc]).drop 1, (g y).s_semAdd < k) →
      (∀ x ∈ pre, (g x).s_semAdd < MAX_INT) →
      k ≤ (g d).s_semAdd →
      (∀ fuel v, travLoop g k st fuel = some v → v = some loc) ∧
      (∀ fuel, pre.length + 1 ≤ fuel → travLoop g k st fuel = some (some loc)) := by
  intro pre
  induction pre with
  | nil =>
    intro loc d post₂ st hc hlt hmt hkd
    simp only [List.nil_append] at hc
    have hst := chainB_head (nextOf g) st loc _ hc
    subst hst
    have hnext : nextOf g loc = some d := chainB_adjacent (nextOf g) [] _ loc d post₂ hc
    have hguard : ¬ ((g d).s_semAdd < k) := by omega
    constructor
    · intro fuel v hv
      cases fuel with
      | zero => simp [travLoop] at hv
      | succ f =>
        rw [travLoop] at hv
        simp only [show (g loc).s_next = some d from hnext, if_neg hguard] at hv
        exact (Option.some.inj hv).symm
    · intro fuel hfuel
      obtain ⟨f, rfl⟩ : ∃ f, fuel = f + 1 := ⟨fuel - 1, by omega⟩
      rw [travLoop]
      simp only [show (g loc).s_next = some d from hnext, if_neg hguard]
  | cons a pre' ih =>
    intro loc d post₂ st hc hlt hmt hkd
    simp only [List.cons_append] at hc
    have hst := chainB_head (nextOf g) st a _ hc
    subst hst
    have hrest : chainB (nextOf g) (nextOf g a) (pre' ++ loc :: d :: post₂) = true :=
      chainB_cons_elim (nextOf g) a _ hc
    have hlt' : ∀ y ∈ (pre' ++ [loc]).drop 1, (g y).s_semAdd < k := by
      intro y hy
      refine hlt y ?_
      simp only [List.cons_append, List.drop_one, List.tail_cons]
      exact (List.drop_subset 1 _) hy
    have hmt' : ∀ x ∈ pre', (g x).s_semAdd < MAX_INT := fun x hx => hmt x (List.mem_cons_of_mem a hx)
    obtain ⟨ihu, ihe⟩ := ih loc d post₂ (nextOf g a) hrest hlt' hmt' hkd
    have hna : (g a).s_next = some (((pre' ++ [loc]).headD 0)) := by
      cases pre' with
      | nil =>
        simpa using chainB_adjacent (nextOf g) [] _ a loc (d :: post₂) hc
      | cons b pre'' =>
        simpa using chainB_adjacent (nextOf g) [] _ a b (pre'' ++ loc :: d :: post₂) hc
    have hheadlt : (g ((pre' ++ [loc]).headD 0)).s_semAdd < k := by
      refine hlt _ ?_
      simp only [List.cons_append, List.drop_one, List.tail_cons]
      cases pre' with
      | nil => simp
      | cons b pre'' => simp
    have hamax : (g a).s_semAdd < MAX_INT := hmt a (List.mem_cons_self a pre')
    constructor
    · intro fuel v hv
      cases fuel with
      | zero => simp [travLoop] at hv
      | succ f =>
        rw [travLoop] at hv
        simp only [hna, if_pos hheadlt, if_pos hamax] at hv
        have hsw : (some ((pre' ++ [loc]).headD 0) : Option Nat) = nextOf g a := hna.symm
        rw [hsw] at hv
        exact ihu f v hv
    · intro fuel hfuel
      obtain ⟨f, rfl⟩ : ∃ f, fuel = f + 1 := ⟨fuel - 1, by omega⟩
      rw [travLoop]
      simp only [hna, if_pos hheadlt, if_pos hamax]
      have hsw : (some ((pre' ++ [loc]).headD 0) : Option Nat) = nextOf g a := hna.symm
      rw [hsw]
      refine ihe f ?_
      simp at hfuel ⊢
      omega

theorem find_split (g : SemdHeap) (k : Nat) :
    ∀ (ms : List Nat) (tl : Nat), k ≤ (g tl).s_semAdd →
      ∃ front d post₂, ms ++ [tl] = front ++ d :: post₂ ∧
        (∀ y ∈ front, (g y).s_semAdd < k) ∧ k ≤ (g d).s_semAdd ∧
        front <+: ms := by
  intro ms
  induction ms with
  | nil =>
    intro tl htl
    exact ⟨[], tl, [], rfl, by simp, htl, List.prefix_rfl⟩
  | cons m ms' ih =>
    intro tl htl
    by_cases hm : (g m).s_semAdd < k
    · obtain ⟨front', d, post₂, heq, hflt, hdk, hpre⟩ := ih tl htl
      refine ⟨m :: front', d, post₂, ?_, ?_, hdk, ?_⟩
      · simp [heq]
      · intro y hy
        rcases List.mem_cons.mp hy with rfl | hy'
        · exact hm
        · exact hflt y hy'
      · exact (List.prefix_cons_inj m).mpr hpre
    · exact ⟨[], m, ms' ++ [tl], rfl, by simp, by omega, List.nil_prefix⟩

theorem shape_traverse (s : AslState) (hd : Nat) (mids : List Nat) (tl : Nat) (fl : List Nat)
    (k : Nat) (hs : AslShape s hd mids tl fl) (hkM : k ≤ MAX_INT) :
    ∃ front d post₂ pre2 loc,
      mids ++ [tl] = front ++ d :: post₂ ∧
      front <+: mids ∧
      hd :: front = pre2 ++ [loc] ∧
      (∀ y ∈ front, (s.semds y).s_semAdd < k) ∧
      k ≤ (s.semds d).s_semAdd ∧
      (∀ fuel v, travLoop s.semds k s.semd_h fuel = some v → v = some loc) ∧
      (∀ fuel, pre2.length + 1 ≤ fuel → travLoop s.semds k s.semd_h fuel = some (some loc)) ∧
      (s.semds loc).s_next = some d ∧
      loc ∈ hd :: front := by
  obtain ⟨hchain, hcfl, hnd, hsort, hkhd, hktl, hmax, hque, hfree⟩ := hs
  have htl : k ≤ (s.semds tl).s_semAdd := by rw [hktl]; exact hkM
  obtain ⟨front, d, post₂, heq, hflt, hdk, hpre⟩ := find_split s.semds k mids tl htl
  have hne : (hd :: front) ≠ [] := List.cons_ne_nil hd front
  obtain ⟨pre2, loc, he2⟩ : ∃ pre2 loc, hd :: front = pre2 ++ [loc] :=
    ⟨_, _, (List.dropLast_append_getLast hne).symm⟩
  have hsplit : hd :: (mids ++ [tl]) = pre2 ++ loc :: d :: post₂ := by
    rw [heq]
    rw [show hd :: (front ++ d :: post₂) = (hd :: front) ++ d :: post₂ from rfl]
    rw [he2]
    simp
  have hchain2 : chainB (nextOf s.semds) s.semd_h (pre2 ++ loc :: d :: post₂) = true := by
    rw [← hsplit]; exact hchain
  have hlt2 : ∀ y ∈ (pre2 ++ [loc]).drop 1, (s.semds y).s_semAdd < k := by
    intro y hy
    rw [← he2] at hy
    simp only [List.drop_one, List.tail_cons] at hy
    exact hflt y hy
  have hmt2 : ∀ x ∈ pre2, (s.semds x).s_semAdd < MAX_INT := by
    intro x hx
    have hx2 : x ∈ hd :: front := by
      rw [he2]
      exact List.mem_append_left _ hx
    rcases List.mem_cons.mp hx2 with rfl | hx3
    · exact hmax x (List.mem_cons_self x mids)
    · exact hmax x (List.mem_cons_of_mem hd (hpre.subset hx3))
  have hloc : loc ∈ hd :: front := by
    rw [he2]
    exact List.mem_append_right _ (by simp)
  refine ⟨front, d, post₂, pre2, loc, heq, hpre, he2, hflt, hdk, ?_, ?_, ?_, hloc⟩
  · exact (travLoop_stops s.semds k pre2 loc d post₂ s.semd_h hchain2 hlt2 hmt2 hdk).1
  · exact (travLoop_stops s.semds k pre2 loc d post₂ s.semd_h hchain2 hlt2 hmt2 hdk).2
  · exact chainB_adjacent (nextOf s.semds) pre2 s.semd_h loc d post₂ hchain2

theorem insertProcQ_frame (h : Heap) (tp p : Option Nat) (h' : Heap) (tp' : Option Nat)
    (hrun : insertProcQ h tp p = some (h', tp')) :
    ∀ j, (h' j).p_semAdd = (h j).p_semAdd := by
  cases p with
  | none =>
    simp only [insertProcQ, Option.some.injEq, Prod.mk.injEq] at hrun
    intro j; rw [hrun.1]
  | some pid =>
    cases tp with
    | none =>
      simp only [insertProcQ, Option.some.injEq, Prod.mk.injEq] at hrun
      intro j
      rw [← hrun.1, setNext_semAdd, setPrev_semAdd]
    | some t =>
      cases hx : (setPrev (setNext h pid ((h t).p_next)) pid (some t) t).p_next with
      | none =>
        have : insertProcQ h (some t) (some pid) = none := by
          simp only [insertProcQ, hx]
        rw [this] at hrun
        exact Option.noConfusion hrun
      | some hd =>
        have hstep : insertProcQ h (some t) (some pid) =
            some (setNext (setPrev (setPrev (setNext h pid ((h t).p_next)) pid (some t)) hd (some pid)) t (some pid),
              some pid) := by
          simp only [insertProcQ, hx]
        rw [hstep] at hrun
        simp only [Option.some.injEq, Prod.mk.injEq] at hrun
        intro j
        rw [← hrun.1, setNext_semAdd, setPrev_semAdd, setPrev_semAdd, setNext_semAdd]

theorem insertProcQ_tail (h : Heap) (tp : Option Nat) (pid : Nat) (h' : Heap) (tp' : Option Nat)
    (hrun : insertProcQ h tp (some pid) = some (h', tp')) : tp' = some pid := by
  cases tp with
  | none =>
    simp only [insertProcQ, Option.some.injEq, Prod.mk.injEq] at hrun
    rw [hrun.2]
  | some t =>
    cases hx : (setPrev (setNext h pid ((h t).p_next)) pid (some t) t).p_next with
    | none =>
      have : insertProcQ h (some t) (some pid) = none := by
        simp only [insertProcQ, hx]
      rw [this] at hrun
      exact Option.noConfusion hrun
    | some hd =>
      have hstep : insertProcQ h (some t) (some pid) =
          some (setNext (setPrev (setPrev (setNext h pid ((h t).p_next)) pid (some t)) hd (some pid)) t (some pid),
            some pid) := by
        simp only [insertProcQ, hx]
      rw [hstep] at hrun
      simp only [Option.some.injEq, Prod.mk.injEq] at hrun
      rw [hrun.2]

theorem outProcQLoop_frame (h : Heap) (t pid : Nat) :
    ∀ (fuel : Nat) (iter : Option Nat) (h' : Heap) (tp' r : Option Nat),
      outProcQLoop h t pid iter fuel = some (h', tp', r) →
      ∀ j, (h' j).p_semAdd = (h j).p_semAdd := by
  intro fuel
  induction fuel with
  | zero =>
    intro iter h' tp' r hres
    simp [outProcQLoop] at hres
  | succ f ih =>
    intro iter h' tp' r hres
    cases iter with
    | none => simp [outProcQLoop] at hres
    | some i =>
      by_cases hip : i = pid
      · cases hpv : (h i).p_prev with
        | none =>
          have hrun : outProcQLoop h t pid (some i) (f+1) = none := by
            simp only [outProcQLoop, if_pos hip, hpv]
          rw [hrun] at hres
          exact Option.noConfusion hres
        | some ip =>
          cases hnx : (setNext h ip ((h i).p_next) i).p_next with
          | none =>
            have hrun : outProcQLoop h t pid (some i) (f+1) = none := by
              simp only [outProcQLoop, if_pos hip, hpv, hnx]
            rw [hrun] at hres
            exact Option.noConfusion hres
          | some inx =>
            have hrun : outProcQLoop h t pid (some i) (f+1) =
                some (setPrev (setNext (setPrev (setNext h ip ((h i).p_next)) inx
                    ((setNext h ip ((h i).p_next)) i).p_prev) i none) i none,
                  (if i = t then (if (h i).p_next = some i then none else (h i).p_prev) else some t),
                  some pid) := by
              simp only [outProcQLoop, if_pos hip, hpv, hnx]
            rw [hrun] at hres
            simp only [Option.some.injEq, Prod.mk.injEq] at hres
            intro j
            rw [← hres.1, setPrev_semAdd, setNext_semAdd, setPrev_semAdd, setNext_semAdd]
      · have hstep : outProcQLoop h t pid (some i) (f+1) =
            (if (h i).p_next = some t then some (h, some t, none)
             else outProcQLoop h t pid ((h i).p_next) f) := by
          simp only [outProcQLoop, if_neg hip]
        rw [hstep] at hres
        by_cases hnt : (h i).p_next = some t
        · rw [if_pos hnt] at hres
          simp only [Option.some.injEq, Prod.mk.injEq] at hres
          intro j
          rw [← hres.1]
        · rw [if_neg hnt] at hres
          exact ih _ _ _ _ hres

theorem outProcQ_frame (h : Heap) (tp p : Option Nat) (fuel : Nat) (h' : Heap) (tp' r : Option Nat)
    (hrun : outProcQ h tp p fuel = some (h', tp', r)) :
    ∀ j, (h' j).p_semAdd = (h j).p_semAdd := by
  cases p with
  | none =>
    simp only [outProcQ, Option.some.injEq, Prod.mk.injEq] at hrun
    intro j; rw [hrun.1]
  | some pid =>
    cases tp with
    | none =>
      simp only [outProcQ, Option.some.injEq, Prod.mk.injEq] at hrun
      intro j; rw [hrun.1]
    | some t => exact outProcQLoop_frame h t pid fuel (some t) h' tp' r hrun

theorem outProcQLoop_noremove (h : Heap) (t pid : Nat) :
    ∀ (fuel : Nat) (iter : Option Nat) (h' : Heap) (tp' : Option Nat),
      outProcQLoop h t pid iter fuel = some (h', tp', none) →
      h' = h ∧ tp' = some t := by
  intro fuel
  induction fuel with
  | zero =>
    intro iter h' tp' hres
    simp [outProcQLoop] at hres
  | succ f ih =>
    intro iter h' tp' hres
    cases iter with
    | none => simp [outProcQLoop] at hres
    | some i =>
      by_cases hip : i = pid
      · cases hpv : (h i).p_prev with
        | none =>
          have hrun : outProcQLoop h t pid (some i) (f+1) = none := by
            simp only [outProcQLoop, if_pos hip, hpv]
          rw [hrun] at hres
          exact Option.noConfusion hres
        | some ip =>
          cases hnx : (setNext h ip ((h i).p_next) i).p_next with
          | none =>
            have hrun : outProcQLoop h t pid (some i) (f+1) = none := by
              simp only [outProcQLoop, if_pos hip, hpv, hnx]
            rw [hrun] at hres
            exact Option.noConfusion hres
          | some inx =>
            have hrun : outProcQLoop h t pid (some i) (f+1) =
                some (setPrev (setNext (setPrev (setNext h ip ((h i).p_next)) inx
                    ((setNext h ip ((h i).p_next)) i).p_prev) i none) i none,
                  (if i = t then (if (h i).p_next = some i then none else (h i).p_prev) else some t),
                  some pid) := by
              simp only [outProcQLoop, if_pos hip, hpv, hnx]
            rw [hrun] at hres
            simp only [Option.some.injEq, Prod.mk.injEq] at hres
            exact absurd hres.2.2 (by simp)
      · have hstep : outProcQLoop h t pid (some i) (f+1) =
            (if (h i).p_next = some t then some (h, some t, none)
             else outProcQLoop h t pid ((h i).p_next) f) := by
          simp only [outProcQLoop, if_neg hip]
        rw [hstep] at hres
        by_cases hnt : (h i).p_next = some t
        · rw [if_pos hnt] at hres
          simp only [Option.some.injEq, Prod.mk.injEq] at hres
          exact ⟨hres.1.symm, hres.2.1.symm⟩
        · rw [if_neg hnt] at hres
          exact ih _ _ _ hres

theorem outProcQ_noremove (h : Heap) (tp p : Option Nat) (fuel : Nat) (h' : Heap) (tp' : Option Nat)
    (hrun : outProcQ h tp p fuel = some (h', tp', none)) :
    h' = h ∧ tp' = tp := by
  cases p with
  | none =>
    simp only [outProcQ, Option.some.injEq, Prod.mk.injEq] at hrun
    exact ⟨hrun.1.symm, hrun.2.1.symm⟩
  | some pid =>
    cases tp with
    | none =>
      simp only [outProcQ, Option.some.injEq, Prod.mk.injEq] at hrun
      exact ⟨hrun.1.symm, hrun.2.1.symm⟩
    | some t => exact outProcQLoop_noremove h t pid fuel (some t) h' tp' hrun

theorem outProcQ_removed (h : Heap) (tp p : Option Nat) (fuel : Nat) (h' : Heap) (tp' : Option Nat)
    (q : Nat) (hrun : outProcQ h tp p fuel = some (h', tp', some q)) :
    p = some q := by
  cases p with
  | none =>
    simp only [outProcQ, Option.some.injEq, Prod.mk.injEq] at hrun
    exact absurd hrun.2.2 (by simp)
  | some pid =>
    cases tp with
    | none =>
      simp only [outProcQ, Option.some.injEq, Prod.mk.injEq] at hrun
      exact absurd hrun.2.2 (by simp)
    | some t =>
      have := (outProcQLoop_clears h t pid fuel (some t) h' tp' q hrun).1
      rw [this]

theorem headBlocked_state (s : AslState) (k fuel : Nat) (s' : AslState) (r : Option Nat)
    (hrun : headBlocked s k fuel = some (s', r)) :
    s'.semds = s.semds ∧ s'.semd_h = s.semd_h ∧ s'.semdFree_h = s.semdFree_h ∧
    ∀ i, (s'.pcbs i).p_semAdd = (s.pcbs i).p_semAdd ∨ (s'.pcbs i).p_semAdd = k := by
  cases htr : traverseASL s k fuel with
  | none =>
    simp only [headBlocked, htr] at hrun
    exact Option.noConfusion hrun
  | some o =>
    cases o with
    | none =>
      simp only [headBlocked, htr] at hrun
      exact Option.noConfusion hrun
    | some loc =>
      simp only [headBlocked, htr] at hrun
      cases hnx : (s.semds loc).s_next with
      | none =>
        simp only [hnx] at hrun
        exact Option.noConfusion hrun
      | some nid =>
        simp only [hnx] at hrun
        by_cases hne : (s.semds nid).s_semAdd ≠ k
        · rw [if_pos hne] at hrun
          injection hrun with hpair
          injection hpair with hs hr
          rw [← hs]
          exact ⟨rfl, rfl, rfl, fun i => Or.inl rfl⟩
        · rw [if_neg hne] at hrun
          by_cases hemp : emptyProcQ (s.semds nid).s_procQ = true
          · rw [if_pos hemp] at hrun
            injection hrun with hpair
            injection hpair with hs hr
            rw [← hs]
            exact ⟨rfl, rfl, rfl, fun i => Or.inl rfl⟩
          · rw [if_neg hemp] at hrun
            cases hh : headProcQ s.pcbs (s.semds nid).s_procQ with
            | none =>
              simp only [hh] at hrun
              exact Option.noConfusion hrun
            | some rid =>
              simp only [hh] at hrun
              injection hrun with hpair
              injection hpair with hs hr
              rw [← hs]
              refine ⟨rfl, rfl, rfl, fun i => ?_⟩
              by_cases hir : i = rid
              · subst hir
                right
                rw [setSemAdd_semAdd, if_pos rfl]
              · left
                rw [setSemAdd_semAdd, if_neg hir]

theorem keysOf_congr (g g' : SemdHeap) (l : List Nat)
    (h : ∀ x ∈ l, (g' x).s_semAdd = (g x).s_semAdd) : keysOf g' l = keysOf g l :=
  List.map_congr_left h

theorem chainB_head_cases (g : Nat → Option Nat) (f : Nat) (l : List Nat)
    (hc : chainB g (some f) l = true) :
    ∃ l₀, l = f :: l₀ ∧ chainB g (g f) l₀ = true := by
  cases l with
  | nil => simp [chainB] at hc
  | cons a l₀ =>
    have hfa : (some f : Option Nat) = some a := chainB_head g (some f) a l₀ hc
    injection hfa with hfa
    subst hfa
    exact ⟨l₀, rfl, chainB_cons_elim g f l₀ hc⟩

theorem pairwise_insert_mid (X Y : List Nat) (a m b : Nat)
    (hpw : List.Pairwise (· < ·) (X ++ a :: b :: Y)) (ham : a < m) (hmb : m < b) :
    List.Pairwise (· < ·) (X ++ a :: m :: b :: Y) := by
  rw [List.pairwise_append] at hpw ⊢
  obtain ⟨hX, hR, hcross⟩ := hpw
  rw [List.pairwise_cons] at hR
  obtain ⟨ha, hbY⟩ := hR
  rw [List.pairwise_cons] at hbY
  obtain ⟨hb, hY⟩ := hbY
  refine ⟨hX, ?_, ?_⟩
  · rw [List.pairwise_cons]
    refine ⟨?_, ?_⟩
    · intro y hy
      rcases List.mem_cons.mp hy with rfl | hy'
      · exact ham
      · exact ha y hy'
    · rw [List.pairwise_cons]
      refine ⟨?_, ?_⟩
      · intro y hy
        rcases List.mem_cons.mp hy with rfl | hy'
        · exact hmb
        · exact lt_trans hmb (hb y hy')
      · rw [List.pairwise_cons]
        exact ⟨hb, hY⟩
  · intro x hx y hy
    rcases List.mem_cons.mp hy with rfl | hy'
    · exact hcross x hx y (List.mem_cons_self y _)
    · rcases List.mem_cons.mp hy' with rfl | hy''
      · exact lt_trans (hcross x hx a (List.mem_cons_self a _)) ham
      · exact hcross x hx y (List.mem_cons_of_mem a hy'')

theorem shape_sSetProcQ (s : AslState) (hd : Nat) (mids : List Nat) (tl : Nat) (fl : List Nat)
    (hs : AslShape s hd mids tl fl) (d : Nat) (v : Option Nat)
    (hdmem : d ∈ hd :: (mids ++ [tl])) (hv : d ∈ mids → v ≠ none) (pcbs' : Heap) :
    AslShape { pcbs := pcbs', semds := sSetProcQ s.semds d v,
               semd_h := s.semd_h, semdFree_h := s.semdFree_h } hd mids tl fl := by
  obtain ⟨hchain, hcfl, hnd, hsort, hkhd, hktl, hmax, hque, hfree⟩ := hs
  have hdisj : List.Disjoint (hd :: (mids ++ [tl])) fl := List.disjoint_of_nodup_append hnd
  refine ⟨?_, ?_, hnd, ?_, ?_, ?_, ?_, ?_, ?_⟩
  · show chainB (nextOf (sSetProcQ s.semds d v)) s.semd_h (hd :: (mids ++ [tl])) = true
    rw [nextOf_sSetProcQ]
    exact hchain
  · show chainB (nextOf (sSetProcQ s.semds d v)) s.semdFree_h fl = true
    rw [nextOf_sSetProcQ]
    exact hcfl
  · show List.Chain' (· < ·) (keysOf (sSetProcQ s.semds d v) (hd :: (mids ++ [tl])))
    rw [keysOf_sSetProcQ]
    exact hsort
  · show (sSetProcQ s.semds d v hd).s_semAdd = 0
    rw [sSetProcQ_semAdd]
    exact hkhd
  · show (sSetProcQ s.semds d v tl).s_semAdd = MAX_INT
    rw [sSetProcQ_semAdd]
    exact hktl
  · intro x hx
    show (sSetProcQ s.semds d v x).s_semAdd < MAX_INT
    rw [sSetProcQ_semAdd]
    exact hmax x hx
  · intro e he
    show (sSetProcQ s.semds d v e).s_procQ ≠ none
    rw [sSetProcQ_procQ]
    by_cases hed : e = d
    · rw [if_pos hed]
      exact hv (hed ▸ he)
    · rw [if_neg hed]
      exact hque e he
  · intro x hx
    have hxd : x ≠ d := fun e => hdisj hdmem (e ▸ hx)
    show (sSetProcQ s.semds d v x).s_procQ = none
    rw [sSetProcQ_procQ, if_neg hxd]
    exact hfree x hx

theorem shape_splice_in (s : AslState) (hd : Nat) (mids : List Nat) (tl : Nat)
    (k d loc f : Nat) (front post₂ pre2 fl₀ : List Nat)
    (hs : AslShape s hd mids tl (f :: fl₀))
    (heq : mids ++ [tl] = front ++ d :: post₂)
    (he2 : hd :: front = pre2 ++ [loc])
    (hflt : ∀ y ∈ front, (s.semds y).s_semAdd < k)
    (hdk : k ≤ (s.semds d).s_semAdd)
    (hkey : (s.semds d).s_semAdd ≠ k)
    (hk0 : 0 < k) (hkM : k < MAX_INT)
    (hnxt : (s.semds loc).s_next = some d)
    (pcbs' : Heap) (tp : Option Nat) (htp : tp ≠ none) :
    AslShape
      { pcbs := pcbs',
        semds := sSetProcQ (sSetSemAdd (sSetProcQ (sSetNext (sSetNext s.semds f (some d)) loc (some f)) f none) f k) f tp,
        semd_h := s.semd_h,
        semdFree_h := (s.semds f).s_next }
      hd (front ++ f :: (d :: post₂).dropLast) tl fl₀ := by
  obtain ⟨hchain, hcfl, hnd, hsort, hkhd, hktl, hmax, hque, hfree⟩ := hs
  -- the written descriptor heap and its pointwise behaviour
  set G' : SemdHeap :=
    sSetProcQ (sSetSemAdd (sSetProcQ (sSetNext (sSetNext s.semds f (some d)) loc (some f)) f none) f k) f tp with hG'
  have hkeyG : ∀ x, (G' x).s_semAdd = if x = f then k else (s.semds x).s_semAdd := by
    intro x
    by_cases hxf : x = f
    · rw [hG', sSetProcQ_semAdd, sSetSemAdd_semAdd, if_pos hxf, if_pos hxf]
    · rw [hG', sSetProcQ_semAdd, sSetSemAdd_semAdd, if_neg hxf, sSetProcQ_semAdd,
        sSetNext_semAdd, sSetNext_semAdd, if_neg hxf]
  have hprocG : ∀ x, (G' x).s_procQ = if x = f then tp else (s.semds x).s_procQ := by
    intro x
    by_cases hxf : x = f
    · rw [hG', sSetProcQ_procQ, if_pos hxf, if_pos hxf]
    · rw [hG', sSetProcQ_procQ, if_neg hxf, sSetSemAdd_procQ, sSetProcQ_procQ, if_neg hxf,
        sSetNext_procQ, sSetNext_procQ, if_neg hxf]
  have hnofG : nextOf G' = nextOf (sSetNext (sSetNext s.semds f (some d)) loc (some f)) := by
    rw [hG', nextOf_sSetProcQ, nextOf_sSetSemAdd, nextOf_sSetProcQ]
  -- the tail split of `d :: post₂`
  have hne2 : (d :: post₂) ≠ [] := List.cons_ne_nil d post₂
  have hdl0 : (d :: post₂).dropLast ++ [(d :: post₂).getLast hne2] = d :: post₂ :=
    List.dropLast_append_getLast hne2
  have heqassoc : mids ++ [tl] = (front ++ (d :: post₂).dropLast) ++ [(d :: post₂).getLast hne2] := by
    rw [List.append_assoc, hdl0]
    exact heq
  have hinj := List.append_inj' heqassoc (by simp)
  have hmids2 : mids = front ++ (d :: post₂).dropLast := hinj.1
  have hgl : (d :: post₂).getLast hne2 = tl := by
    have := hinj.2
    injection this with h1 h2
    exact h1.symm
  have hdl2 : (d :: post₂).dropLast ++ [tl] = d :: post₂ := by
    rw [← hgl]
    exact hdl0
  -- list identities
  have hsplit : hd :: (mids ++ [tl]) = pre2 ++ loc :: d :: post₂ := by
    calc hd :: (mids ++ [tl]) = hd :: (front ++ d :: post₂) := by rw [heq]
      _ = (hd :: front) ++ (d :: post₂) := by simp
      _ = (pre2 ++ [loc]) ++ (d :: post₂) := by rw [he2]
      _ = pre2 ++ loc :: d :: post₂ := by simp
  have hlist2 : hd :: ((front ++ f :: (d :: post₂).dropLast) ++ [tl]) = pre2 ++ loc :: f :: d :: post₂ := by
    calc hd :: ((front ++ f :: (d :: post₂).dropLast) ++ [tl])
        = hd :: (front ++ (f :: ((d :: post₂).dropLast ++ [tl]))) := by simp
      _ = hd :: (front ++ (f :: (d :: post₂))) := by rw [hdl2]
      _ = (hd :: front) ++ (f :: d :: post₂) := by simp
      _ = (pre2 ++ [loc]) ++ (f :: d :: post₂) := by rw [he2]
      _ = pre2 ++ loc :: f :: d :: post₂ := by simp
  -- nodup bookkeeping
  obtain ⟨hndA, hndF, hdisj⟩ := List.nodup_append.mp hnd
  have hfF : f ∈ f :: fl₀ := List.mem_cons_self f fl₀
  have hfA : f ∉ hd :: (mids ++ [tl]) := fun hmem => hdisj hmem hfF
  obtain ⟨hfF0, hndF0⟩ := List.nodup_cons.mp hndF
  have hndA2 : (pre2 ++ loc :: d :: post₂).Nodup := by rw [← hsplit]; exact hndA
  obtain ⟨hndpre, hndR, hdisj2⟩ := List.nodup_append.mp hndA2
  have hlocpre : loc ∉ pre2 := fun h => hdisj2 h (List.mem_cons_self loc _)
  have hdpre : d ∉ pre2 := fun h => hdisj2 h (List.mem_cons_of_mem loc (List.mem_cons_self d _))
  obtain ⟨hlocR, hndR2⟩ := List.nodup_cons.mp hndR
  have hmemA : ∀ x, x ∈ pre2 ++ loc :: d :: post₂ → x ∈ hd :: (mids ++ [tl]) := by
    intro x hx
    rw [hsplit]
    exact hx
  have hfpre : f ∉ pre2 := fun h => hfA (hmemA f (List.mem_append_left _ h))
  have hfloc : f ≠ loc := fun e =>
    hfA (hmemA f (List.mem_append_right _ (e ▸ List.mem_cons_self loc _)))
  have hfR : f ∉ d :: post₂ := fun h =>
    hfA (hmemA f (List.mem_append_right _ (List.mem_cons_of_mem loc h)))
  have hlocA : loc ∈ hd :: (mids ++ [tl]) :=
    hmemA loc (List.mem_append_right _ (List.mem_cons_self loc _))
  have hlocF0 : loc ∉ fl₀ := fun h => hdisj hlocA (List.mem_cons_of_mem f h)
  have hfF0' : ∀ x ∈ fl₀, x ≠ f := fun x hx e => hfF0 (e ▸ hx)
  have hfF0l : ∀ x ∈ fl₀, x ≠ loc := fun x hx e => hlocF0 (e ▸ hx)
  -- key of loc is below k
  have hlocHF : loc ∈ hd :: front := by
    rw [he2]
    exact List.mem_append_right _ (List.mem_cons_self loc _)
  have hlock : (s.semds loc).s_semAdd < k := by
    rcases List.mem_cons.mp hlocHF with rfl | hmem
    · rw [hkhd]; exact hk0
    · exact hflt loc hmem
  have hkd : k < (s.semds d).s_semAdd := lt_of_le_of_ne hdk (Ne.symm hkey)
  -- membership transfer for the new middle list
  have hmidsub : ∀ x, x ∈ hd :: (front ++ f :: (d :: post₂).dropLast) →
      x = f ∨ x ∈ hd :: mids := by
    intro x hx
    rcases List.mem_cons.mp hx with rfl | hx2
    · right; exact List.mem_cons_self x mids
    · rcases List.mem_append.mp hx2 with hfr | hcons
      · right
        exact List.mem_cons_of_mem hd (by rw [hmids2]; exact List.mem_append_left _ hfr)
      · rcases List.mem_cons.mp hcons with rfl | hdl
        · left; rfl
        · right
          exact List.mem_cons_of_mem hd (by rw [hmids2]; exact List.mem_append_right _ hdl)
  have hmidmem : ∀ x, x ∈ front ++ f :: (d :: post₂).dropLast → x = f ∨ x ∈ mids := by
    intro x hx
    rcases List.mem_append.mp hx with hfr | hcons
    · right; rw [hmids2]; exact List.mem_append_left _ hfr
    · rcases List.mem_cons.mp hcons with rfl | hdl
      · left; rfl
      · right; rw [hmids2]; exact List.mem_append_right _ hdl
  refine ⟨?_, ?_, ?_, ?_, ?_, ?_, ?_, ?_, ?_⟩
  · -- active chain with the new descriptor spliced in after loc
    show chainB (nextOf G') s.semd_h (hd :: ((front ++ f :: (d :: post₂).dropLast) ++ [tl])) = true
    rw [hlist2, hnofG]
    refine chainB_splice_in (nextOf s.semds) _ loc f pre2 s.semd_h (d :: post₂) ?_ ?_ ?_ ?_
      hlocpre hfpre hfloc hlocR hfR
    · rw [← hsplit]; exact hchain
    · intro x hxl hxf
      show (sSetNext (sSetNext s.semds f (some d)) loc (some f) x).s_next = nextOf s.semds x
      rw [sSetNext_next, if_neg hxl, sSetNext_next, if_neg hxf]
      rfl
    · show (sSetNext (sSetNext s.semds f (some d)) loc (some f) loc).s_next = some f
      rw [sSetNext_next, if_pos rfl]
    · show (sSetNext (sSetNext s.semds f (some d)) loc (some f) f).s_next = nextOf s.semds loc
      rw [sSetNext_next, if_neg hfloc, sSetNext_next, if_pos rfl]
      show some d = (s.semds loc).s_next
      rw [hnxt]
  · -- free chain: the old tail of the free list
    show chainB (nextOf G') (s.semds f).s_next fl₀ = true
    have hcfl2 : chainB (nextOf s.semds) (nextOf s.semds f) fl₀ = true := by
      obtain ⟨l₀, hl₀, hrest⟩ := chainB_head_cases (nextOf s.semds) f (f :: fl₀)
        (by rw [← chainB_head (nextOf s.semds) s.semdFree_h f fl₀ hcfl]; exact hcfl)
      injection hl₀ with h1 h2
      rw [h2]
      exact hrest
    have : chainB (nextOf G') (nextOf s.semds f) fl₀ = true := by
      refine chainB_congr (nextOf s.semds) (nextOf G') fl₀ (nextOf s.semds f) ?_ hcfl2
      intro x hx
      rw [hnofG]
      show (sSetNext (sSetNext s.semds f (some d)) loc (some f) x).s_next = nextOf s.semds x
      rw [sSetNext_next, if_neg (hfF0l x hx), sSetNext_next, if_neg (hfF0' x hx)]
      rfl
    exact this
  · -- nodup of the new configuration (a permutation of the old one)
    show ((hd :: ((front ++ f :: (d :: post₂).dropLast) ++ [tl])) ++ fl₀).Nodup
    rw [hlist2]
    have hold : ((pre2 ++ loc :: d :: post₂) ++ (f :: fl₀)).Nodup := by
      rw [← hsplit]; exact hnd
    have e1 : (pre2 ++ loc :: f :: d :: post₂) ++ fl₀ =
        ((pre2 ++ [loc]) ++ f :: (d :: post₂)) ++ fl₀ := by simp
    have p1 : List.Perm (((pre2 ++ [loc]) ++ f :: (d :: post₂)) ++ fl₀)
        ((f :: ((pre2 ++ [loc]) ++ (d :: post₂))) ++ fl₀) :=
      List.Perm.append_right fl₀ List.perm_middle
    have e2 : (f :: ((pre2 ++ [loc]) ++ (d :: post₂))) ++ fl₀ =
        f :: ((pre2 ++ loc :: d :: post₂) ++ fl₀) := by simp
    have p2 : List.Perm ((pre2 ++ loc :: d :: post₂) ++ (f :: fl₀))
        (f :: ((pre2 ++ loc :: d :: post₂) ++ fl₀)) := List.perm_middle
    rw [e2] at p1
    have hperm : List.Perm ((pre2 ++ loc :: f :: d :: post₂) ++ fl₀)
        ((pre2 ++ loc :: d :: post₂) ++ (f :: fl₀)) := by
      rw [e1]
      exact p1.trans p2.symm
    exact hperm.nodup_iff.mpr hold
  · -- strict ascent of the keys, with k slotted between key loc and key d
    show List.Chain' (· < ·) (keysOf G' (hd :: ((front ++ f :: (d :: post₂).dropLast) ++ [tl])))
    rw [hlist2]
    have hmapold : keysOf s.semds (pre2 ++ loc :: d :: post₂) =
        keysOf s.semds pre2 ++ (s.semds loc).s_semAdd :: (s.semds d).s_semAdd ::
          keysOf s.semds post₂ := by
      simp [keysOf]
    have hmapnew : keysOf G' (pre2 ++ loc :: f :: d :: post₂) =
        keysOf s.semds pre2 ++ (s.semds loc).s_semAdd :: k :: (s.semds d).s_semAdd ::
          keysOf s.semds post₂ := by
      simp only [keysOf, List.map_append, List.map_cons]
      congr 1
      · refine List.map_congr_left ?_
        intro x hx
        rw [hkeyG, if_neg (fun e => hfpre (by rw [← e]; exact hx))]
      · congr 1
        · rw [hkeyG, if_neg (Ne.symm hfloc)]
        · congr 1
          · rw [hkeyG, if_pos rfl]
          · congr 1
            · rw [hkeyG, if_neg (fun e => hfR (by rw [← e]; exact List.mem_cons_self d post₂))]
            · refine List.map_congr_left ?_
              intro x hx
              rw [hkeyG, if_neg (fun e => hfR (by rw [← e]; exact List.mem_cons_of_mem d hx))]
    rw [List.chain'_iff_pairwise, hmapnew]
    have hsort2 : List.Pairwise (· < ·) (keysOf s.semds pre2 ++ (s.semds loc).s_semAdd ::
        (s.semds d).s_semAdd :: keysOf s.semds post₂) := by
      rw [← hmapold, ← List.chain'_iff_pairwise, ← hsplit]
      exact hsort
    exact pairwise_insert_mid _ _ _ _ _ hsort2 hlock hkd
  · -- the head sentinel key is untouched
    show (G' hd).s_semAdd = 0
    rw [hkeyG, if_neg (fun e => hfA (by rw [← e]; exact List.mem_cons_self hd _))]
    exact hkhd
  · -- the tail sentinel key is untouched
    show (G' tl).s_semAdd = MAX_INT
    have htlA : tl ∈ hd :: (mids ++ [tl]) :=
      List.mem_cons_of_mem hd (List.mem_append_right _ (List.mem_cons_self tl []))
    rw [hkeyG, if_neg (fun e => hfA (by rw [← e]; exact htlA))]
    exact hktl
  · -- all non-tail keys stay below MAX_INT
    intro x hx
    show (G' x).s_semAdd < MAX_INT
    rcases hmidsub x hx with rfl | hx2
    · rw [hkeyG, if_pos rfl]
      exact hkM
    · have hxf : x ≠ f := fun e => hfA (e ▸ (by
        rcases List.mem_cons.mp hx2 with rfl | hm
        · exact List.mem_cons_self x (mids ++ [tl])
        · exact List.mem_cons_of_mem hd (List.mem_append_left _ hm)))
      rw [hkeyG, if_neg hxf]
      exact hmax x hx2
  · -- every active real descriptor keeps a non-empty queue
    intro e he
    show (G' e).s_procQ ≠ none
    rcases hmidmem e he with rfl | he2'
    · rw [hprocG, if_pos rfl]
      exact htp
    · have hef : e ≠ f := fun ee =>
        hfA (ee ▸ (List.mem_cons_of_mem hd (List.mem_append_left _ he2')))
      rw [hprocG, if_neg hef]
      exact hque e he2'
  · -- the remaining free descriptors keep empty queues
    intro x hx
    show (G' x).s_procQ = none
    rw [hprocG, if_neg (hfF0' x hx)]
    exact hfree x (List.mem_cons_of_mem f hx)

theorem insertBlocked_shape (s : AslState) (hd : Nat) (mids : List Nat) (tl : Nat) (fl : List Nat)
    (k : Nat) (p : Option Nat) (fuel : Nat) (s' : AslState) (r : Bool)
    (hs : AslShape s hd mids tl fl) (hk0 : 0 < k) (hkM : k < MAX_INT)
    (hrun : insertBlocked s k p fuel = some (s', r)) :
    (∃ mids' fl', AslShape s' hd mids' tl fl') ∧
    (∀ i, (s'.pcbs i).p_semAdd = (s.pcbs i).p_semAdd ∨ (s'.pcbs i).p_semAdd = k) := by
  cases p with
  | none =>
    simp only [insertBlocked] at hrun
    injection hrun with hpair
    injection hpair with hseq hreq
    rw [← hseq]
    exact ⟨⟨mids, fl, hs⟩, fun i => Or.inl rfl⟩
  | some pid =>
    have hkne : ¬ (k = 0) := by omega
    obtain ⟨front, d, post₂, pre2, loc, heq, hpre, he2, hflt0, hdk0, hdet, hex, hlocnext, hlocmem⟩ :=
      shape_traverse { s with pcbs := setSemAdd s.pcbs pid k } hd mids tl fl k hs (Nat.le_of_lt hkM)
    have hnxt : (s.semds loc).s_next = some d := hlocnext
    have hflt : ∀ y ∈ front, (s.semds y).s_semAdd < k := hflt0
    have hdk : k ≤ (s.semds d).s_semAdd := hdk0
    have hdet' : ∀ fu v, travLoop s.semds k s.semd_h fu = some v → v = some loc := hdet
    simp only [insertBlocked, if_neg hkne] at hrun
    cases htr : traverseASL { s with pcbs := setSemAdd s.pcbs pid k } k fuel with
    | none =>
      simp only [htr] at hrun
      exact Option.noConfusion hrun
    | some o =>
      have ho : o = some loc := by
        refine hdet' fuel o ?_
        have hun : traverseASL { s with pcbs := setSemAdd s.pcbs pid k } k fuel
            = travLoop s.semds k s.semd_h fuel := by
          simp only [traverseASL, if_neg hkne]
        rw [← hun]
        exact htr
      subst ho
      simp only [htr] at hrun
      simp only [hnxt] at hrun
      by_cases hkeyd : (s.semds d).s_semAdd = k
      · rw [if_pos hkeyd] at hrun
        cases hins : insertProcQ (setSemAdd s.pcbs pid k) ((s.semds d).s_procQ) (some pid) with
        | none =>
          simp only [hins] at hrun
          exact Option.noConfusion hrun
        | some pr =>
          obtain ⟨h2, tp2⟩ := pr
          simp only [hins] at hrun
          injection hrun with hpair
          injection hpair with hseq hreq
          rw [← hseq]
          have htp2 : tp2 = some pid := insertProcQ_tail _ _ _ _ _ hins
          have hdmem : d ∈ hd :: (mids ++ [tl]) := by
            refine List.mem_cons_of_mem hd ?_
            rw [heq]
            exact List.mem_append_right _ (List.mem_cons_self d post₂)
          refine ⟨⟨mids, fl, ?_⟩, ?_⟩
          · refine shape_sSetProcQ s hd mids tl fl hs d tp2 hdmem ?_ h2
            intro hdm
            rw [htp2]
            simp
          · intro i
            have hfr := insertProcQ_frame _ _ _ _ _ hins i
            show (h2 i).p_semAdd = (s.pcbs i).p_semAdd ∨ (h2 i).p_semAdd = k
            rw [hfr, setSemAdd_semAdd]
            by_cases hip : i = pid
            · rw [if_pos hip]
              exact Or.inr rfl
            · rw [if_neg hip]
              exact Or.inl rfl
      · rw [if_neg hkeyd] at hrun
        cases hfh : s.semdFree_h with
        | none =>
          simp only [hfh] at hrun
          injection hrun with hpair
          injection hpair with hseq hreq
          rw [← hseq]
          have hsx : AslShape { pcbs := setSemAdd s.pcbs pid k, semds := s.semds, semd_h := s.semd_h, semdFree_h := none } hd mids tl fl := by
            obtain ⟨c1, c2, c3, c4, c5, c6, c7, c8, c9⟩ := hs
            refine ⟨c1, ?_, c3, c4, c5, c6, c7, c8, c9⟩
            show chainB (nextOf s.semds) none fl = true
            rw [← hfh]
            exact c2
          refine ⟨⟨mids, fl, hsx⟩, ?_⟩
          intro i
          show ((setSemAdd s.pcbs pid k) i).p_semAdd = (s.pcbs i).p_semAdd ∨
            ((setSemAdd s.pcbs pid k) i).p_semAdd = k
          rw [setSemAdd_semAdd]
          by_cases hip : i = pid
          · rw [if_pos hip]
            exact Or.inr rfl
          · rw [if_neg hip]
            exact Or.inl rfl
        | some f =>
          have hcfl2 : chainB (nextOf s.semds) (some f) fl = true := by
            have := hs.2.1
            rw [hfh] at this
            exact this
          obtain ⟨fl₀, hfl, hrest⟩ := chainB_head_cases (nextOf s.semds) f fl hcfl2
          simp only [hfh, sSetSemAdd_procQ, sSetProcQ_procQ, eq_self_iff_true, if_true,
            mkEmptyProcQ, insertProcQ] at hrun
          injection hrun with hpair
          injection hpair with hseq hreq
          rw [← hseq]
          have hs' : AslShape s hd mids tl (f :: fl₀) := by
            rw [← hfl]
            exact hs
          refine ⟨⟨front ++ f :: (d :: post₂).dropLast, fl₀, ?_⟩, ?_⟩
          · exact shape_splice_in s hd mids tl k d loc f front post₂ pre2 fl₀ hs' heq he2
              hflt hdk hkeyd hk0 hkM hnxt _ (some pid) (by simp)
          · intro i
            show ((setNext (setPrev (setSemAdd s.pcbs pid k) pid (some pid)) pid (some pid)) i).p_semAdd
                = (s.pcbs i).p_semAdd ∨ _ = k
            rw [setNext_semAdd, setPrev_semAdd, setSemAdd_semAdd]
            by_cases hip : i = pid
            · rw [if_pos hip]
              exact Or.inr rfl
            · rw [if_neg hip]
              exact Or.inl rfl

theorem shape_splice_out (s : AslState) (hd : Nat) (mids : List Nat) (tl : Nat) (fl : List Nat)
    (k d loc : Nat) (front post₂ pre2 : List Nat) (tp2 : Option Nat)
    (hs : AslShape s hd mids tl fl)
    (heq : mids ++ [tl] = front ++ d :: post₂)
    (he2 : hd :: front = pre2 ++ [loc])
    (hkeyd : (s.semds d).s_semAdd = k)
    (hkM : k < MAX_INT)
    (hnxt : (s.semds loc).s_next = some d)
    (pcbs' : Heap) :
    AslShape
      { pcbs := pcbs',
        semds := sSetNext (sSetProcQ (sSetNext (sSetProcQ s.semds d tp2) loc ((s.semds d).s_next)) d none) d s.semdFree_h,
        semd_h := s.semd_h,
        semdFree_h := some d }
      hd (front ++ post₂.dropLast) tl (d :: fl) := by
  obtain ⟨hchain, hcfl, hnd, hsort, hkhd, hktl, hmax, hque, hfree⟩ := hs
  set G : SemdHeap :=
    sSetNext (sSetProcQ (sSetNext (sSetProcQ s.semds d tp2) loc ((s.semds d).s_next)) d none) d s.semdFree_h with hG
  -- basic separations
  have hdtl : d ≠ tl := by
    intro e
    rw [e, hktl] at hkeyd
    omega
  -- post₂ ends with the tail sentinel
  have hpost_ne : post₂ ≠ [] := by
    intro e
    rw [e] at heq
    have hinj := List.append_inj' heq (by simp)
    have := hinj.2
    injection this with h1 h2
    exact hdtl h1.symm
  have hdl0 : post₂.dropLast ++ [post₂.getLast hpost_ne] = post₂ :=
    List.dropLast_append_getLast hpost_ne
  have heqassoc : mids ++ [tl] = (front ++ d :: post₂.dropLast) ++ [post₂.getLast hpost_ne] := by
    rw [List.append_assoc]
    simp only [List.cons_append]
    rw [hdl0]
    exact heq
  have hinj := List.append_inj' heqassoc (by simp)
  have hmids2 : mids = front ++ d :: post₂.dropLast := hinj.1
  have hgl : post₂.getLast hpost_ne = tl := by
    have := hinj.2
    injection this with h1 h2
    exact h1.symm
  have hdl2 : post₂.dropLast ++ [tl] = post₂ := by
    rw [← hgl]
    exact hdl0
  -- list identities
  have hsplit : hd :: (mids ++ [tl]) = pre2 ++ loc :: d :: post₂ := by
    calc hd :: (mids ++ [tl]) = hd :: (front ++ d :: post₂) := by rw [heq]
      _ = (hd :: front) ++ (d :: post₂) := by simp
      _ = (pre2 ++ [loc]) ++ (d :: post₂) := by rw [he2]
      _ = pre2 ++ loc :: d :: post₂ := by simp
  have hlist2 : hd :: ((front ++ post₂.dropLast) ++ [tl]) = pre2 ++ loc :: post₂ := by
    calc hd :: ((front ++ post₂.dropLast) ++ [tl])
        = hd :: (front ++ (post₂.dropLast ++ [tl])) := by simp
      _ = hd :: (front ++ post₂) := by rw [hdl2]
      _ = (hd :: front) ++ post₂ := by simp
      _ = (pre2 ++ [loc]) ++ post₂ := by rw [he2]
      _ = pre2 ++ loc :: post₂ := by simp
  -- nodup bookkeeping
  obtain ⟨hndA, hndF, hdisj⟩ := List.nodup_append.mp hnd
  have hndA2 : (pre2 ++ loc :: d :: post₂).Nodup := by rw [← hsplit]; exact hndA
  obtain ⟨hndpre, hndR, hdisj2⟩ := List.nodup_append.mp hndA2
  have hlocpre : loc ∉ pre2 := fun h => hdisj2 h (List.mem_cons_self loc _)
  have hdpre : d ∉ pre2 := fun h => hdisj2 h (List.mem_cons_of_mem loc (List.mem_cons_self d _))
  obtain ⟨hlocR, hndR2⟩ := List.nodup_cons.mp hndR
  obtain ⟨hdpost, hndpost⟩ := List.nodup_cons.mp hndR2
  have hdloc : d ≠ loc := fun e => hlocR (e ▸ List.mem_cons_self d post₂)
  have hlocpost : loc ∉ post₂ := fun h => hlocR (List.mem_cons_of_mem d h)
  have hmemA : ∀ x, x ∈ pre2 ++ loc :: d :: post₂ → x ∈ hd :: (mids ++ [tl]) := by
    intro x hx
    rw [hsplit]
    exact hx
  have hdA : d ∈ hd :: (mids ++ [tl]) :=
    hmemA d (List.mem_append_right _ (List.mem_cons_of_mem loc (List.mem_cons_self d _)))
  have hlocA : loc ∈ hd :: (mids ++ [tl]) :=
    hmemA loc (List.mem_append_right _ (List.mem_cons_self loc _))
  have hdfl : d ∉ fl := fun h => hdisj hdA h
  have hlocfl : loc ∉ fl := fun h => hdisj hlocA h
  -- pointwise values of the rewritten descriptor heap
  have hkeyG : ∀ x, (G x).s_semAdd = (s.semds x).s_semAdd := by
    intro x
    rw [hG, sSetNext_semAdd, sSetProcQ_semAdd, sSetNext_semAdd, sSetProcQ_semAdd]
  have hprocG : ∀ x, (G x).s_procQ = if x = d then none else (s.semds x).s_procQ := by
    intro x
    by_cases hxd : x = d
    · rw [hG, sSetNext_procQ, sSetProcQ_procQ, if_pos hxd, if_pos hxd]
    · rw [hG, sSetNext_procQ, sSetProcQ_procQ, if_neg hxd, sSetNext_procQ, sSetProcQ_procQ,
        if_neg hxd, if_neg hxd]
  have hnextG : ∀ x, x ≠ loc → x ≠ d → (G x).s_next = (s.semds x).s_next := by
    intro x hxl hxd
    rw [hG, sSetNext_next, if_neg hxd, sSetProcQ_next, sSetNext_next, if_neg hxl, sSetProcQ_next]
  have hnextGloc : (G loc).s_next = (s.semds d).s_next := by
    rw [hG, sSetNext_next, if_neg (Ne.symm hdloc), sSetProcQ_next, sSetNext_next, if_pos rfl]
  have hnextGd : (G d).s_next = s.semdFree_h := by
    rw [hG, sSetNext_next, if_pos rfl]
  refine ⟨?_, ?_, ?_, ?_, ?_, ?_, ?_, ?_, ?_⟩
  · -- active chain with d spliced out
    show chainB (nextOf G) s.semd_h (hd :: ((front ++ post₂.dropLast) ++ [tl])) = true
    rw [hlist2]
    refine chainB_splice_out (nextOf s.semds) (nextOf G) loc d pre2 s.semd_h post₂ ?_ ?_ ?_
      hlocpre hdpre hdloc hlocpost hdpost
    · rw [← hsplit]; exact hchain
    · intro x hxl hxd
      exact hnextG x hxl hxd
    · show (G loc).s_next = nextOf s.semds d
      rw [hnextGloc]
      rfl
  · -- free chain gains d at its head
    show chainB (nextOf G) (some d) (d :: fl) = true
    simp only [chainB, Bool.and_eq_true, beq_iff_eq]
    refine ⟨by simp, ?_⟩
    show chainB (nextOf G) ((G d).s_next) fl = true
    rw [hnextGd]
    refine chainB_congr (nextOf s.semds) (nextOf G) fl s.semdFree_h ?_ hcfl
    intro x hx
    show (G x).s_next = nextOf s.semds x
    rw [hnextG x (fun e => hlocfl (e ▸ hx)) (fun e => hdfl (e ▸ hx))]
    rfl
  · -- nodup of the new configuration (a permutation of the old one)
    show ((hd :: ((front ++ post₂.dropLast) ++ [tl])) ++ (d :: fl)).Nodup
    rw [hlist2]
    have hold : ((pre2 ++ loc :: d :: post₂) ++ fl).Nodup := by
      rw [← hsplit]; exact hnd
    have e1 : (pre2 ++ loc :: d :: post₂) ++ fl =
        ((pre2 ++ [loc]) ++ d :: post₂) ++ fl := by simp
    have p1 : List.Perm (((pre2 ++ [loc]) ++ d :: post₂) ++ fl)
        ((d :: ((pre2 ++ [loc]) ++ post₂)) ++ fl) :=
      List.Perm.append_right fl List.perm_middle
    have e2 : (d :: ((pre2 ++ [loc]) ++ post₂)) ++ fl =
        d :: ((pre2 ++ loc :: post₂) ++ fl) := by simp
    have p2 : List.Perm ((pre2 ++ loc :: post₂) ++ (d :: fl))
        (d :: ((pre2 ++ loc :: post₂) ++ fl)) := List.perm_middle
    rw [e2] at p1
    have hperm : List.Perm ((pre2 ++ loc :: post₂) ++ (d :: fl))
        ((pre2 ++ loc :: d :: post₂) ++ fl) := by
      rw [e1]
      exact p2.trans p1.symm
    exact hperm.nodup_iff.mpr hold
  · -- keys stay strictly ascending (a sublist of the old key list)
    show List.Chain' (· < ·) (keysOf G (hd :: ((front ++ post₂.dropLast) ++ [tl])))
    rw [hlist2]
    rw [keysOf_congr s.semds G _ (fun x _ => hkeyG x)]
    have hsub : List.Sublist (pre2 ++ loc :: post₂) (pre2 ++ loc :: d :: post₂) := by
      refine List.Sublist.append_left ?_ pre2
      refine List.Sublist.cons₂ loc ?_
      exact List.sublist_cons_self d post₂
    have hsold : List.Pairwise (· < ·) (keysOf s.semds (pre2 ++ loc :: d :: post₂)) := by
      rw [← List.chain'_iff_pairwise, ← hsplit]
      exact hsort
    rw [List.chain'_iff_pairwise]
    exact List.Pairwise.sublist (List.Sublist.map _ hsub) hsold
  · show (G hd).s_semAdd = 0
    rw [hkeyG]
    exact hkhd
  · show (G tl).s_semAdd = MAX_INT
    rw [hkeyG]
    exact hktl
  · intro x hx
    show (G x).s_semAdd < MAX_INT
    rw [hkeyG]
    refine hmax x ?_
    rcases List.mem_cons.mp hx with rfl | hx2
    · exact List.mem_cons_self x mids
    · refine List.mem_cons_of_mem hd ?_
      rw [hmids2]
      rcases List.mem_append.mp hx2 with hfr | hdl
      · exact List.mem_append_left _ hfr
      · exact List.mem_append_right _ (List.mem_cons_of_mem d hdl)
  · intro e he
    show (G e).s_procQ ≠ none
    have hemids : e ∈ mids := by
      rw [hmids2]
      rcases List.mem_append.mp he with hfr | hdl
      · exact List.mem_append_left _ hfr
      · exact List.mem_append_right _ (List.mem_cons_of_mem d hdl)
    have hed : e ≠ d := by
      intro ee
      subst ee
      rcases List.mem_append.mp he with hfr | hdl
      · have : e ∈ pre2 ++ [loc] := by
          rw [← he2]
          exact List.mem_cons_of_mem hd hfr
        rcases List.mem_append.mp this with h1 | h2
        · exact hdpre h1
        · rcases List.mem_cons.mp h2 with h3 | h4
          · exact hdloc h3
          · simp at h4
      · exact hdpost (List.dropLast_subset post₂ hdl)
    rw [hprocG, if_neg hed]
    exact hque e hemids
  · intro x hx
    show (G x).s_procQ = none
    rcases List.mem_cons.mp hx with rfl | hx2
    · rw [hprocG, if_pos rfl]
    · rw [hprocG, if_neg (fun e => hdfl (by rw [← e]; exact hx2))]
      exact hfree x hx2

theorem outBlocked_shape (s : AslState) (hd : Nat) (mids : List Nat) (tl : Nat) (fl : List Nat)
    (p : Option Nat) (fuel qfuel : Nat) (s' : AslState) (res : Option Nat)
    (hs : AslShape s hd mids tl fl)
    (hpk : ∀ i, (s.pcbs i).p_semAdd < MAX_INT)
    (hrun : outBlocked s p fuel qfuel = some (s', res)) :
    (∃ mids' fl', AslShape s' hd mids' tl fl') ∧
    (∀ i, (s'.pcbs i).p_semAdd = (s.pcbs i).p_semAdd ∨ (s'.pcbs i).p_semAdd = 0) := by
  cases p with
  | none =>
    simp only [outBlocked] at hrun
    injection hrun with hpair
    injection hpair with hseq hreq
    rw [← hseq]
    exact ⟨⟨mids, fl, hs⟩, fun i => Or.inl rfl⟩
  | some pid =>
    simp only [outBlocked] at hrun
    by_cases hkz : (s.pcbs pid).p_semAdd = 0
    · rw [if_pos hkz] at hrun
      injection hrun with hpair
      injection hpair with hseq hreq
      rw [← hseq]
      exact ⟨⟨mids, fl, hs⟩, fun i => Or.inl rfl⟩
    · rw [if_neg hkz] at hrun
      have hkM : (s.pcbs pid).p_semAdd < MAX_INT := hpk pid
      obtain ⟨front, d, post₂, pre2, loc, heq, hpre, he2, hflt, hdk, hdet, hex, hnxt, hlocmem⟩ :=
        shape_traverse s hd mids tl fl ((s.pcbs pid).p_semAdd) hs (Nat.le_of_lt hkM)
      cases htr : traverseASL s ((s.pcbs pid).p_semAdd) fuel with
      | none =>
        simp only [htr] at hrun
        exact Option.noConfusion hrun
      | some o =>
        have ho : o = some loc := by
          refine hdet fuel o ?_
          have hun : traverseASL s ((s.pcbs pid).p_semAdd) fuel
              = travLoop s.semds ((s.pcbs pid).p_semAdd) s.semd_h fuel := by
            simp only [traverseASL, if_neg hkz]
          rw [← hun]
          exact htr
        subst ho
        simp only [htr] at hrun
        simp only [hnxt] at hrun
        by_cases hkeyd : (s.semds d).s_semAdd ≠ (s.pcbs pid).p_semAdd
        · rw [if_pos hkeyd] at hrun
          injection hrun with hpair
          injection hpair with hseq hreq
          rw [← hseq]
          exact ⟨⟨mids, fl, hs⟩, fun i => Or.inl rfl⟩
        · rw [if_neg hkeyd] at hrun
          have hkeyd' : (s.semds d).s_semAdd = (s.pcbs pid).p_semAdd := of_not_not hkeyd
          have hdmem : d ∈ hd :: (mids ++ [tl]) := by
            refine List.mem_cons_of_mem hd ?_
            rw [heq]
            exact List.mem_append_right _ (List.mem_cons_self d post₂)
          by_cases hemp : emptyProcQ (s.semds d).s_procQ = true
          · rw [if_pos hemp] at hrun
            injection hrun with hpair
            injection hpair with hseq hreq
            rw [← hseq]
            exact ⟨⟨mids, fl, hs⟩, fun i => Or.inl rfl⟩
          · rw [if_neg hemp] at hrun
            cases hout : outProcQ s.pcbs ((s.semds d).s_procQ) (some pid) qfuel with
            | none =>
              simp only [hout] at hrun
              exact Option.noConfusion hrun
            | some trip =>
              obtain ⟨h2, trip2⟩ := trip
              obtain ⟨tp2, rm⟩ := trip2
              simp only [hout] at hrun
              cases rm with
              | none =>
                have hnr := outProcQ_noremove _ _ _ _ _ _ hout
                injection hrun with hpair
                injection hpair with hseq hreq
                rw [← hseq]
                refine ⟨⟨mids, fl, shape_sSetProcQ s hd mids tl fl hs d tp2 hdmem ?_ h2⟩, ?_⟩
                · intro hdm
                  rw [hnr.2]
                  exact hs.2.2.2.2.2.2.2.1 d hdm
                · intro i
                  show (h2 i).p_semAdd = (s.pcbs i).p_semAdd ∨ (h2 i).p_semAdd = 0
                  rw [hnr.1]
                  exact Or.inl rfl
              | some rid =>
                simp only [removeEmptySemd, sSetProcQ_next, hnxt, sSetProcQ_procQ,
                  eq_self_iff_true, if_true, mkEmptyProcQ] at hrun
                by_cases hemp2 : emptyProcQ tp2 = true
                · rw [if_pos hemp2] at hrun
                  injection hrun with hpair
                  injection hpair with hseq hreq
                  rw [← hseq]
                  refine ⟨⟨front ++ post₂.dropLast, d :: fl, ?_⟩, ?_⟩
                  · exact shape_splice_out s hd mids tl fl ((s.pcbs pid).p_semAdd) d loc
                      front post₂ pre2 tp2 hs heq he2 hkeyd' hkM hnxt _
                  · intro i
                    show ((setSemAdd h2 rid 0) i).p_semAdd = (s.pcbs i).p_semAdd ∨
                      ((setSemAdd h2 rid 0) i).p_semAdd = 0
                    rw [setSemAdd_semAdd]
                    by_cases hir : i = rid
                    · rw [if_pos hir]
                      exact Or.inr rfl
                    · rw [if_neg hir]
                      exact Or.inl (outProcQ_frame _ _ _ _ _ _ _ hout i)
                · rw [if_neg hemp2] at hrun
                  injection hrun with hpair
                  injection hpair with hseq hreq
                  rw [← hseq]
                  refine ⟨⟨mids, fl, shape_sSetProcQ s hd mids tl fl hs d tp2 hdmem ?_ _⟩, ?_⟩
                  · intro hdm
                    intro e
                    rw [e] at hemp2
                    exact hemp2 rfl
                  · intro i
                    show ((setSemAdd h2 rid 0) i).p_semAdd = (s.pcbs i).p_semAdd ∨
                      ((setSemAdd h2 rid 0) i).p_semAdd = 0
                    rw [setSemAdd_semAdd]
                    by_cases hir : i = rid
                    · rw [if_pos hir]
                      exact Or.inr rfl
                    · rw [if_neg hir]
                      exact Or.inl (outProcQ_frame _ _ _ _ _ _ _ hout i)

theorem initASL_semds_lt (mp : Nat) (pcbs0 : Heap) (i : Nat) (h : i < mp) :
    (initASL mp pcbs0).semds i =
      { s_next := if i + 1 = mp then none else some (i+1), s_semAdd := 0, s_procQ := mkEmptyProcQ } := by
  simp only [initASL]
  rw [if_pos h]

theorem initASL_semds_hd (mp : Nat) (pcbs0 : Heap) :
    (initASL mp pcbs0).semds mp =
      { s_next := some (mp+1), s_semAdd := 0, s_procQ := mkEmptyProcQ } := by
  simp only [initASL]
  rw [if_neg (by omega : ¬ (mp < mp))]
  simp

theorem initASL_semds_tl (mp : Nat) (pcbs0 : Heap) :
    (initASL mp pcbs0).semds (mp+1) =
      { s_next := none, s_semAdd := MAX_INT, s_procQ := mkEmptyProcQ } := by
  simp only [initASL]
  rw [if_neg (by omega : ¬ (mp + 1 < mp)), if_neg (by omega : ¬ (mp + 1 = mp))]
  simp

theorem chainB_range (g : Nat → Option Nat) (mp : Nat) :
    ∀ (n j : Nat), j + n = mp →
      (∀ i, j ≤ i → i < mp → g i = if i + 1 = mp then none else some (i+1)) →
      chainB g (if n = 0 then none else some j) (List.range' j n) = true := by
  intro n
  induction n with
  | zero =>
    intro j hj hg
    simp [chainB, List.range']
  | succ m ih =>
    intro j hj hg
    rw [if_neg (by omega : ¬ (m + 1 = 0))]
    rw [List.range'_succ]
    simp only [chainB, Bool.and_eq_true, beq_iff_eq]
    refine ⟨by trivial, ?_⟩
    rw [hg j (Nat.le_refl j) (by omega)]
    cases m with
    | zero =>
      rw [if_pos (by omega)]
      simp [List.range', chainB]
    | succ m' =>
      rw [if_neg (by omega : ¬ (j + 1 = mp))]
      have hres := ih (j+1) (by omega) (fun i hi1 hi2 => hg i (by omega) hi2)
      rw [if_neg (by omega : ¬ (m' + 1 = 0))] at hres
      exact hres

theorem initASL_inv (mp : Nat) (pcbs0 : Heap) (hmp : 1 ≤ mp)
    (hp : ∀ i, (pcbs0 i).p_semAdd < MAX_INT) :
    AslShape (initASL mp pcbs0) mp [] (mp+1) (List.range mp) ∧
    (∀ i, ((initASL mp pcbs0).pcbs i).p_semAdd < MAX_INT) := by
  refine ⟨⟨?_, ?_, ?_, ?_, ?_, ?_, ?_, ?_, ?_⟩, ?_⟩
  · -- active chain: the two sentinels
    show chainB (nextOf (initASL mp pcbs0).semds) (some mp) (mp :: ([] ++ [mp+1])) = true
    simp only [List.nil_append, chainB, Bool.and_eq_true, beq_iff_eq]
    refine ⟨by trivial, ?_⟩
    have h1 : nextOf (initASL mp pcbs0).semds mp = some (mp+1) := by
      show ((initASL mp pcbs0).semds mp).s_next = some (mp+1)
      rw [initASL_semds_hd]
    rw [h1]
    simp only [chainB, Bool.and_eq_true, beq_iff_eq]
    refine ⟨by trivial, ?_⟩
    have h2 : nextOf (initASL mp pcbs0).semds (mp+1) = none := by
      show ((initASL mp pcbs0).semds (mp+1)).s_next = none
      rw [initASL_semds_tl]
    rw [h2]
    rfl
  · -- free chain: descriptors 0 .. mp-1 in ascending order
    show chainB (nextOf (initASL mp pcbs0).semds) (some 0) (List.range mp) = true
    have hres := chainB_range (nextOf (initASL mp pcbs0).semds) mp mp 0 (by omega) ?_
    · rw [if_neg (by omega : ¬ (mp = 0))] at hres
      rw [List.range_eq_range']
      exact hres
    · intro i hi1 hi2
      show ((initASL mp pcbs0).semds i).s_next = _
      rw [initASL_semds_lt mp pcbs0 i hi2]
  · -- all descriptor indices distinct
    show ((mp :: ([] ++ [mp+1])) ++ List.range mp).Nodup
    simp only [List.nil_append, List.cons_append, List.nodup_cons, List.mem_cons,
      List.mem_append, List.mem_range, List.nodup_append, List.nodup_range]
    refine ⟨?_, ?_, ?_⟩
    · intro h
      rcases h with h1 | h2
      · omega
      · omega
    · intro h
      omega
    · simp [List.nodup_range]
  · -- keys [0, MAX_INT] strictly ascend
    show List.Chain' (· < ·) (keysOf (initASL mp pcbs0).semds (mp :: ([] ++ [mp+1])))
    have hmap : keysOf (initASL mp pcbs0).semds (mp :: ([] ++ [mp+1])) = [0, MAX_INT] := by
      simp only [List.nil_append, keysOf, List.map_cons, List.map_nil]
      rw [initASL_semds_hd, initASL_semds_tl]
    rw [hmap]
    refine List.chain'_cons.mpr ⟨?_, ?_⟩
    · decide
    · simp
  · show ((initASL mp pcbs0).semds mp).s_semAdd = 0
    rw [initASL_semds_hd]
  · show ((initASL mp pcbs0).semds (mp+1)).s_semAdd = MAX_INT
    rw [initASL_semds_tl]
  · intro x hx
    rcases List.mem_cons.mp hx with hx1 | hx2
    · show ((initASL mp pcbs0).semds x).s_semAdd < MAX_INT
      rw [hx1, initASL_semds_hd]
      show (0:Nat) < MAX_INT
      decide
    · exact absurd hx2 (List.not_mem_nil x)
  · intro d hd
    exact absurd hd (List.not_mem_nil d)
  · intro f hf
    have hflt : f < mp := List.mem_range.mp hf
    show ((initASL mp pcbs0).semds f).s_procQ = none
    rw [initASL_semds_lt mp pcbs0 f hflt]
    rfl
  · intro i
    exact hp i

theorem execAslOp_inv (fuel : Nat) (s s' : AslState) (op : AslOp)
    (hinv : AslInv s) (hop : validOpB op = true)
    (hrun : execAslOp fuel s op = some s') : AslInv s' := by
  obtain ⟨⟨hd, mids, tl, fl, hs⟩, hpk⟩ := hinv
  cases op with
  | insB k p =>
    simp only [validOpB, Bool.and_eq_true, decide_eq_true_eq] at hop
    cases hib : insertBlocked s k p fuel with
    | none =>
      simp only [execAslOp, hib] at hrun
      exact Option.noConfusion hrun
    | some pr =>
      obtain ⟨s1, r⟩ := pr
      simp only [execAslOp, hib] at hrun
      have hs1 : s1 = s' := by
        injection hrun
      subst hs1
      obtain ⟨hshape, hsem⟩ := insertBlocked_shape s hd mids tl fl k p fuel s1 r hs hop.1 hop.2 hib
      obtain ⟨mids', fl', hshape'⟩ := hshape
      refine ⟨⟨hd, mids', tl, fl', hshape'⟩, ?_⟩
      intro i
      rcases hsem i with h1 | h2
      · rw [h1]; exact hpk i
      · rw [h2]; exact hop.2
  | remB k =>
    simp only [validOpB, Bool.and_eq_true, decide_eq_true_eq] at hop
    cases hhb : headBlocked s k fuel with
    | none =>
      have hnone : removeBlocked s k fuel fuel = none := by
        simp only [removeBlocked, hhb]
      simp only [execAslOp, hnone] at hrun
      exact Option.noConfusion hrun
    | some pr =>
      obtain ⟨s1, hb⟩ := pr
      have hstep : removeBlocked s k fuel fuel = outBlocked s1 hb fuel fuel := by
        simp only [removeBlocked, hhb]
      obtain ⟨e1, e2, e3, hsem1⟩ := headBlocked_state s k fuel s1 hb hhb
      have hs1 : AslShape s1 hd mids tl fl := by
        obtain ⟨c1, c2, c3, c4, c5, c6, c7, c8, c9⟩ := hs
        refine ⟨?_, ?_, c3, ?_, ?_, ?_, ?_, ?_, ?_⟩
        · rw [e1, e2]; exact c1
        · rw [e1, e3]; exact c2
        · rw [e1]; exact c4
        · rw [e1]; exact c5
        · rw [e1]; exact c6
        · intro x hx
          rw [e1]
          exact c7 x hx
        · intro d hdm
          rw [e1]
          exact c8 d hdm
        · intro f hf
          rw [e1]
          exact c9 f hf
      have hpk1 : ∀ i, (s1.pcbs i).p_semAdd < MAX_INT := by
        intro i
        rcases hsem1 i with h1 | h2
        · rw [h1]; exact hpk i
        · rw [h2]; exact hop.2
      cases hob : outBlocked s1 hb fuel fuel with
      | none =>
        rw [hob] at hstep
        simp only [execAslOp, hstep] at hrun
        exact Option.noConfusion hrun
      | some pr2 =>
        obtain ⟨s2, res⟩ := pr2
        rw [hob] at hstep
        simp only [execAslOp, hstep] at hrun
        have hs2 : s2 = s' := by
          injection hrun
        subst hs2
        obtain ⟨⟨mids', fl', hshape'⟩, hsem2⟩ :=
          outBlocked_shape s1 hd mids tl fl hb fuel fuel s2 res hs1 hpk1 hob
        refine ⟨⟨hd, mids', tl, fl', hshape'⟩, ?_⟩
        intro i
        rcases hsem2 i with h1 | h2
        · rw [h1]; exact hpk1 i
        · rw [h2]; decide
  | outB p =>
    cases hob : outBlocked s p fuel fuel with
    | none =>
      simp only [execAslOp, hob] at hrun
      exact Option.noConfusion hrun
    | some pr =>
      obtain ⟨s2, res⟩ := pr
      simp only [execAslOp, hob] at hrun
      have hs2 : s2 = s' := by
        injection hrun
      subst hs2
      obtain ⟨⟨mids', fl', hshape'⟩, hsem2⟩ :=
        outBlocked_shape s hd mids tl fl p fuel fuel s2 res hs hpk hob
      refine ⟨⟨hd, mids', tl, fl', hshape'⟩, ?_⟩
      intro i
      rcases hsem2 i with h1 | h2
      · rw [h1]; exact hpk i
      · rw [h2]; decide

theorem runAsl_inv (fuel : Nat) (ops : List AslOp) : ∀ (s s' : AslState),
    AslInv s → (∀ op ∈ ops, validOpB op = true) → runAsl fuel s ops = some s' → AslInv s' := by
  induction ops with
  | nil =>
    intro s s' hinv hops hrun
    simp only [runAsl] at hrun
    injection hrun with h1
    rw [← h1]
    exact hinv
  | cons op rest ih =>
    intro s s' hinv hops hrun
    cases hop1 : execAslOp fuel s op with
    | none =>
      simp only [runAsl, hop1] at hrun
      exact Option.noConfusion hrun
    | some s1 =>
      simp only [runAsl, hop1] at hrun
      exact ih s1 s' (execAslOp_inv fuel s s1 op hinv (hops op (List.mem_cons_self op rest)) hop1)
        (fun o ho => hops o (List.mem_cons_of_mem op ho)) hrun

/-- C7: ASL ordering invariant — after any sequence of insertBlocked /
removeBlocked / outBlocked calls with real keys (strictly between the
sentinel keys) following initASL, the active semaphore list runs from the
key-0 head sentinel to the key-MAX_INT tail sentinel with strictly ascending
keys, hence at most one descriptor per distinct key; and blocking pcbs 0, 1,
2 on keys 5, 1, 3 in that order from `initASL 4` yields the traversal
4, 1, 2, 0, 5 (head sentinel, then the key-1, key-3, key-5 descriptors, then
the tail sentinel), i.e. keys 0, 1, 3, 5, MAX_INT — internal order 1, 3, 5. -/
theorem c7_asl_sorted (mp : Nat) (pcbs0 : Heap) (ops : List AslOp) (fuel : Nat) (s' : AslState)
    (hmp : 1 ≤ mp) (hp : ∀ i, (pcbs0 i).p_semAdd < MAX_INT)
    (hops : ∀ op ∈ ops, validOpB op = true)
    (hrun : runAsl fuel (initASL mp pcbs0) ops = some s') :
    (∃ hd mids tl,
      chainB (nextOf s'.semds) s'.semd_h (hd :: (mids ++ [tl])) = true ∧
      (s'.semds hd).s_semAdd = 0 ∧
      (s'.semds tl).s_semAdd = MAX_INT ∧
      List.Chain' (· < ·) (keysOf s'.semds (hd :: (mids ++ [tl]))) ∧
      (keysOf s'.semds (hd :: (mids ++ [tl]))).Nodup) ∧
    (chase (nextOf c7s.semds) c7s.semd_h 9 = some [4, 1, 2, 0, 5] ∧
     keysOf c7s.semds [4, 1, 2, 0, 5] = [0, 1, 3, 5, MAX_INT]) := by
  constructor
  · have hinv0 : AslInv (initASL mp pcbs0) := by
      obtain ⟨hshape, hbound⟩ := initASL_inv mp pcbs0 hmp hp
      exact ⟨⟨mp, [], mp+1, List.range mp, hshape⟩, hbound⟩
    obtain ⟨⟨hd, mids, tl, fl, hshape⟩, hbound⟩ := runAsl_inv fuel ops _ s' hinv0 hops hrun
    obtain ⟨c1, c2, c3, c4, c5, c6, c7, c8, c9⟩ := hshape
    refine ⟨hd, mids, tl, c1, c5, c6, c4, ?_⟩
    have hpw := List.chain'_iff_pairwise.mp c4
    exact List.Pairwise.imp (fun h => Nat.ne_of_lt h) hpw
  · constructor
    · decide
    · decide

/-- C7 witness: the general theorem applied to the concrete 5, 1, 3 run of
the claim, `initASL 4` with the all-zero pcb heap, discharging every
hypothesis at that input. -/
theorem c7_asl_sorted_witness :
    (∃ hd mids tl,
      chainB (nextOf c7s.semds) c7s.semd_h (hd :: (mids ++ [tl])) = true ∧
      (c7s.semds hd).s_semAdd = 0 ∧
      (c7s.semds tl).s_semAdd = MAX_INT ∧
      List.Chain' (· < ·) (keysOf c7s.semds (hd :: (mids ++ [tl]))) ∧
      (keysOf c7s.semds (hd :: (mids ++ [tl]))).Nodup) ∧
    (chase (nextOf c7s.semds) c7s.semd_h 9 = some [4, 1, 2, 0, 5] ∧
     keysOf c7s.semds [4, 1, 2, 0, 5] = [0, 1, 3, 5, MAX_INT]) :=
  c7_asl_sorted 4 h0 [AslOp.insB 5 (some 0), AslOp.insB 1 (some 1), AslOp.insB 3 (some 2)] 9 c7s
    (by decide) (fun i => by show (0:Nat) < MAX_INT; decide) (by decide) rfl

theorem queueRep_head (h : Heap) (t a : Nat) (rest : List Nat)
    (hrep : queueRep h (some t) (a :: rest)) : (h t).p_next = some a := by
  obtain ⟨hlast, hnd, hlinks⟩ := hrep
  cases rest with
  | nil =>
    have hta : t = a := by simpa using hlast.symm
    subst hta
    exact hlinks.1.1
  | cons b rest' =>
    rcases (links_append h (b :: rest') [a]).mp hlinks.2 with ⟨-, -, hbound⟩
    have hlast2 : (b :: rest').getLast? = some t := by
      rw [← List.getLast?_cons_cons]
      exact hlast
    exact (hbound t a hlast2 rfl).1

theorem queueRep_setSemAdd (h : Heap) (x v : Nat) (tp : Option Nat) (l : List Nat)
    (hrep : queueRep h tp l) : queueRep (setSemAdd h x v) tp l := by
  cases tp with
  | none =>
    cases l with
    | nil => trivial
    | cons a rest => exact absurd hrep (by simp [queueRep])
  | some t =>
    cases l with
    | nil => exact absurd hrep (by simp [queueRep])
    | cons a rest =>
      obtain ⟨hlast, hnd, hlinks⟩ := hrep
      refine ⟨hlast, hnd, ?_⟩
      refine links_congr h (setSemAdd h x v) _ ?_ ?_ hlinks
      · intro z hz
        rw [setSemAdd_next]
      · intro z hz
        rw [setSemAdd_prev]

theorem outProcQLoop_det (h : Heap) (t pid : Nat) :
    ∀ (f1 : Nat) (iter : Option Nat) (v1 v2 : Heap × Option Nat × Option Nat) (f2 : Nat),
      outProcQLoop h t pid iter f1 = some v1 → outProcQLoop h t pid iter f2 = some v2 →
      v1 = v2 := by
  intro f1
  induction f1 with
  | zero =>
    intro iter v1 v2 f2 h1 h2
    simp [outProcQLoop] at h1
  | succ f1' ih =>
    intro iter v1 v2 f2 h1 h2
    cases iter with
    | none => simp [outProcQLoop] at h1
    | some i =>
      cases f2 with
      | zero => simp [outProcQLoop] at h2
      | succ f2' =>
        by_cases hip : i = pid
        · cases hpv : (h i).p_prev with
          | none =>
            have hrun : outProcQLoop h t pid (some i) (f1'+1) = none := by
              simp only [outProcQLoop, if_pos hip, hpv]
            rw [hrun] at h1
            exact Option.noConfusion h1
          | some ip =>
            cases hnx : (setNext h ip ((h i).p_next) i).p_next with
            | none =>
              have hrun : outProcQLoop h t pid (some i) (f1'+1) = none := by
                simp only [outProcQLoop, if_pos hip, hpv, hnx]
              rw [hrun] at h1
              exact Option.noConfusion h1
            | some inx =>
              have hrun1 : outProcQLoop h t pid (some i) (f1'+1) =
                  some (setPrev (setNext (setPrev (setNext h ip ((h i).p_next)) inx
                      ((setNext h ip ((h i).p_next)) i).p_prev) i none) i none,
                    (if i = t then (if (h i).p_next = some i then none else (h i).p_prev) else some t),
                    some pid) := by
                simp only [outProcQLoop, if_pos hip, hpv, hnx]
              have hrun2 : outProcQLoop h t pid (some i) (f2'+1) =
                  some (setPrev (setNext (setPrev (setNext h ip ((h i).p_next)) inx
                      ((setNext h ip ((h i).p_next)) i).p_prev) i none) i none,
                    (if i = t then (if (h i).p_next = some i then none else (h i).p_prev) else some t),
                    some pid) := by
                simp only [outProcQLoop, if_pos hip, hpv, hnx]
              rw [hrun1] at h1
              rw [hrun2] at h2
              injection h1 with h1'
              injection h2 with h2'
              rw [← h1', ← h2']
        · have hstep1 : outProcQLoop h t pid (some i) (f1'+1) =
              (if (h i).p_next = some t then some (h, some t, none)
               else outProcQLoop h t pid ((h i).p_next) f1') := by
            simp only [outProcQLoop, if_neg hip]
          have hstep2 : outProcQLoop h t pid (some i) (f2'+1) =
              (if (h i).p_next = some t then some (h, some t, none)
               else outProcQLoop h t pid ((h i).p_next) f2') := by
            simp only [outProcQLoop, if_neg hip]
          rw [hstep1] at h1
          rw [hstep2] at h2
          by_cases hnt : (h i).p_next = some t
          · rw [if_pos hnt] at h1 h2
            injection h1 with h1'
            injection h2 with h2'
            rw [← h1', ← h2']
          · rw [if_neg hnt] at h1 h2
            exact ih _ v1 v2 f2' h1 h2

theorem outProcQ_det (h : Heap) (tp p : Option Nat) (f1 f2 : Nat)
    (v1 v2 : Heap × Option Nat × Option Nat)
    (h1 : outProcQ h tp p f1 = some v1) (h2 : outProcQ h tp p f2 = some v2) : v1 = v2 := by
  cases p with
  | none =>
    simp only [outProcQ] at h1 h2
    injection h1 with h1'
    injection h2 with h2'
    rw [← h1', ← h2']
  | some pid =>
    cases tp with
    | none =>
      simp only [outProcQ] at h1 h2
      injection h1 with h1'
      injection h2 with h2'
      rw [← h1', ← h2']
    | some t => exact outProcQLoop_det h t pid f1 (some t) v1 v2 f2 h1 h2

theorem shape_find_key (s : AslState) (hd : Nat) (mids : List Nat) (tl : Nat) (fl : List Nat)
    (k d : Nat) (hs : AslShape s hd mids tl fl) (hdm : d ∈ mids)
    (hkeyd : (s.semds d).s_semAdd = k) (hkM : k < MAX_INT) :
    ∃ front post₂ pre2 loc,
      mids ++ [tl] = front ++ d :: post₂ ∧
      hd :: front = pre2 ++ [loc] ∧
      (∀ fu v, travLoop s.semds k s.semd_h fu = some v → v = some loc) ∧
      (∀ fu, pre2.length + 1 ≤ fu → travLoop s.semds k s.semd_h fu = some (some loc)) ∧
      (s.semds loc).s_next = some d ∧
      (∀ y ∈ post₂, k < (s.semds y).s_semAdd) ∧
      (∀ y ∈ front, (s.semds y).s_semAdd < k) := by
  obtain ⟨front, d', post₂, pre2, loc, heq, hpre, he2, hflt, hdk, hdet, hex, hnxt, hlocmem⟩ :=
    shape_traverse s hd mids tl fl k hs (Nat.le_of_lt hkM)
  have hsort := hs.2.2.2.1
  have hpw : List.Pairwise (· < ·) (keysOf s.semds ((hd :: front) ++ d' :: post₂)) := by
    rw [← List.chain'_iff_pairwise]
    have hl : hd :: (mids ++ [tl]) = (hd :: front) ++ d' :: post₂ := by
      rw [heq]
      simp
    rw [← hl]
    exact hsort
  have hpwR : List.Pairwise (· < ·) ((s.semds d').s_semAdd :: keysOf s.semds post₂) := by
    have := (List.pairwise_append.mp (by
      rw [keysOf] at hpw
      rw [List.map_append] at hpw
      exact hpw)).2.1
    simpa [keysOf] using this
  have hpost : ∀ y ∈ post₂, (s.semds d').s_semAdd < (s.semds y).s_semAdd := by
    intro y hy
    have := (List.pairwise_cons.mp hpwR).1 ((s.semds y).s_semAdd)
    exact this (List.mem_map_of_mem _ hy)
  have hdd : d' = d := by
    have hdmem2 : d ∈ front ++ d' :: post₂ := by
      rw [← heq]
      exact List.mem_append_left _ hdm
    rcases List.mem_append.mp hdmem2 with hf | hr
    · have := hflt d hf
      rw [hkeyd] at this
      omega
    · rcases List.mem_cons.mp hr with h1 | h2
      · exact h1.symm
      · have := hpost d h2
        rw [hkeyd] at this
        omega
  subst hdd
  have hkeq : (s.semds d').s_semAdd = k := hkeyd
  refine ⟨front, post₂, pre2, loc, heq, he2, hdet, hex, hnxt, ?_, hflt⟩
  intro y hy
  have := hpost y hy
  omega

theorem headBlocked_absent (s : AslState) (hd : Nat) (mids : List Nat) (tl : Nat) (fl : List Nat)
    (k : Nat) (hs : AslShape s hd mids tl fl)
    (hk0 : 0 < k) (hkM : k < MAX_INT)
    (habs : ∀ x ∈ mids, (s.semds x).s_semAdd ≠ k) :
    ∀ fu s'' v, headBlocked s k fu = some (s'', v) → s'' = s ∧ v = none := by
  obtain ⟨front, d, post₂, pre2, loc, heq, hpre, he2, hflt, hdk, hdet, hex, hnxt, hlocmem⟩ :=
    shape_traverse s hd mids tl fl k hs (Nat.le_of_lt hkM)
  have hkne : ¬ (k = 0) := by omega
  have hdne : (s.semds d).s_semAdd ≠ k := by
    have hdmem : d ∈ mids ++ [tl] := by
      rw [heq]
      exact List.mem_append_right _ (List.mem_cons_self d post₂)
    rcases List.mem_append.mp hdmem with hm | ht
    · exact habs d hm
    · have htd : d = tl := by simpa using ht
      rw [htd, hs.2.2.2.2.2.1]
      omega
  intro fu s'' v hrun
  cases htr : traverseASL s k fu with
  | none =>
    simp only [headBlocked, htr] at hrun
    exact Option.noConfusion hrun
  | some o =>
    have ho : o = some loc := by
      refine hdet fu o ?_
      have hun : traverseASL s k fu = travLoop s.semds k s.semd_h fu := by
        simp only [traverseASL, if_neg hkne]
      rw [← hun]
      exact htr
    subst ho
    simp only [headBlocked, htr, hnxt] at hrun
    rw [if_pos hdne] at hrun
    injection hrun with hpair
    injection hpair with hs1 hv
    exact ⟨hs1.symm, hv.symm⟩

/-- C3 (amended to the primary asl.c revision, lines 69-91): for every
well-shaped ASL state whose descriptor `d` for key `k` is active with the
non-empty blocked queue `r :: q`, every completed removeBlocked(k) call
dequeues and returns the head `r` and clears `r`'s blockedOn field, and: if
the queue is thereby empty it unlinks `d` from the ASL and pushes it, with
an emptied queue, onto the descriptor free list — so the shape invariant
holds without `d` active and every completed headBlocked(k) afterwards
returns none — while if the queue is still non-empty `d` stays in the ASL
with exactly the remaining queue.  (The cited part_003 revision violates
the blockedOn-clearing part; see its counterexample theorem.) -/
theorem c3_removeBlocked_correct
    (s : AslState) (hd : Nat) (mids : List Nat) (tl : Nat) (fl : List Nat)
    (k d r : Nat) (q : List Nat)
    (fuel qfuel : Nat) (s' : AslState) (res : Option Nat)
    (hs : AslShape s hd mids tl fl)
    (hdm : d ∈ mids) (hkeyd : (s.semds d).s_semAdd = k)
    (hk0 : 0 < k) (hkM : k < MAX_INT)
    (hq : queueRep s.pcbs ((s.semds d).s_procQ) (r :: q))
    (hqf : 2 ≤ qfuel)
    (hrun : removeBlocked s k fuel qfuel = some (s', res)) :
    res = some r ∧
    (s'.pcbs r).p_semAdd = 0 ∧
    (q = [] →
      s'.semdFree_h = some d ∧
      (s'.semds d).s_procQ = none ∧
      (∃ mids', AslShape s' hd mids' tl (d :: fl) ∧ d ∉ mids') ∧
      (∀ fu s'' v, headBlocked s' k fu = some (s'', v) → s'' = s' ∧ v = none)) ∧
    (q ≠ [] →
      AslShape s' hd mids tl fl ∧
      queueRep s'.pcbs ((s'.semds d).s_procQ) q) := by
  obtain ⟨front, post₂, pre2, loc, heq, he2, hdet, hex, hnxt, hpost, hflt⟩ :=
    shape_find_key s hd mids tl fl k d hs hdm hkeyd hkM
  have hkne : ¬ (k = 0) := by omega
  cases hpq : (s.semds d).s_procQ with
  | none =>
    rw [hpq] at hq
    exact False.elim hq
  | some t =>
    rw [hpq] at hq
    have hheadnext : (s.pcbs t).p_next = some r := queueRep_head s.pcbs t r q hq
    simp only [removeBlocked] at hrun
    cases htr : traverseASL s k fuel with
    | none =>
      have hhbnone : headBlocked s k fuel = none := by
        simp only [headBlocked, htr]
      rw [hhbnone] at hrun
      exact Option.noConfusion hrun
    | some o =>
      have ho : o = some loc := by
        refine hdet fuel o ?_
        have hun : traverseASL s k fuel = travLoop s.semds k s.semd_h fuel := by
          simp only [traverseASL, if_neg hkne]
        rw [← hun]
        exact htr
      subst ho
      have hhb : headBlocked s k fuel =
          some ({ s with pcbs := setSemAdd s.pcbs r k }, some r) := by
        simp only [headBlocked, htr, hnxt]
        rw [if_neg (not_not_intro hkeyd), hpq]
        rw [if_neg (by simp [emptyProcQ])]
        simp only [headProcQ, hheadnext]
      rw [hhb] at hrun
      -- now hrun is the outBlocked call on the pcb-updated state
      simp only [outBlocked, setSemAdd_semAdd, eq_self_iff_true, if_true] at hrun
      rw [if_neg hkne] at hrun
      cases htr2 : traverseASL { s with pcbs := setSemAdd s.pcbs r k } k fuel with
      | none =>
        simp only [htr2] at hrun
        exact Option.noConfusion hrun
      | some o2 =>
        have ho2 : o2 = some loc := by
          refine hdet fuel o2 ?_
          have hun : traverseASL { s with pcbs := setSemAdd s.pcbs r k } k fuel
              = travLoop s.semds k s.semd_h fuel := by
            simp only [traverseASL, if_neg hkne]
          rw [← hun]
          exact htr2
        subst ho2
        simp only [htr2, hnxt] at hrun
        rw [if_neg (not_not_intro hkeyd)] at hrun
        simp only [hpq] at hrun
        rw [if_neg (by simp [emptyProcQ])] at hrun
        -- the queue operation, computed through the representation lemma
        have hrep1 : queueRep (setSemAdd s.pcbs r k) (some t) (r :: q) :=
          queueRep_setSemAdd s.pcbs r k (some t) (r :: q) hq
        obtain ⟨h', tp', hout, hrep', hcn, hcp, hempt, hnempt, hfr⟩ :=
          outProcQ_head_rep (setSemAdd s.pcbs r k) t r q (qfuel - 2) hrep1
        have hqf2 : (qfuel - 2) + 2 = qfuel := by omega
        rw [hqf2] at hout
        simp only [hout] at hrun
        simp only [removeEmptySemd, sSetProcQ_next, hnxt, sSetProcQ_procQ,
          eq_self_iff_true, if_true, mkEmptyProcQ] at hrun
        have hsemAdd_r : ∀ (hh : Heap), ((setSemAdd hh r 0) r).p_semAdd = 0 := by
          intro hh
          rw [setSemAdd_semAdd, if_pos rfl]
        cases q with
        | nil =>
          have htpn : tp' = none := hempt rfl
          subst htpn
          rw [if_pos (by simp [emptyProcQ])] at hrun
          injection hrun with hpair
          injection hpair with hseq hres
          refine ⟨hres.symm, ?_, ?_, ?_⟩
          · rw [← hseq]
            exact hsemAdd_r h'
          · intro hqnil
            rw [← hseq]
            have hkeyG : ∀ x,
                ((sSetNext (sSetProcQ (sSetNext (sSetProcQ s.semds d none) loc ((s.semds d).s_next)) d none) d s.semdFree_h x).s_semAdd)
                  = (s.semds x).s_semAdd := by
              intro x
              rw [sSetNext_semAdd, sSetProcQ_semAdd, sSetNext_semAdd, sSetProcQ_semAdd]
            have hshape' := shape_splice_out s hd mids tl fl k d loc front post₂ pre2 none
              hs heq he2 hkeyd hkM hnxt (setSemAdd h' r 0)
            have hdnotmid : d ∉ front ++ post₂.dropLast := by
              intro hmem
              rcases List.mem_append.mp hmem with hf | hdl
              · have := hflt d hf
                omega
              · have := hpost d (List.dropLast_subset post₂ hdl)
                omega
            refine ⟨rfl, ?_, ⟨front ++ post₂.dropLast, hshape', hdnotmid⟩, ?_⟩
            · show ((sSetNext (sSetProcQ (sSetNext (sSetProcQ s.semds d none) loc ((s.semds d).s_next)) d none) d s.semdFree_h d).s_procQ) = none
              rw [sSetNext_procQ, sSetProcQ_procQ, if_pos rfl]
            · refine headBlocked_absent _ hd (front ++ post₂.dropLast) tl (d :: fl) k
                hshape' hk0 hkM ?_
              intro x hx
              show _ ≠ k
              rw [hkeyG x]
              rcases List.mem_append.mp hx with hf | hdl
              · have := hflt x hf
                omega
              · have := hpost x (List.dropLast_subset post₂ hdl)
                omega
          · intro hqne
            exact absurd rfl hqne
        | cons b q' =>
          have htps : tp' = some t := hnempt (by simp)
          subst htps
          rw [if_neg (by simp [emptyProcQ])] at hrun
          injection hrun with hpair
          injection hpair with hseq hres
          refine ⟨hres.symm, ?_, ?_, ?_⟩
          · rw [← hseq]
            exact hsemAdd_r h'
          · intro hqnil
            exact absurd hqnil (by simp)
          · intro hqne
            rw [← hseq]
            have hdmem : d ∈ hd :: (mids ++ [tl]) :=
              List.mem_cons_of_mem hd (List.mem_append_left _ hdm)
            refine ⟨?_, ?_⟩
            · exact shape_sSetProcQ s hd mids tl fl hs d (some t) hdmem
                (fun _ => by simp) (setSemAdd h' r 0)
            · show queueRep (setSemAdd h' r 0) ((sSetProcQ s.semds d (some t) d).s_procQ) (b :: q')
              rw [sSetProcQ_procQ, if_pos rfl]
              exact queueRep_setSemAdd h' r 0 (some t) (b :: q') hrep'

/-- C3 witness: the amended theorem applied to the concrete state `c3s`
(descriptor 0 holds key 5 with queue [0, 1]); removeBlocked returns pcb 0
with its blockedOn cleared and descriptor 0 stays active with queue [1]. -/
theorem c3_removeBlocked_correct_witness :
    c3run.2 = some 0 ∧
    (c3run.1.pcbs 0).p_semAdd = 0 ∧
    (([1] : List Nat) = [] →
      c3run.1.semdFree_h = some 0 ∧
      (c3run.1.semds 0).s_procQ = none ∧
      (∃ mids', AslShape c3run.1 2 mids' 3 (0 :: [1]) ∧ 0 ∉ mids') ∧
      (∀ fu s'' v, headBlocked c3run.1 5 fu = some (s'', v) → s'' = c3run.1 ∧ v = none)) ∧
    (([1] : List Nat) ≠ [] →
      AslShape c3run.1 2 [0] 3 [1] ∧
      queueRep c3run.1.pcbs ((c3run.1.semds 0).s_procQ) [1]) :=
  c3_removeBlocked_correct c3s 2 [0] 3 [1] 5 0 0 [1] 9 9 c3run.1 c3run.2
    (by
      simp only [AslShape]
      refine ⟨by decide, by decide, by decide, ?_, by decide, by decide, by decide,
        by decide, by decide⟩
      have hk : keysOf c3s.semds (2 :: ([0] ++ [3])) = [0, 5, MAX_INT] := by decide
      rw [hk]
      refine List.chain'_cons.mpr ⟨by decide, ?_⟩
      refine List.chain'_cons.mpr ⟨by decide, ?_⟩
      simp)
    (by decide) (by decide) (by decide) (by decide) (by decide) (by decide) rfl

/-- C4 (amended): insertBlocked's rejections are atomic only for NULL inputs —
rejecting a NULL pcb or a NULL key returns true with the state untouched, but
the free-list-exhaustion rejection (the only other way to return true, and it
implies the descriptor free list was empty) has already recorded the key in
the pcb's blockedOn field: the returned state is exactly the input state with
`p->p_semAdd = semAdd` applied, so state is NOT left untouched there (the
cited claim's atomicity fails precisely in that field). -/
theorem c4_insertBlocked_rejection (s : AslState) (k : Nat) (p : Option Nat) (fuel : Nat)
    (s' : AslState) (hrun : insertBlocked s k p fuel = some (s', true)) :
    (p = none → s' = s) ∧
    (p ≠ none → k = 0 → s' = s) ∧
    (∀ pid, p = some pid → k ≠ 0 →
      s.semdFree_h = none ∧
      s' = { s with pcbs := setSemAdd s.pcbs pid k } ∧
      (s'.pcbs pid).p_semAdd = k) := by
  cases p with
  | none =>
    simp only [insertBlocked] at hrun
    injection hrun with hpair
    injection hpair with hseq hreq
    exact ⟨fun _ => hseq.symm, fun hne _ => hseq.symm, fun pid hp => Option.noConfusion hp⟩
  | some pid =>
    by_cases hk : k = 0
    · simp only [insertBlocked, if_pos hk] at hrun
      injection hrun with hpair
      injection hpair with hseq hreq
      exact ⟨fun hp => Option.noConfusion hp, fun _ _ => hseq.symm,
        fun pid' hp hkne => absurd hk hkne⟩
    · simp only [insertBlocked, if_neg hk] at hrun
      cases htr : traverseASL { s with pcbs := setSemAdd s.pcbs pid k } k fuel with
      | none =>
        simp only [htr] at hrun
        exact Option.noConfusion hrun
      | some o =>
        simp only [htr] at hrun
        cases o with
        | none => exact Option.noConfusion hrun
        | some loc =>
          cases hnx : (s.semds loc).s_next with
          | none =>
            simp only [hnx] at hrun
            exact Option.noConfusion hrun
          | some nid =>
            simp only [hnx] at hrun
            by_cases hkey : (s.semds nid).s_semAdd = k
            · rw [if_pos hkey] at hrun
              cases hins : insertProcQ (setSemAdd s.pcbs pid k) ((s.semds nid).s_procQ) (some pid) with
              | none =>
                simp only [hins] at hrun
                exact Option.noConfusion hrun
              | some pr =>
                obtain ⟨h2, tp2⟩ := pr
                simp only [hins] at hrun
                injection hrun with hpair
                injection hpair with hseq hreq
                exact Bool.noConfusion hreq
            · rw [if_neg hkey] at hrun
              cases hfh : s.semdFree_h with
              | none =>
                simp only [hfh] at hrun
                injection hrun with hpair
                injection hpair with hseq hreq
                refine ⟨fun hp => Option.noConfusion hp, fun _ hk0 => absurd hk0 hk, ?_⟩
                intro pid' hp hkne
                injection hp with hpp
                rw [← hpp]
                refine ⟨rfl, ?_, ?_⟩
                · exact hseq.symm
                · rw [← hseq]
                  show ((setSemAdd s.pcbs pid k) pid).p_semAdd = k
                  rw [setSemAdd_semAdd, if_pos rfl]
              | some f =>
                simp only [hfh, sSetSemAdd_procQ, sSetProcQ_procQ, eq_self_iff_true, if_true,
                  mkEmptyProcQ, insertProcQ] at hrun
                injection hrun with hpair
                injection hpair with hseq hreq
                exact Bool.noConfusion hreq

/-- C4 witness: the concrete exhausted state `c4s` (initASL 1 with its only
descriptor consumed by key 5); insertBlocked of pcb 1 on key 7 returns true
yet the returned state carries `p_semAdd = 7` on pcb 1. -/
theorem c4_insertBlocked_rejection_witness :
    ((some 1 : Option Nat) = none → c4run.1 = c4s) ∧
    ((some 1 : Option Nat) ≠ none → (7 : Nat) = 0 → c4run.1 = c4s) ∧
    (∀ pid, (some 1 : Option Nat) = some pid → (7 : Nat) ≠ 0 →
      c4s.semdFree_h = none ∧
      c4run.1 = { c4s with pcbs := setSemAdd c4s.pcbs pid 7 } ∧
      (c4run.1.pcbs pid).p_semAdd = 7) :=
  c4_insertBlocked_rejection c4s 7 (some 1) 9 c4run.1 rfl
